import Mathlib

/-!
Push approximation of the rooted PageRank: a verification development.

Shallow embedding of `push.c`, `allpush.c` and the power iteration of
`RootedPageRankEPS.c` (Maximilien Danisch).

Conventions of the embedding.

* A C array is a total map from indices to values (`Nat → Nat`, `Nat → ℚ`); a
  write `a[i] = x` is `Function.update a i x`.  Cells that `malloc` leaves
  indeterminate are given the value `0`; `calloc` gives `0` as in C.
* The arrays `list` of the two dictionaries have `nmax` entries, and the source
  appends to them without a test.  A dictionary carries a flag `oob` that is
  set by the first store outside its `list`; from that store on the C program
  has no defined behaviour, `push` has no result in the model, and statements
  about the state of a run are made for states whose flags are not set.  On a
  built graph and for a source below `n`, the other arrays are only indexed by
  node ids below `n` and by positions that are proved to stay inside them.
* `unsigned long` / `unsigned long long` are `Nat`.  The one place where such a
  value can pass `2^64 - 1` on an input that fits in memory is the increment
  `g->n++` at the end of `readedgelist`, which is taken modulo `2^64`.
* `double` is read as exact rational arithmetic, `ℚ`.
* A `while` loop is run with a bound on the number of iterations.
-/

namespace PushC

/-! ## Graph store -/

/-- The C struct `edge`: a directed edge `s -> t`. -/
structure edge where
  s : Nat
  t : Nat
deriving DecidableEq

/-- The C struct `adjlist`.  `edges` is the array of the `e` input edges,
`d` the out-degrees, `cd` the cumulative out-degrees and `adj` the concatenated
lists of out-neighbours. -/
structure adjlist where
  n : Nat
  e : Nat
  edges : List edge
  d : Nat → Nat
  cd : Nat → Nat
  adj : Nat → Nat

/-- The function `max3` of the source. -/
def max3 (a b c : Nat) : Nat :=
  let a := if a > b then a else b
  if a > c then a else c

/-- What one conversion `%lu` of the C library meets in the input after the
white space it skips (line ends included): `num v`, text that it converts to
the value `v` (an `unsigned long`, so `v < 2^64`), or `junk`, text on which it
fails (a letter, say).  The end of the file, where the conversion fails too, is
the end of the list. -/
inductive Tok where
  | num (v : Nat)
  | junk
deriving DecidableEq

/-- The loop `while (fscanf(file,"%lu %lu",&s,&t)==2) { ... }` of
`readedgelist`: `n` is the running maximum, `acc` the edges stored so far.  The loop ends at the
first call of `fscanf` that does not convert two numbers. -/
def readloop : Nat → List edge → List Tok → Nat × List edge
  | n, acc, Tok.num s :: Tok.num t :: rest => readloop (max3 n s t) (acc ++ [⟨s, t⟩]) rest
  | n, acc, _ => (n, acc)

/-- The function `readedgelist` of the source, on the token view of the file.
It has no failure result: it always returns a graph.  The final `g->n++` is an
increment of an `unsigned long`: it wraps to 0 when the largest id read is
`2^64 - 1`. -/
def readedgelist (input : List Tok) : adjlist :=
  let res := readloop 0 [] input
  { n := (res.1 + 1) % 2 ^ 64, e := res.2.length, edges := res.2,
    d := fun _ => 0, cd := fun _ => 0, adj := fun _ => 0 }

/-- First loop of `mkadjlist`: `d[edges[j].s]++` for every edge. -/
def countdeg (es : List edge) (d : Nat → Nat) : Nat → Nat :=
  es.foldl (fun d ed => Function.update d ed.s (d ed.s + 1)) d

/-- Second loop of `mkadjlist`, for `i = 1 .. n`:
`cd[i] = cd[i-1] + d[i-1]; d[i-1] = 0`.  The state is the pair `(cd, d)`. -/
def cumul (n : Nat) (cd d : Nat → Nat) : (Nat → Nat) × (Nat → Nat) :=
  (List.range' 1 n).foldl
    (fun st i => (Function.update st.1 i (st.1 (i - 1) + st.2 (i - 1)),
                  Function.update st.2 (i - 1) 0))
    (cd, d)

/-- Third loop of `mkadjlist`: `adj[cd[s] + d[s]++] = t` for every edge.
The state is the pair `(adj, d)`. -/
def scatter (cd : Nat → Nat) (es : List edge) (adj d : Nat → Nat) :
    (Nat → Nat) × (Nat → Nat) :=
  es.foldl
    (fun st ed => (Function.update st.1 (cd ed.s + st.2 ed.s) ed.t,
                   Function.update st.2 ed.s (st.2 ed.s + 1)))
    (adj, d)

/-- The function `mkadjlist` of the source.  The loops over `j < e` read the
first `e` entries of `edges`; the array `edges` is freed at the end. -/
def mkadjlist (g : adjlist) : adjlist :=
  let es := g.edges.take g.e
  let d1 := countdeg es (fun _ => 0)
  let c := cumul g.n (Function.update (fun _ => 0) 0 0) d1
  let a := scatter c.1 es (fun _ => 0) c.2
  { n := g.n, e := g.e, edges := [], d := a.2, cd := c.1, adj := a.1 }

/-- The graph record that `readedgelist` hands to `mkadjlist` for the edge
array `es` and node count `n`. -/
def rawgraph (n : Nat) (es : List edge) : adjlist :=
  { n := n, e := es.length, edges := es, d := fun _ => 0, cd := fun _ => 0, adj := fun _ => 0 }

/-- The out-neighbours of node `s` as the built graph stores them:
`adj[cd[s] .. cd[s+1])`. -/
def neighbors (g : adjlist) (s : Nat) : List Nat :=
  (List.range' (g.cd s) (g.cd (s + 1) - g.cd s)).map g.adj

/-- Every pair `(s, adj[i])` with `s < n` and `cd[s] <= i < cd[s+1]`. -/
def csredges (g : adjlist) : List edge :=
  (List.range g.n).flatMap (fun s => (neighbors g s).map (fun t => (⟨s, t⟩ : edge)))

/-- Targets of the input edges that leave `x`, in input order. -/
def outs (es : List edge) (x : Nat) : List Nat :=
  (es.filter (fun ed => ed.s = x)).map edge.t

/-- Prefix sums of the degrees. -/
def psum (d : Nat → Nat) (i : Nat) : Nat := ((List.range i).map d).sum

/-! ## Sparse accounting set -/

/-- The C struct `Dict`: `list[0..n)` are the touched node ids, `val` the dense
array of values.  The array `list` has `nmax` entries.  The last field is not in
the C struct: `oob` records that a store `list[i] = v` with `i >= nmax`, outside
the array, has been made.  From that store on the C program has no defined
behaviour, and what the other fields hold says nothing about it. -/
structure Dict where
  nmax : Nat
  n : Nat
  list : Nat → Nat
  val : Nat → ℚ
  oob : Bool

/-- The function `allocdict` of the source: `list` is allocated with `n`
entries. -/
def allocdict (n : Nat) : Dict :=
  { nmax := n, n := 0, list := fun _ => 0, val := fun _ => 0, oob := false }

/-- The statement `dict->list[(dict->n)++] = v`.  The source makes the store
without comparing `n` with `nmax`; when `n >= nmax` it is outside `list`, and
`oob` is set. -/
def Dict.add (dict : Dict) (v : Nat) : Dict :=
  { dict with
    list := Function.update dict.list dict.n v, n := dict.n + 1,
    oob := dict.oob || decide (dict.nmax ≤ dict.n) }

/-- The touched list of a dictionary: `list[0], ..., list[n-1]`. -/
def Dict.touched (dict : Dict) : List Nat := (List.range dict.n).map dict.list

/-- The sum of the first `n` entries of a dense array of values. -/
def vsum (f : Nat → ℚ) (n : Nat) : ℚ := ((List.range n).map f).sum

/-- The records that `print_dict` writes: for `i < dict->n`, the node
`u = dict->list[i]` and its value `dict->val[u]`. -/
def print_dict (dict : Dict) : List (Nat × ℚ) :=
  (List.range dict.n).map (fun i => (dict.list i, dict.val (dict.list i)))

/-! ## Push engine -/

/-- The local state of `push`: the worklist `list[0..n)` of nodes waiting for a
push, the counter `it` of iterations, and the dictionaries `r` and `p`. -/
structure PushState where
  n : Nat
  list : Nat → Nat
  it : Nat
  r : Dict
  p : Dict

/-- The worklist of a state, bottom of the stack first. -/
def PushState.wl (st : PushState) : List Nat := (List.range st.n).map st.list

/-- The body of the loop `for (i=g->cd[u]; i<g->cd[u+1]; i++)` of `push`, for
the popped node `u` holding `val`.  `thr v` is the threshold that the source
writes `eps` (in `push.c`) or `eps*g->d[v]` (in `allpush.c`). -/
def relax (g : adjlist) (alpha : ℚ) (thr : Nat → ℚ) (u : Nat) (val : ℚ)
    (st : PushState) (i : Nat) : PushState :=
  let v := g.adj i
  let r1 := if st.r.val v = 0 then st.r.add v else st.r
  if r1.val v < thr v then
    let r2 := { r1 with
      val := Function.update r1.val v (r1.val v + (1 - alpha) * val / ((g.d u : Nat) : ℚ)) }
    if r2.val v > thr v then
      { st with r := r2, list := Function.update st.list st.n v, n := st.n + 1 }
    else
      { st with r := r2 }
  else
    { st with r := { r1 with
        val := Function.update r1.val v (r1.val v + (1 - alpha) * val / ((g.d u : Nat) : ℚ)) } }

/-- The first statements of the body of `while (n>0)`: `it++`, the pop
`u=list[--n]`, `val=r->val[u]; r->val[u]=0`, and the update of `p`. -/
def popnode (alpha : ℚ) (st : PushState) : PushState :=
  let u := st.list (st.n - 1)
  let val := st.r.val u
  let p1 := if st.p.val u = 0 then st.p.add u else st.p
  { n := st.n - 1, list := st.list, it := st.it + 1,
    r := { st.r with val := Function.update st.r.val u 0 },
    p := { p1 with val := Function.update p1.val u (p1.val u + alpha * val) } }

/-- One iteration of the loop `while (n>0)` of `push`. -/
def pushStep (g : adjlist) (alpha : ℚ) (thr : Nat → ℚ) (st : PushState) : PushState :=
  let u := st.list (st.n - 1)
  let val := st.r.val u
  (List.range' (g.cd u) (g.cd (u + 1) - g.cd u)).foldl (relax g alpha thr u val)
    (popnode alpha st)

/-- The statements of `push` before the loop.  `list` is the static worklist
buffer, with whatever an earlier call left in it. -/
def pushInit (thr : Nat → ℚ) (source : Nat) (r p : Dict) (list : Nat → Nat) : PushState :=
  let r1 := ({ r with val := Function.update r.val source 1 } : Dict).add source
  if 1 > thr source then
    { n := 1, list := Function.update list 0 source, it := 0, r := r1, p := p }
  else
    { n := 0, list := list, it := 0, r := r1, p := p }

/-- At most `k` iterations of the loop `while (n>0)`. -/
def pushLoop (g : adjlist) (alpha : ℚ) (thr : Nat → ℚ) : Nat → PushState → PushState
  | 0, st => st
  | k + 1, st => if st.n > 0 then pushLoop g alpha thr k (pushStep g alpha thr st) else st

/-- Whether a store of the call has been made outside `r->list` or `p->list`. -/
def PushState.oob (st : PushState) : Bool := st.r.oob || st.p.oob

/-- The function `push` with its threshold as a parameter, run with a bound
`fuel` on the number of iterations: the final state when the loop has ended
within the bound and every store into `r->list` and `p->list` was inside the
array.  There is no result (`none`) when a store has left its array, where the
C program has no defined behaviour, and when the bound is used up before the
loop has ended. -/
def pushWith (g : adjlist) (alpha : ℚ) (thr : Nat → ℚ) (source : Nat) (r p : Dict)
    (list : Nat → Nat) (fuel : Nat) : Option PushState :=
  let st := pushLoop g alpha thr fuel (pushInit thr source r p list)
  if st.oob then none else if st.n = 0 then some st else none

/-- The threshold of `push.c`: `eps` for every node. -/
def flat (eps : ℚ) : Nat → ℚ := fun _ => eps

/-- The threshold of `allpush.c`: `eps*g->d[v]` for node `v`. -/
def scaled (g : adjlist) (eps : ℚ) : Nat → ℚ := fun v => eps * ((g.d v : Nat) : ℚ)

/-- The function `push` of `push.c`. -/
def push (g : adjlist) (alpha : ℚ) (source : Nat) (eps : ℚ) (r p : Dict)
    (list : Nat → Nat) (fuel : Nat) : Option PushState :=
  pushWith g alpha (flat eps) source r p list fuel

/-- The state of `push`, called on freshly allocated dictionaries and a fresh
worklist buffer, after the initialisation and at most `k` iterations of the
loop. -/
def run (g : adjlist) (alpha : ℚ) (thr : Nat → ℚ) (source : Nat) (k : Nat) : PushState :=
  pushLoop g alpha thr k (pushInit thr source (allocdict g.n) (allocdict g.n) (fun _ => 0))

/-- The quantity `sum(p) + sum(r)` over the `n` nodes of the graph. -/
def mass (g : adjlist) (st : PushState) : ℚ := vsum st.p.val g.n + vsum st.r.val g.n

/-- The constant `ALPHA` of the source, `0.15`. -/
def ALPHA : ℚ := 15 / 100

namespace AllPush

/-- The function `push` of `allpush.c`. -/
def push (g : adjlist) (alpha : ℚ) (source : Nat) (eps : ℚ) (r p : Dict)
    (list : Nat → Nat) (fuel : Nat) : Option PushState :=
  pushWith g alpha (scaled g eps) source r p list fuel

/-- The function `cleandict` of `allpush.c`. -/
def cleandict (dict : Dict) : Dict :=
  { dict with
    val := (List.range dict.n).foldl (fun val i => Function.update val (dict.list i) 0) dict.val,
    n := 0 }

/-- What the loop of `main` in `allpush.c` holds between two queries: the two
dictionaries, the static worklist buffer, and the lines written so far. -/
structure Batch where
  r : Dict
  p : Dict
  list : Nat → Nat
  out : List (List (Nat × ℚ))

/-- The first `i` iterations of the loop of `main` in `allpush.c`,
`cleandict(r); cleandict(p); push(g,ALPHA,i,eps,r,p); print_dict(file,p);`,
each call of `push` with the bound `fuel`. -/
def queries (g : adjlist) (eps : ℚ) (fuel : Nat) : Nat → Option Batch
  | 0 => some { r := allocdict g.n, p := allocdict g.n, list := fun _ => 0, out := [] }
  | i + 1 =>
    match queries g eps fuel i with
    | none => none
    | some b =>
      match push g ALPHA i eps (cleandict b.r) (cleandict b.p) b.list fuel with
      | none => none
      | some st => some { r := st.r, p := st.p, list := st.list, out := b.out ++ [print_dict st.p] }

end AllPush

/-- Node `x` can be reached from `s` along the stored out-neighbour ranges. -/
inductive Reach (g : adjlist) (s : Nat) : Nat → Prop where
  | refl : Reach g s s
  | step (u i : Nat) : Reach g s u → g.cd u ≤ i → i < g.cd (u + 1) → Reach g s (g.adj i)

/-- The two facts about a built graph that `push` relies on: the neighbour
range of `u` has `d[u]` entries, and every stored neighbour is a node. -/
def GraphOK (g : adjlist) : Prop :=
  (∀ u, u < g.n → g.cd (u + 1) = g.cd u + g.d u) ∧
  (∀ u, u < g.n → ∀ i, g.cd u ≤ i → i < g.cd (u + 1) → g.adj i < g.n)

/-- The invariant of the loop of `push` when `0 <= alpha <= 1`: no value is
negative, the worklist holds pairwise distinct nodes of the graph, and every
node on it holds a residual above its threshold and at least `δ`. -/
structure Sound (g : adjlist) (thr : Nat → ℚ) (δ : ℚ) (st : PushState) : Prop where
  r_nonneg : ∀ x, 0 ≤ st.r.val x
  p_nonneg : ∀ x, 0 ≤ st.p.val x
  wl_nodup : st.wl.Nodup
  wl_lt : ∀ x ∈ st.wl, x < g.n
  wl_thr : ∀ x ∈ st.wl, thr x < st.r.val x
  wl_delta : ∀ x ∈ st.wl, δ ≤ st.r.val x

/-! ## Concrete graphs -/

/-- The graph of the input file with the two lines `0 1` and `1 0`. -/
def twocycle : adjlist := mkadjlist (rawgraph 2 [⟨0, 1⟩, ⟨1, 0⟩])

/-- The graph of the input file with the two lines `0 1` and `0 1`. -/
def dupgraph : adjlist := mkadjlist (rawgraph 2 [⟨0, 1⟩, ⟨0, 1⟩])

/-- The graph of the input file with the single line `0 1`. -/
def onedge : adjlist := mkadjlist (rawgraph 2 [⟨0, 1⟩])

/-- The sum of `p[u]` over the nodes `u` of out-degree 0. -/
def sinkmass (g : adjlist) (st : PushState) : ℚ :=
  vsum (fun u => if g.d u = 0 then st.p.val u else 0) g.n

/-- The invariant of the result dictionary `p` during `push`: its touched list
holds pairwise distinct nodes of the graph, and exactly those with a nonzero
value. -/
structure Listed (g : adjlist) (dict : Dict) : Prop where
  nodup : dict.touched.Nodup
  lt : ∀ x ∈ dict.touched, x < g.n
  iff : ∀ x, x ∈ dict.touched ↔ dict.val x ≠ 0

/-- The state inside an iteration of the loop `while (n>0)` started in `st`:
after the pop and the first `j` turns of the loop over the neighbours. -/
def midstep (g : adjlist) (alpha : ℚ) (thr : Nat → ℚ) (st : PushState) (j : Nat) : PushState :=
  let u := st.list (st.n - 1)
  let val := st.r.val u
  ((List.range' (g.cd u) (g.cd (u + 1) - g.cd u)).take j).foldl (relax g alpha thr u val)
    (popnode alpha st)

/-- Every node with a nonzero value is on the touched list: what `cleandict`
needs to find the dictionary all-zero afterwards. -/
def Covered (dict : Dict) : Prop := ∀ x, dict.val x ≠ 0 → x ∈ dict.touched

/-- Two states of `push` that agree on everything the code can read: the
worklist, the counter, and for both dictionaries the values and the touched
list.  (They may differ in the cells of the three `list` buffers beyond the
respective count `n`, which are written before they are read.) -/
def Sim (a b : PushState) : Prop :=
  a.wl = b.wl ∧ a.it = b.it ∧ a.r.val = b.r.val ∧ a.r.touched = b.r.touched ∧
    a.p.val = b.p.val ∧ a.p.touched = b.p.touched

/-- A lower bound, for `allpush.c`, on the residual of every node that is
popped: `min eps 1` when `eps > 0`, and 1 when `eps <= 0` (then only the source
is ever popped). -/
def popfloor (eps : ℚ) : ℚ := if eps ≤ 0 then 1 else min eps 1

/-- The graph of the input file with the single line `0 0`. -/
def selfloop : adjlist := mkadjlist (rawgraph 1 [⟨0, 0⟩])

/-! ## Power iteration (`RootedPageRankEPS.c`) -/

namespace Rooted

/-- The C struct `sparse` of `RootedPageRankEPS.c`: the edge list `el` of `e`
edges and the out-degrees `dout`. -/
structure sparse where
  n : Nat
  e : Nat
  el : List edge
  dout : Nat → Nat

/-- The function `readedgelist` of `RootedPageRankEPS.c`: the same reading loop
as in `push.c`, followed by the loop that counts the out-degrees. -/
def readedgelist (input : List Tok) : sparse :=
  let res := readloop 0 [] input
  { n := (res.1 + 1) % 2 ^ 64, e := res.2.length, el := res.2,
    dout := countdeg (res.2.take res.2.length) (fun _ => 0) }

/-- The function `onestep` of `RootedPageRankEPS.c`: `v2` is zeroed, then
`v2[t] += v1[s]/dout[s]` for every edge `(s, t)`.  The result is `v2`. -/
def onestep (g : sparse) (v1 : Nat → ℚ) : Nat → ℚ :=
  (g.el.take g.e).foldl
    (fun v2 ed => Function.update v2 ed.t (v2 ed.t + v1 ed.s / ((g.dout ed.s : Nat) : ℚ)))
    (fun _ => 0)

end Rooted

/-- The sparse graph that `Rooted.readedgelist` builds for the edge array `es`
and node count `n`. -/
def sparseof (n : Nat) (es : List edge) : Rooted.sparse :=
  { n := n, e := es.length, el := es, dout := countdeg (es.take es.length) (fun _ => 0) }

/-- The sum, over the input edges `(u, x)` that enter `x`, of `p[u]/d[u]`. -/
def insum (es : List edge) (d : Nat → Nat) (p : Nat → ℚ) (x : Nat) : ℚ :=
  ((es.filter (fun ed => ed.t = x)).map (fun ed => p ed.s / ((d ed.s : Nat) : ℚ))).sum

/-- The number of input edges from `u` to `x`. -/
def multiplicity (es : List edge) (u x : Nat) : Nat :=
  (es.filter (fun ed => ed.s = u ∧ ed.t = x)).length

/-- The equation that ties `p` to `r` during `push`: for every node `x`,
`p[x] + alpha*r[x] = alpha*[x = source] + (1 - alpha) * (sum over the edges
(u, x) of p[u]/d[u])`. -/
def Balanced (es : List edge) (d : Nat → Nat) (alpha : ℚ) (source : Nat) (st : PushState) :
    Prop :=
  ∀ x, st.p.val x + alpha * st.r.val x
    = alpha * (if x = source then 1 else 0) + (1 - alpha) * insum es d st.p.val x

/-! ## Push with a chosen pop order

The source always pops the top of the worklist.  The definitions below run the
same loop body with another choice of the node to pop, for the comparison that
the confluence property of the specification asks for. -/

/-- The state with the worklist entries at positions `j` and `n-1` exchanged,
so that the loop body of `push` pops the node that was at position `j`. -/
def swapTop (st : PushState) (j : Nat) : PushState :=
  { st with
    list := Function.update (Function.update st.list j (st.list (st.n - 1))) (st.n - 1)
      (st.list j) }

/-- The graph of the input file with the lines `0 0`, `0 0`, `0 1`, `1 2` and
`6 0`. -/
def loopy : adjlist := mkadjlist (rawgraph 7 [⟨0, 0⟩, ⟨0, 0⟩, ⟨0, 1⟩, ⟨1, 2⟩, ⟨6, 0⟩])

/-! ## The stopping rule of the power iteration (`RootedPageRankEPS.c`) -/

namespace Rooted

/-- The loop `for (j=0;j<g->n;j++) v2[j]*=(1.-alpha);` of `pagerank`. -/
def scale (n : Nat) (alpha : ℚ) (v : Nat → ℚ) : Nat → ℚ :=
  (List.range n).foldl (fun v j => Function.update v j (v j * (1 - alpha))) v

/-- The loop of `pagerank` that accumulates `prec`, started at `prec = 0`:
`prec += (v1[j]>v2[j]) ? v1[j]-v2[j] : v2[j]-v1[j]` for `j < n`. -/
def precsum (n : Nat) (v1 v2 : Nat → ℚ) : ℚ :=
  (List.range n).foldl
    (fun prec j => prec + (if v1 j > v2 j then v1 j - v2 j else v2 j - v1 j)) 0

/-- The variables of `pagerank` between two iterations of its loop: the current
vector `v1`, `prec` and `it`.  The second buffer is left out: `onestep` zeroes
and rewrites it before anything reads it. -/
structure PRState where
  v1 : Nat → ℚ
  prec : ℚ
  it : Nat

/-- The initialisation of `pagerank`: `v1` is zero but for `v1[source] = 1`,
`prec = 1.` and `it = 0`. -/
def prInit (source : Nat) : PRState :=
  { v1 := Function.update (fun _ => 0) source 1, prec := 1, it := 0 }

/-- One iteration of the loop of `pagerank`: `it++`, the step of the walk into
`v2`, the scaling by `1 - alpha`, `v2[source] += alpha`, the sum `prec`, and
the exchange of `v1` and `v2`. -/
def prStep (g : sparse) (source : Nat) (alpha : ℚ) (st : PRState) : PRState :=
  let v2 := scale g.n alpha (onestep g st.v1)
  let v2 := Function.update v2 source (v2 source + alpha)
  { v1 := v2, prec := precsum g.n st.v1 v2, it := st.it + 1 }

/-- At most `k` iterations of the loop `while(prec>eps)` of `pagerank`. -/
def prLoop (g : sparse) (source : Nat) (alpha eps : ℚ) : Nat → PRState → PRState
  | 0, st => st
  | k + 1, st => if st.prec > eps then prLoop g source alpha eps k (prStep g source alpha st)
      else st

/-- The state of `pagerank` after the initialisation and at most `k`
iterations of its loop. -/
def prRun (g : sparse) (source : Nat) (alpha eps : ℚ) (k : Nat) : PRState :=
  prLoop g source alpha eps k (prInit source)

/-- The function `pagerank` of `RootedPageRankEPS.c`, run with a bound `fuel`
on the number of iterations: the vector `v1` it returns when its loop has ended
within the bound. -/
def pagerank (g : sparse) (source : Nat) (alpha eps : ℚ) (fuel : Nat) : Option (Nat → ℚ) :=
  let st := prRun g source alpha eps fuel
  if st.prec > eps then none else some st.v1

/-- Following the header comment of `RootedPageRankEPS.c`, not its code: the
infinite norm of a vector over the nodes `0 .. n-1`, its largest absolute
coordinate. -/
def infnorm (n : Nat) (v : Nat → ℚ) : ℚ :=
  (List.range n).foldl (fun m j => max m |v j|) 0

/-- Following the claim, not the code: the next iterate
`(1-alpha)*onestep(pr_old) + alpha*e_source`. -/
def nextiterate (g : sparse) (source : Nat) (alpha : ℚ) (old : Nat → ℚ) : Nat → ℚ :=
  fun x => (1 - alpha) * onestep g old x + (if x = source then alpha else 0)

/-- Following the header comment of `RootedPageRankEPS.c`, not its code: the
iteration that stops at the first iterate `pr_new` with the infinite norm of
`pr_new - pr_old` below `eps`, and returns that iterate; `fuel` bounds the
number of iterates computed. -/
def pagerank_documented (g : sparse) (source : Nat) (alpha eps : ℚ) :
    Nat → (Nat → ℚ) → Option (Nat → ℚ)
  | 0, _ => none
  | k + 1, old =>
    if infnorm g.n (fun j => nextiterate g source alpha old j - old j) < eps then
      some (nextiterate g source alpha old)
    else pagerank_documented g source alpha eps k (nextiterate g source alpha old)

end Rooted

/-- The graph that `Rooted.readedgelist` builds from the input file with the
two lines `0 1` and `0 2`. -/
def twoleaves : Rooted.sparse :=
  Rooted.readedgelist [Tok.num 0, Tok.num 1, Tok.num 0, Tok.num 2]

/-! ## Stores outside the touched lists -/

/-- The flag `oob` of a dictionary tells whether its count `n` has passed its
capacity `nmax`: what holds as long as `n` is only changed by `Dict.add`. -/
def Fits (dict : Dict) : Prop := dict.oob = decide (dict.nmax < dict.n)

/-- The bookkeeping of both dictionaries during a call of `push`: their
capacity is `N`, and each flag `oob` tells whether the count has passed it. -/
def Tracked (N : Nat) (st : PushState) : Prop :=
  st.r.nmax = N ∧ st.p.nmax = N ∧ Fits st.r ∧ Fits st.p

/-- The run of `push` from freshly allocated dictionaries keeps `r->n` within
`r->nmax = g->n`, the number of entries of `r->list`: no store
`r->list[(r->n)++]=v` of the run is outside the array. -/
def InBounds (g : adjlist) (alpha : ℚ) (thr : Nat → ℚ) (source : Nat) : Prop :=
  ∀ k, (run g alpha thr source k).r.n ≤ g.n

/-- The graph of the input file with the two lines `0 0` and `0 1`. -/
def loopsink : adjlist := mkadjlist (rawgraph 2 [⟨0, 0⟩, ⟨0, 1⟩])

/-! ## Correctness of the construction -/

theorem outs_append (es fs : List edge) (x : Nat) :
    outs (es ++ fs) x = outs es x ++ outs fs x := by
  simp [outs]

theorem outs_single (ed : edge) (x : Nat) :
    outs [ed] x = if ed.s = x then [ed.t] else [] := by
  by_cases h : ed.s = x <;> simp [outs, h]

theorem countdeg_apply (es : List edge) (d : Nat → Nat) (x : Nat) :
    countdeg es d x = d x + (outs es x).length := by
  induction es generalizing d with
  | nil => simp [countdeg, outs]
  | cons ed es ih =>
    have h : countdeg (ed :: es) d = countdeg es (Function.update d ed.s (d ed.s + 1)) := rfl
    rw [h, ih]
    by_cases hx : ed.s = x
    · subst hx
      simp [outs, List.filter_cons]
      omega
    · have hx2 : x ≠ ed.s := fun h => hx h.symm
      simp [outs, List.filter_cons, hx, Function.update_noteq hx2]

theorem cumul_succ (n : Nat) (cd d : Nat → Nat) :
    cumul (n + 1) cd d =
      (Function.update (cumul n cd d).1 (n + 1) ((cumul n cd d).1 n + (cumul n cd d).2 n),
       Function.update (cumul n cd d).2 n 0) := by
  simp [cumul, List.range'_1_concat, List.foldl_append, Nat.add_comm]

theorem psum_succ (d : Nat → Nat) (i : Nat) : psum d (i + 1) = psum d i + d i := by
  simp [psum, List.range_succ]

theorem cumul_spec (n : Nat) (cd d : Nat → Nat) (h0 : cd 0 = 0) :
    (∀ i, i ≤ n → (cumul n cd d).1 i = psum d i) ∧
    (∀ i, (cumul n cd d).2 i = if i < n then 0 else d i) := by
  induction n with
  | zero =>
    refine ⟨?_, ?_⟩
    · intro i hi
      have : i = 0 := by omega
      subst this
      simpa [cumul, psum] using h0
    · intro i
      simp [cumul]
  | succ n ih =>
    rw [cumul_succ]
    obtain ⟨ih1, ih2⟩ := ih
    refine ⟨?_, ?_⟩
    · intro i hi
      by_cases hin : i = n + 1
      · subst hin
        simp [psum_succ, ih1 n (le_refl n), ih2 n]
      · have : i ≤ n := by omega
        simp [Function.update_noteq hin, ih1 i this]
    · intro i
      by_cases hin : i = n
      · subst hin
        simp
      · simp only [Function.update_noteq hin, ih2 i]
        by_cases h1 : i < n
        · have : i < n + 1 := by omega
          simp [h1, this]
        · have : ¬ i < n + 1 := by omega
          simp [h1, this]

theorem scatter_snoc (cd : Nat → Nat) (es : List edge) (ed : edge) (adj d : Nat → Nat) :
    scatter cd (es ++ [ed]) adj d =
      (Function.update (scatter cd es adj d).1 (cd ed.s + (scatter cd es adj d).2 ed.s) ed.t,
       Function.update (scatter cd es adj d).2 ed.s ((scatter cd es adj d).2 ed.s + 1)) := by
  simp [scatter, List.foldl_append]

theorem scatter_spec (n : Nat) (cd d0 adj0 : Nat → Nat) (es : List edge)
    (hs : ∀ ed ∈ es, ed.s < n)
    (hmono : ∀ x y, x ≤ y → y ≤ n → cd x ≤ cd y)
    (hroom : ∀ x, x < n → cd x + d0 x + (outs es x).length ≤ cd (x + 1)) :
    (∀ x, (scatter cd es adj0 d0).2 x = d0 x + (outs es x).length) ∧
    (∀ x, x < n → ∀ k, k < (outs es x).length →
      (scatter cd es adj0 d0).1 (cd x + d0 x + k) = (outs es x).getD k 0) := by
  induction es using List.reverseRecOn with
  | nil =>
    refine ⟨?_, ?_⟩
    · intro x
      simp [scatter, outs]
    · intro x _ k hk
      simp [outs] at hk
  | append_singleton es ed ih =>
    have hs1 : ∀ e1 ∈ es, e1.s < n := fun e1 he => hs e1 (by simp [he])
    have hroom1 : ∀ x, x < n → cd x + d0 x + (outs es x).length ≤ cd (x + 1) := by
      intro x hx
      have := hroom x hx
      rw [outs_append, List.length_append] at this
      omega
    obtain ⟨ih1, ih2⟩ := ih hs1 hroom1
    have hsn : ed.s < n := hs ed (by simp)
    rw [scatter_snoc]
    refine ⟨?_, ?_⟩
    · intro x
      by_cases hx : x = ed.s
      · subst hx
        simp [ih1, outs_append, outs_single]
        omega
      · have hx2 : ¬ ed.s = x := fun h => hx h.symm
        simp [Function.update_noteq hx, ih1, outs_append, outs_single, hx2]
    · intro x hxn k hk
      have hrs := hroom ed.s hsn
      rw [outs_append, outs_single, List.length_append] at hrs
      simp only [if_true, List.length_singleton] at hrs
      by_cases hx : x = ed.s
      · subst hx
        rw [outs_append, outs_single] at hk ⊢
        simp only [if_true, List.length_append, List.length_singleton] at hk
        simp only [if_true]
        by_cases hk2 : k < (outs es ed.s).length
        · have hne : cd ed.s + d0 ed.s + k ≠ cd ed.s + (scatter cd es adj0 d0).2 ed.s := by
            rw [ih1]
            omega
          simp only [Function.update_noteq hne]
          rw [ih2 _ hsn k hk2, List.getD_append _ _ _ _ hk2]
        · have hk3 : k = (outs es ed.s).length := by omega
          subst hk3
          have heq : cd ed.s + d0 ed.s + (outs es ed.s).length
              = cd ed.s + (scatter cd es adj0 d0).2 ed.s := by
            rw [ih1]
            omega
          rw [heq, Function.update_same, List.getD_append_right _ _ _ _ (le_refl _)]
          simp
      · have hx2 : ¬ ed.s = x := fun h => hx h.symm
        rw [outs_append, outs_single] at hk ⊢
        simp only [hx2, if_false, List.append_nil] at hk ⊢
        have hrx := hroom1 x hxn
        have hne : cd x + d0 x + k ≠ cd ed.s + (scatter cd es adj0 d0).2 ed.s := by
          rw [ih1]
          rcases Nat.lt_or_gt_of_ne hx with hlt | hgt
          · have := hmono (x + 1) ed.s (by omega) (by omega)
            omega
          · have := hmono (ed.s + 1) x (by omega) (by omega)
            omega
        simp only [Function.update_noteq hne]
        exact ih2 x hxn k hk

theorem psum_mono (d : Nat → Nat) (x y : Nat) (h : x ≤ y) : psum d x ≤ psum d y := by
  induction y with
  | zero =>
    have : x = 0 := by omega
    subst this
    exact le_refl _
  | succ y ih =>
    by_cases hxy : x = y + 1
    · subst hxy
      exact le_refl _
    · have := ih (by omega)
      rw [psum_succ]
      omega

theorem outs_nil_of_ge (n : Nat) (es : List edge) (hs : ∀ ed ∈ es, ed.s < n) (x : Nat)
    (hx : n ≤ x) : outs es x = [] := by
  simp only [outs, List.map_eq_nil_iff, List.filter_eq_nil_iff]
  intro ed hed
  have := hs ed hed
  simp
  omega

/-- What `mkadjlist` builds from the edge array `es`: the degree and offset
tables and every neighbour range. -/
theorem mkadjlist_spec (n : Nat) (es : List edge) (hs : ∀ ed ∈ es, ed.s < n) :
    (mkadjlist (rawgraph n es)).n = n ∧
    (mkadjlist (rawgraph n es)).e = es.length ∧
    (∀ x, (mkadjlist (rawgraph n es)).d x = (outs es x).length) ∧
    (∀ i, i ≤ n → (mkadjlist (rawgraph n es)).cd i = psum (fun x => (outs es x).length) i) ∧
    (∀ x, x < n → neighbors (mkadjlist (rawgraph n es)) x = outs es x) := by
  have hd1 : countdeg es (fun _ => 0) = fun x => (outs es x).length := by
    funext x
    simp [countdeg_apply]
  obtain ⟨hc1, hc2⟩ := cumul_spec n (Function.update (fun _ => 0) 0 0)
    (countdeg es (fun _ => 0)) (by simp)
  rw [hd1] at hc1 hc2
  have hmono : ∀ x y, x ≤ y → y ≤ n →
      (cumul n (Function.update (fun _ => 0) 0 0) (fun x => (outs es x).length)).1 x ≤
      (cumul n (Function.update (fun _ => 0) 0 0) (fun x => (outs es x).length)).1 y := by
    intro x y hxy hy
    rw [hc1 x (by omega), hc1 y hy]
    exact psum_mono _ x y hxy
  have hroom : ∀ x, x < n →
      (cumul n (Function.update (fun _ => 0) 0 0) (fun x => (outs es x).length)).1 x +
      (cumul n (Function.update (fun _ => 0) 0 0) (fun x => (outs es x).length)).2 x +
      (outs es x).length ≤
      (cumul n (Function.update (fun _ => 0) 0 0) (fun x => (outs es x).length)).1 (x + 1) := by
    intro x hx
    rw [hc1 x (by omega), hc1 (x + 1) (by omega), hc2 x, psum_succ]
    simp [hx]
  obtain ⟨hs1, hs2⟩ := scatter_spec n _ _ (fun _ => 0) es hs hmono hroom
  have hdfin : ∀ x, (mkadjlist (rawgraph n es)).d x = (outs es x).length := by
    intro x
    simp only [mkadjlist, rawgraph, List.take_length, hd1]
    rw [hs1 x, hc2 x]
    by_cases hx : x < n
    · simp [hx]
    · simp [hx, outs_nil_of_ge n es hs x (by omega)]
  refine ⟨rfl, rfl, hdfin, ?_, ?_⟩
  · intro i hi
    simp only [mkadjlist, rawgraph, List.take_length, hd1]
    exact hc1 i hi
  · intro x hx
    have hcdx : (mkadjlist (rawgraph n es)).cd x = psum (fun x => (outs es x).length) x := by
      simp only [mkadjlist, rawgraph, List.take_length, hd1]
      exact hc1 x (by omega)
    have hcdx1 : (mkadjlist (rawgraph n es)).cd (x + 1)
        = psum (fun x => (outs es x).length) x + (outs es x).length := by
      simp only [mkadjlist, rawgraph, List.take_length, hd1]
      rw [hc1 (x + 1) (by omega), psum_succ]
    have hadj : ∀ k, k < (outs es x).length →
        (mkadjlist (rawgraph n es)).adj (psum (fun x => (outs es x).length) x + k)
          = (outs es x).getD k 0 := by
      intro k hk
      have := hs2 x hx k hk
      rw [hc1 x (by omega), hc2 x] at this
      simp only [hx, if_true, Nat.add_zero] at this
      simp only [mkadjlist, rawgraph, List.take_length, hd1]
      exact this
    unfold neighbors
    rw [hcdx1, hcdx, Nat.add_sub_cancel_left]
    apply List.ext_getElem
    · simp
    · intro k h1 h2
      simp only [List.length_map, List.length_range'] at h1
      simp only [List.getElem_map, List.getElem_range', Nat.one_mul]
      rw [hadj k h1, List.getD_eq_getElem _ _ h1]

theorem outs_pairs (es : List edge) (x : Nat) :
    (outs es x).map (fun t => (⟨x, t⟩ : edge)) = es.filter (fun ed => ed.s = x) := by
  induction es with
  | nil => simp [outs]
  | cons ed es ih =>
    by_cases h : ed.s = x
    · have hed : (⟨x, ed.t⟩ : edge) = ed := by
        cases ed
        simp at h
        simp [h]
      simp only [outs, List.filter_cons, h, decide_True, if_true, List.map_cons, List.map_map] at ih ⊢
      rw [ih, hed]
    · simp only [outs, List.filter_cons, h, decide_False, List.map_map] at ih ⊢
      simpa using ih

theorem filter_lt_succ_perm (es : List edge) (n : Nat) :
    (es.filter (fun ed => ed.s < n) ++ es.filter (fun ed => ed.s = n)).Perm
      (es.filter (fun ed => ed.s < n + 1)) := by
  induction es with
  | nil => simp
  | cons ed es ih =>
    rcases Nat.lt_trichotomy ed.s n with h | h | h
    · have h1 : ed.s < n + 1 := by omega
      have h2 : ¬ ed.s = n := by omega
      simp only [List.filter_cons, h, h1, h2, decide_True, decide_False, if_true, if_false,
        List.cons_append]
      exact List.Perm.cons _ ih
    · subst h
      simp only [List.filter_cons, lt_irrefl, Nat.lt_succ_self, decide_True, decide_False,
        if_true, if_false, Bool.false_eq_true]
      exact List.Perm.trans List.perm_middle (List.Perm.cons _ ih)
    · have h1 : ¬ ed.s < n + 1 := by omega
      have h2 : ¬ ed.s < n := by omega
      have h3 : ¬ ed.s = n := by omega
      simpa only [List.filter_cons, h1, h2, h3, decide_False, if_false] using ih

theorem flatMap_filter_perm (es : List edge) (n : Nat) :
    ((List.range n).flatMap (fun s => es.filter (fun ed => ed.s = s))).Perm
      (es.filter (fun ed => ed.s < n)) := by
  induction n with
  | zero => simp
  | succ n ih =>
    rw [List.range_succ, List.flatMap_append]
    simp only [List.flatMap_cons, List.flatMap_nil, List.append_nil]
    exact List.Perm.trans (List.Perm.append_right _ ih) (filter_lt_succ_perm es n)

theorem csredges_perm (n : Nat) (es : List edge) (hs : ∀ ed ∈ es, ed.s < n) :
    (csredges (mkadjlist (rawgraph n es))).Perm es := by
  obtain ⟨hn, -, -, -, hnb⟩ := mkadjlist_spec n es hs
  have h1 : csredges (mkadjlist (rawgraph n es))
      = (List.range n).flatMap (fun s => es.filter (fun ed => ed.s = s)) := by
    unfold csredges
    rw [hn]
    apply List.flatMap_congr
    intro s hsr
    rw [hnb s (List.mem_range.mp hsr), outs_pairs]
  rw [h1]
  refine List.Perm.trans (flatMap_filter_perm es n) ?_
  rw [List.filter_eq_self.mpr]
  intro ed hed
  simpa using hs ed hed

/-- C1 (CSR fidelity).  For every edge list with all ids below `n` (self-loops
and duplicates allowed), the pairs `(s, adj[i])` read off the graph built by
`mkadjlist`, over all nodes `s` and all `i` in `[cd[s], cd[s+1])`, form the
same multiset as the input edges, `e` of them; and two edge lists that are
permutations of each other give every node the same multiset of
out-neighbours. -/
theorem csr_fidelity (n : Nat) (es : List edge) (h : ∀ ed ∈ es, ed.s < n ∧ ed.t < n) :
    ((csredges (mkadjlist (rawgraph n es)) : List edge) : Multiset edge) = (es : Multiset edge) ∧
    (csredges (mkadjlist (rawgraph n es))).length = (mkadjlist (rawgraph n es)).e ∧
    (mkadjlist (rawgraph n es)).e = es.length ∧
    (∀ es2 : List edge, es2.Perm es → ∀ s, s < n →
      ((neighbors (mkadjlist (rawgraph n es2)) s : List Nat) : Multiset Nat)
        = (neighbors (mkadjlist (rawgraph n es)) s : Multiset Nat)) := by
  have hs : ∀ ed ∈ es, ed.s < n := fun ed hed => (h ed hed).1
  have hp := csredges_perm n es hs
  refine ⟨Multiset.coe_eq_coe.mpr hp, ?_, rfl, ?_⟩
  · rw [hp.length_eq]
    rfl
  · intro es2 hperm s hsn
    have hs2 : ∀ ed ∈ es2, ed.s < n := fun ed hed => hs ed (hperm.mem_iff.mp hed)
    rw [(mkadjlist_spec n es hs).2.2.2.2 s hsn, (mkadjlist_spec n es2 hs2).2.2.2.2 s hsn]
    apply Multiset.coe_eq_coe.mpr
    unfold outs
    exact (hperm.filter _).map _

/-! ## The push engine, field by field -/

theorem relax_p (g : adjlist) (alpha : ℚ) (thr : Nat → ℚ) (u : Nat) (val : ℚ)
    (st : PushState) (i : Nat) : (relax g alpha thr u val st i).p = st.p := by
  unfold relax
  simp only []
  split_ifs <;> rfl

theorem relax_it (g : adjlist) (alpha : ℚ) (thr : Nat → ℚ) (u : Nat) (val : ℚ)
    (st : PushState) (i : Nat) : (relax g alpha thr u val st i).it = st.it := by
  unfold relax
  simp only []
  split_ifs <;> rfl

theorem relax_r_val (g : adjlist) (alpha : ℚ) (thr : Nat → ℚ) (u : Nat) (val : ℚ)
    (st : PushState) (i : Nat) :
    (relax g alpha thr u val st i).r.val =
      Function.update st.r.val (g.adj i)
        (st.r.val (g.adj i) + (1 - alpha) * val / ((g.d u : Nat) : ℚ)) := by
  unfold relax
  simp only []
  split_ifs <;> simp [Dict.add]

theorem relax_r_nmax (g : adjlist) (alpha : ℚ) (thr : Nat → ℚ) (u : Nat) (val : ℚ)
    (st : PushState) (i : Nat) : (relax g alpha thr u val st i).r.nmax = st.r.nmax := by
  unfold relax
  simp only []
  split_ifs <;> simp [Dict.add]

theorem relax_r_n (g : adjlist) (alpha : ℚ) (thr : Nat → ℚ) (u : Nat) (val : ℚ)
    (st : PushState) (i : Nat) :
    (relax g alpha thr u val st i).r.n =
      if st.r.val (g.adj i) = 0 then st.r.n + 1 else st.r.n := by
  unfold relax
  simp only []
  split_ifs <;> simp [Dict.add]

theorem relax_r_list (g : adjlist) (alpha : ℚ) (thr : Nat → ℚ) (u : Nat) (val : ℚ)
    (st : PushState) (i : Nat) :
    (relax g alpha thr u val st i).r.list =
      if st.r.val (g.adj i) = 0 then Function.update st.r.list st.r.n (g.adj i)
      else st.r.list := by
  unfold relax
  simp only []
  split_ifs <;> simp [Dict.add]

theorem relax_n (g : adjlist) (alpha : ℚ) (thr : Nat → ℚ) (u : Nat) (val : ℚ)
    (st : PushState) (i : Nat) :
    (relax g alpha thr u val st i).n =
      if st.r.val (g.adj i) < thr (g.adj i) ∧
          thr (g.adj i) < st.r.val (g.adj i) + (1 - alpha) * val / ((g.d u : Nat) : ℚ)
      then st.n + 1 else st.n := by
  have hv : (if st.r.val (g.adj i) = 0 then st.r.add (g.adj i) else st.r).val = st.r.val := by
    split_ifs <;> rfl
  unfold relax
  simp only [hv, Function.update_same, gt_iff_lt]
  by_cases h1 : st.r.val (g.adj i) < thr (g.adj i)
  · by_cases h2 : thr (g.adj i) < st.r.val (g.adj i) + (1 - alpha) * val / ((g.d u : Nat) : ℚ)
    · simp [h1, h2]
    · simp [h1, h2]
  · simp [h1]

theorem relax_list (g : adjlist) (alpha : ℚ) (thr : Nat → ℚ) (u : Nat) (val : ℚ)
    (st : PushState) (i : Nat) :
    (relax g alpha thr u val st i).list =
      if st.r.val (g.adj i) < thr (g.adj i) ∧
          thr (g.adj i) < st.r.val (g.adj i) + (1 - alpha) * val / ((g.d u : Nat) : ℚ)
      then Function.update st.list st.n (g.adj i) else st.list := by
  have hv : (if st.r.val (g.adj i) = 0 then st.r.add (g.adj i) else st.r).val = st.r.val := by
    split_ifs <;> rfl
  unfold relax
  simp only [hv, Function.update_same, gt_iff_lt]
  by_cases h1 : st.r.val (g.adj i) < thr (g.adj i)
  · by_cases h2 : thr (g.adj i) < st.r.val (g.adj i) + (1 - alpha) * val / ((g.d u : Nat) : ℚ)
    · simp [h1, h2]
    · simp [h1, h2]
  · simp [h1]

theorem map_range_update {β : Type} (f : Nat → β) (n : Nat) (v : β) :
    (List.range n).map (Function.update f n v) = (List.range n).map f := by
  apply List.map_congr_left
  intro i hi
  have : i ≠ n := by
    have := List.mem_range.mp hi
    omega
  exact Function.update_noteq this _ _

theorem map_range_snoc {β : Type} (f : Nat → β) (n : Nat) (v : β) :
    (List.range (n + 1)).map (Function.update f n v) = (List.range n).map f ++ [v] := by
  rw [List.range_succ, List.map_append, map_range_update]
  simp

theorem relax_touched (g : adjlist) (alpha : ℚ) (thr : Nat → ℚ) (u : Nat) (val : ℚ)
    (st : PushState) (i : Nat) :
    (relax g alpha thr u val st i).r.touched =
      if st.r.val (g.adj i) = 0 then st.r.touched ++ [g.adj i] else st.r.touched := by
  unfold Dict.touched
  rw [relax_r_n, relax_r_list]
  split_ifs
  · exact map_range_snoc _ _ _
  · rfl

theorem relax_wl (g : adjlist) (alpha : ℚ) (thr : Nat → ℚ) (u : Nat) (val : ℚ)
    (st : PushState) (i : Nat) :
    (relax g alpha thr u val st i).wl =
      if st.r.val (g.adj i) < thr (g.adj i) ∧
          thr (g.adj i) < st.r.val (g.adj i) + (1 - alpha) * val / ((g.d u : Nat) : ℚ)
      then st.wl ++ [g.adj i] else st.wl := by
  unfold PushState.wl
  rw [relax_n, relax_list]
  split_ifs
  · exact map_range_snoc _ _ _
  · rfl

theorem popnode_wl (alpha : ℚ) (st : PushState) (h : st.n > 0) :
    st.wl = (popnode alpha st).wl ++ [st.list (st.n - 1)] := by
  unfold PushState.wl
  have hn : st.n = (st.n - 1) + 1 := by omega
  conv_lhs => rw [hn, List.range_succ]
  simp [popnode]

theorem popnode_p_touched (alpha : ℚ) (st : PushState) :
    (popnode alpha st).p.touched =
      if st.p.val (st.list (st.n - 1)) = 0 then st.p.touched ++ [st.list (st.n - 1)]
      else st.p.touched := by
  unfold Dict.touched popnode
  simp only []
  split_ifs
  · exact map_range_snoc _ _ _
  · rfl

theorem popnode_p_val (alpha : ℚ) (st : PushState) :
    (popnode alpha st).p.val =
      Function.update st.p.val (st.list (st.n - 1))
        (st.p.val (st.list (st.n - 1)) + alpha * st.r.val (st.list (st.n - 1))) := by
  unfold popnode
  simp only []
  split_ifs <;> simp [Dict.add]

theorem popnode_r_val (alpha : ℚ) (st : PushState) :
    (popnode alpha st).r.val = Function.update st.r.val (st.list (st.n - 1)) 0 := rfl

theorem popnode_r_touched (alpha : ℚ) (st : PushState) :
    (popnode alpha st).r.touched = st.r.touched := rfl

theorem popnode_it (alpha : ℚ) (st : PushState) : (popnode alpha st).it = st.it + 1 := rfl

theorem vsum_succ (f : Nat → ℚ) (n : Nat) : vsum f (n + 1) = vsum f n + f n := by
  simp [vsum, List.range_succ]

theorem vsum_zero (n : Nat) : vsum (fun _ => 0) n = 0 := by
  induction n with
  | zero => simp [vsum]
  | succ n ih => rw [vsum_succ, ih]; simp

theorem vsum_nonneg (f : Nat → ℚ) (n : Nat) (h : ∀ x, 0 ≤ f x) : 0 ≤ vsum f n := by
  induction n with
  | zero => simp [vsum]
  | succ n ih =>
    rw [vsum_succ]
    exact add_nonneg ih (h n)

theorem vsum_update_ge (f : Nat → ℚ) (v : Nat) (y : ℚ) (n : Nat) (h : n ≤ v) :
    vsum (Function.update f v y) n = vsum f n := by
  induction n with
  | zero => simp [vsum]
  | succ n ih =>
    have hne : n ≠ v := by omega
    rw [vsum_succ, vsum_succ, ih (by omega), Function.update_noteq hne]

theorem vsum_update (f : Nat → ℚ) (v : Nat) (y : ℚ) (n : Nat) (h : v < n) :
    vsum (Function.update f v y) n = vsum f n - f v + y := by
  induction n with
  | zero => omega
  | succ n ih =>
    rw [vsum_succ, vsum_succ]
    by_cases hv : v = n
    · subst hv
      rw [vsum_update_ge f v y v (le_refl _), Function.update_same]
      ring
    · have hne : n ≠ v := fun h => hv h.symm
      rw [ih (by omega), Function.update_noteq hne]
      ring

/-! ## The flag of the stores outside `list` -/

theorem relax_r_oob (g : adjlist) (alpha : ℚ) (thr : Nat → ℚ) (u : Nat) (val : ℚ)
    (st : PushState) (i : Nat) :
    (relax g alpha thr u val st i).r.oob =
      if st.r.val (g.adj i) = 0 then (st.r.oob || decide (st.r.nmax ≤ st.r.n))
      else st.r.oob := by
  unfold relax
  simp only []
  split_ifs <;> simp [Dict.add]

theorem popnode_r_oob (alpha : ℚ) (st : PushState) : (popnode alpha st).r.oob = st.r.oob := rfl

theorem popnode_r_n (alpha : ℚ) (st : PushState) : (popnode alpha st).r.n = st.r.n := rfl

theorem popnode_r_nmax (alpha : ℚ) (st : PushState) :
    (popnode alpha st).r.nmax = st.r.nmax := rfl

theorem popnode_p_oob (alpha : ℚ) (st : PushState) :
    (popnode alpha st).p.oob =
      if st.p.val (st.list (st.n - 1)) = 0 then (st.p.oob || decide (st.p.nmax ≤ st.p.n))
      else st.p.oob := by
  unfold popnode
  simp only []
  split_ifs <;> simp [Dict.add]

theorem popnode_p_n (alpha : ℚ) (st : PushState) :
    (popnode alpha st).p.n =
      if st.p.val (st.list (st.n - 1)) = 0 then st.p.n + 1 else st.p.n := by
  unfold popnode
  simp only []
  split_ifs <;> simp [Dict.add]

theorem popnode_p_nmax (alpha : ℚ) (st : PushState) :
    (popnode alpha st).p.nmax = st.p.nmax := by
  unfold popnode
  simp only []
  split_ifs <;> simp [Dict.add]

theorem oob_step (b : Bool) (nmax n : Nat) (h : b = decide (nmax < n)) :
    (b || decide (nmax ≤ n)) = decide (nmax < n + 1) := by
  subst h
  by_cases h1 : nmax < n
  · have h2 : nmax ≤ n := Nat.le_of_lt h1
    have h3 : nmax < n + 1 := Nat.lt_succ_of_lt h1
    simp [h1, h2, h3]
  · by_cases h2 : nmax ≤ n
    · have h3 : nmax < n + 1 := Nat.lt_succ_of_le h2
      simp [h1, h2, h3]
    · have h3 : ¬ nmax < n + 1 := by omega
      simp [h1, h2, h3]

theorem fits_add (dict : Dict) (v : Nat) (h : Fits dict) : Fits (dict.add v) := by
  unfold Fits at h ⊢
  exact oob_step _ _ _ h

theorem fits_allocdict (n : Nat) : Fits (allocdict n) := by
  simp [Fits, allocdict]

theorem relax_tracked (g : adjlist) (alpha : ℚ) (thr : Nat → ℚ) (u : Nat) (val : ℚ)
    (N : Nat) (st : PushState) (i : Nat) (h : Tracked N st) :
    Tracked N (relax g alpha thr u val st i) := by
  obtain ⟨h1, h2, h3, h4⟩ := h
  refine ⟨?_, ?_, ?_, ?_⟩
  · rw [relax_r_nmax, h1]
  · rw [relax_p, h2]
  · unfold Fits at h3 ⊢
    rw [relax_r_oob, relax_r_n, relax_r_nmax]
    split_ifs
    · exact oob_step _ _ _ h3
    · exact h3
  · rw [relax_p]
    exact h4

theorem popnode_tracked (alpha : ℚ) (N : Nat) (st : PushState) (h : Tracked N st) :
    Tracked N (popnode alpha st) := by
  obtain ⟨h1, h2, h3, h4⟩ := h
  refine ⟨?_, ?_, h3, ?_⟩
  · rw [popnode_r_nmax, h1]
  · rw [popnode_p_nmax, h2]
  · unfold Fits at h4 ⊢
    rw [popnode_p_oob, popnode_p_n, popnode_p_nmax]
    split_ifs
    · exact oob_step _ _ _ h4
    · exact h4

theorem foldl_relax_tracked (g : adjlist) (alpha : ℚ) (thr : Nat → ℚ) (u : Nat) (val : ℚ)
    (N : Nat) (l : List Nat) (st : PushState) (h : Tracked N st) :
    Tracked N (l.foldl (relax g alpha thr u val) st) := by
  induction l generalizing st with
  | nil => exact h
  | cons i l ih => exact ih _ (relax_tracked g alpha thr u val N st i h)

theorem pushStep_tracked (g : adjlist) (alpha : ℚ) (thr : Nat → ℚ) (N : Nat) (st : PushState)
    (h : Tracked N st) : Tracked N (pushStep g alpha thr st) :=
  foldl_relax_tracked g alpha thr _ _ N _ _ (popnode_tracked alpha N st h)

theorem midstep_tracked (g : adjlist) (alpha : ℚ) (thr : Nat → ℚ) (N : Nat) (st : PushState)
    (j : Nat) (h : Tracked N st) : Tracked N (midstep g alpha thr st j) :=
  foldl_relax_tracked g alpha thr _ _ N _ _ (popnode_tracked alpha N st h)

theorem pushInit_tracked (thr : Nat → ℚ) (source : Nat) (r p : Dict) (list : Nat → Nat)
    (N : Nat) (hr : r.nmax = N) (hp : p.nmax = N) (hfr : Fits r) (hfp : Fits p) :
    Tracked N (pushInit thr source r p list) := by
  have hadd : Fits (({ r with val := Function.update r.val source 1 } : Dict).add source) :=
    fits_add _ _ hfr
  unfold pushInit
  simp only []
  split_ifs
  · exact ⟨hr, hp, hadd, hfp⟩
  · exact ⟨hr, hp, hadd, hfp⟩

theorem relax_oob (g : adjlist) (alpha : ℚ) (thr : Nat → ℚ) (u : Nat) (val : ℚ)
    (st : PushState) (i : Nat) (h : st.oob = true) :
    (relax g alpha thr u val st i).oob = true := by
  unfold PushState.oob at h ⊢
  rw [relax_r_oob, relax_p]
  split_ifs
  · rw [Bool.or_eq_true] at h ⊢
    rcases h with h | h
    · left
      rw [h]
      rfl
    · exact Or.inr h
  · exact h

theorem popnode_oob (alpha : ℚ) (st : PushState) (h : st.oob = true) :
    (popnode alpha st).oob = true := by
  unfold PushState.oob at h ⊢
  rw [popnode_r_oob, popnode_p_oob]
  split_ifs
  · rw [Bool.or_eq_true] at h ⊢
    rcases h with h | h
    · exact Or.inl h
    · right
      rw [h]
      rfl
  · exact h

theorem foldl_relax_oob (g : adjlist) (alpha : ℚ) (thr : Nat → ℚ) (u : Nat) (val : ℚ)
    (l : List Nat) (st : PushState) (h : st.oob = true) :
    (l.foldl (relax g alpha thr u val) st).oob = true := by
  induction l generalizing st with
  | nil => exact h
  | cons i l ih => exact ih _ (relax_oob g alpha thr u val st i h)

theorem pushStep_oob (g : adjlist) (alpha : ℚ) (thr : Nat → ℚ) (st : PushState)
    (h : st.oob = true) : (pushStep g alpha thr st).oob = true :=
  foldl_relax_oob g alpha thr _ _ _ _ (popnode_oob alpha st h)

/-! ## The loop invariant -/

theorem relax_r_mono (g : adjlist) (alpha : ℚ) (thr : Nat → ℚ) (u : Nat) (val : ℚ)
    (st : PushState) (i : Nat) (hsh : 0 ≤ (1 - alpha) * val / ((g.d u : Nat) : ℚ)) (x : Nat) :
    st.r.val x ≤ (relax g alpha thr u val st i).r.val x := by
  rw [relax_r_val]
  by_cases hx : x = g.adj i
  · subst hx
    rw [Function.update_same]
    linarith
  · rw [Function.update_noteq hx]

theorem relax_sound (g : adjlist) (alpha : ℚ) (thr : Nat → ℚ) (δ : ℚ) (u : Nat) (val : ℚ)
    (st : PushState) (i : Nat) (hst : Sound g thr δ st) (hi : g.adj i < g.n)
    (hsh : 0 ≤ (1 - alpha) * val / ((g.d u : Nat) : ℚ))
    (hthr : ∀ v, 0 < thr v → δ ≤ thr v) :
    Sound g thr δ (relax g alpha thr u val st i) := by
  have hmono := relax_r_mono g alpha thr u val st i hsh
  have hsame : (relax g alpha thr u val st i).r.val (g.adj i)
      = st.r.val (g.adj i) + (1 - alpha) * val / ((g.d u : Nat) : ℚ) := by
    rw [relax_r_val, Function.update_same]
  refine ⟨?_, ?_, ?_, ?_, ?_, ?_⟩
  · intro x
    exact le_trans (hst.r_nonneg x) (hmono x)
  · intro x
    rw [relax_p]
    exact hst.p_nonneg x
  · rw [relax_wl]
    split_ifs with hc
    · refine List.nodup_append.mpr ⟨hst.wl_nodup, List.nodup_singleton _, ?_⟩
      intro a ha hb
      rw [List.mem_singleton] at hb
      subst hb
      have := hst.wl_thr _ ha
      linarith [hc.1]
    · exact hst.wl_nodup
  · intro x hx
    rw [relax_wl] at hx
    split_ifs at hx with hc
    · rcases List.mem_append.mp hx with h | h
      · exact hst.wl_lt x h
      · rw [List.mem_singleton] at h
        subst h
        exact hi
    · exact hst.wl_lt x hx
  · intro x hx
    rw [relax_wl] at hx
    split_ifs at hx with hc
    · rcases List.mem_append.mp hx with h | h
      · exact lt_of_lt_of_le (hst.wl_thr x h) (hmono x)
      · rw [List.mem_singleton] at h
        subst h
        rw [hsame]
        exact hc.2
    · exact lt_of_lt_of_le (hst.wl_thr x hx) (hmono x)
  · intro x hx
    rw [relax_wl] at hx
    split_ifs at hx with hc
    · rcases List.mem_append.mp hx with h | h
      · exact le_trans (hst.wl_delta x h) (hmono x)
      · rw [List.mem_singleton] at h
        subst h
        rw [hsame]
        have h0 := hst.r_nonneg (g.adj i)
        have h1 := hthr (g.adj i) (lt_of_le_of_lt h0 hc.1)
        linarith [hc.2]
    · exact le_trans (hst.wl_delta x hx) (hmono x)

theorem popnode_sound (g : adjlist) (alpha : ℚ) (thr : Nat → ℚ) (δ : ℚ) (st : PushState)
    (hst : Sound g thr δ st) (hn : st.n > 0) (ha : 0 ≤ alpha) :
    Sound g thr δ (popnode alpha st) := by
  have hwl := popnode_wl alpha st hn
  have hnd := hst.wl_nodup
  rw [hwl] at hnd
  obtain ⟨hnd1, -, hdisj⟩ := List.nodup_append.mp hnd
  have hne : ∀ x ∈ (popnode alpha st).wl, x ≠ st.list (st.n - 1) := by
    intro x hx heq
    exact hdisj hx (by simp [heq])
  have hsub : ∀ x ∈ (popnode alpha st).wl, x ∈ st.wl := by
    intro x hx
    rw [hwl]
    exact List.mem_append_left _ hx
  refine ⟨?_, ?_, hnd1, ?_, ?_, ?_⟩
  · intro x
    rw [popnode_r_val]
    by_cases hx : x = st.list (st.n - 1)
    · rw [hx, Function.update_same]
    · rw [Function.update_noteq hx]
      exact hst.r_nonneg x
  · intro x
    rw [popnode_p_val]
    by_cases hx : x = st.list (st.n - 1)
    · rw [hx, Function.update_same]
      have h1 := hst.p_nonneg (st.list (st.n - 1))
      have h2 := mul_nonneg ha (hst.r_nonneg (st.list (st.n - 1)))
      linarith
    · rw [Function.update_noteq hx]
      exact hst.p_nonneg x
  · intro x hx
    exact hst.wl_lt x (hsub x hx)
  · intro x hx
    rw [popnode_r_val, Function.update_noteq (hne x hx)]
    exact hst.wl_thr x (hsub x hx)
  · intro x hx
    rw [popnode_r_val, Function.update_noteq (hne x hx)]
    exact hst.wl_delta x (hsub x hx)

theorem top_mem_wl (st : PushState) (hn : st.n > 0) : st.list (st.n - 1) ∈ st.wl := by
  unfold PushState.wl
  exact List.mem_map.mpr ⟨st.n - 1, List.mem_range.mpr (by omega), rfl⟩

theorem foldl_relax_sound (g : adjlist) (alpha : ℚ) (thr : Nat → ℚ) (δ : ℚ) (u : Nat) (val : ℚ)
    (hsh : 0 ≤ (1 - alpha) * val / ((g.d u : Nat) : ℚ))
    (hthr : ∀ v, 0 < thr v → δ ≤ thr v)
    (is : List Nat) (his : ∀ i ∈ is, g.adj i < g.n) (st : PushState) (hst : Sound g thr δ st) :
    Sound g thr δ (is.foldl (relax g alpha thr u val) st) := by
  induction is generalizing st with
  | nil => exact hst
  | cons i is ih =>
    rw [List.foldl_cons]
    apply ih
    · intro j hj
      exact his j (List.mem_cons_of_mem _ hj)
    · exact relax_sound g alpha thr δ u val st i hst (his i (List.mem_cons_self _ _)) hsh hthr

theorem share_nonneg (alpha val : ℚ) (d : Nat) (ha : alpha ≤ 1) (hv : 0 ≤ val) :
    0 ≤ (1 - alpha) * val / ((d : Nat) : ℚ) := by
  apply div_nonneg
  · exact mul_nonneg (by linarith) hv
  · exact Nat.cast_nonneg d

theorem range_adj_lt (g : adjlist) (hg : GraphOK g) (u : Nat) (hu : u < g.n) :
    ∀ i ∈ List.range' (g.cd u) (g.cd (u + 1) - g.cd u), g.adj i < g.n := by
  intro i hi
  rw [List.mem_range'_1] at hi
  exact hg.2 u hu i hi.1 (by omega)

theorem pushStep_sound (g : adjlist) (hg : GraphOK g) (alpha : ℚ) (thr : Nat → ℚ) (δ : ℚ)
    (ha0 : 0 ≤ alpha) (ha1 : alpha ≤ 1) (hthr : ∀ v, 0 < thr v → δ ≤ thr v)
    (st : PushState) (hst : Sound g thr δ st) (hn : st.n > 0) :
    Sound g thr δ (pushStep g alpha thr st) := by
  unfold pushStep
  have hu := hst.wl_lt _ (top_mem_wl st hn)
  exact foldl_relax_sound g alpha thr δ _ _
    (share_nonneg alpha _ _ ha1 (hst.r_nonneg _)) hthr _
    (range_adj_lt g hg _ hu) _ (popnode_sound g alpha thr δ st hst hn ha0)

theorem pushInit_r_val (thr : Nat → ℚ) (source : Nat) (r p : Dict) (list : Nat → Nat) :
    (pushInit thr source r p list).r.val = Function.update r.val source 1 := by
  unfold pushInit
  simp only []
  split_ifs <;> rfl

theorem pushInit_r_touched (thr : Nat → ℚ) (source : Nat) (r p : Dict) (list : Nat → Nat) :
    (pushInit thr source r p list).r.touched = r.touched ++ [source] := by
  unfold pushInit
  simp only []
  split_ifs <;> exact map_range_snoc _ _ _

theorem pushInit_p (thr : Nat → ℚ) (source : Nat) (r p : Dict) (list : Nat → Nat) :
    (pushInit thr source r p list).p = p := by
  unfold pushInit
  simp only []
  split_ifs <;> rfl

theorem pushInit_it (thr : Nat → ℚ) (source : Nat) (r p : Dict) (list : Nat → Nat) :
    (pushInit thr source r p list).it = 0 := by
  unfold pushInit
  simp only []
  split_ifs <;> rfl

theorem pushInit_wl (thr : Nat → ℚ) (source : Nat) (r p : Dict) (list : Nat → Nat) :
    (pushInit thr source r p list).wl = if 1 > thr source then [source] else [] := by
  unfold pushInit
  simp only []
  split_ifs <;> simp [PushState.wl, List.range_succ]

theorem pushInit_sound (g : adjlist) (thr : Nat → ℚ) (δ : ℚ) (source : Nat) (r p : Dict)
    (list : Nat → Nat) (hs : source < g.n) (hr : ∀ x, r.val x = 0) (hp : ∀ x, p.val x = 0)
    (hδ : 1 > thr source → δ ≤ 1) :
    Sound g thr δ (pushInit thr source r p list) := by
  have hval : ∀ x, 0 ≤ (pushInit thr source r p list).r.val x := by
    intro x
    rw [pushInit_r_val]
    by_cases hx : x = source
    · rw [hx, Function.update_same]
      norm_num
    · rw [Function.update_noteq hx, hr x]
  have hsrc : (pushInit thr source r p list).r.val source = 1 := by
    rw [pushInit_r_val, Function.update_same]
  refine ⟨hval, ?_, ?_, ?_, ?_, ?_⟩
  · intro x
    rw [pushInit_p, hp x]
  · rw [pushInit_wl]
    split_ifs <;> simp
  · intro x hx
    rw [pushInit_wl] at hx
    split_ifs at hx with hc
    · rw [List.mem_singleton] at hx
      rw [hx]
      exact hs
    · simp at hx
  · intro x hx
    rw [pushInit_wl] at hx
    split_ifs at hx with hc
    · rw [List.mem_singleton] at hx
      rw [hx, hsrc]
      exact hc
    · simp at hx
  · intro x hx
    rw [pushInit_wl] at hx
    split_ifs at hx with hc
    · rw [List.mem_singleton] at hx
      rw [hx, hsrc]
      exact hδ hc
    · simp at hx

theorem pushLoop_inv (g : adjlist) (alpha : ℚ) (thr : Nat → ℚ) (P : PushState → Prop)
    (hstep : ∀ st, P st → st.n > 0 → P (pushStep g alpha thr st))
    (k : Nat) (st : PushState) (h : P st) : P (pushLoop g alpha thr k st) := by
  induction k generalizing st with
  | zero => exact h
  | succ k ih =>
    unfold pushLoop
    split_ifs with hn
    · exact ih _ (hstep st h hn)
    · exact h

theorem graphOK_mkadjlist (n : Nat) (es : List edge) (h : ∀ ed ∈ es, ed.s < n ∧ ed.t < n) :
    GraphOK (mkadjlist (rawgraph n es)) := by
  have hs : ∀ ed ∈ es, ed.s < n := fun ed hed => (h ed hed).1
  obtain ⟨hn, -, hd, hcd, hnb⟩ := mkadjlist_spec n es hs
  refine ⟨?_, ?_⟩
  · intro u hu
    rw [hn] at hu
    rw [hcd (u + 1) (by omega), hcd u (by omega), hd u, psum_succ]
  · intro u hu i h1 h2
    rw [hn] at hu ⊢
    have hmem : (mkadjlist (rawgraph n es)).adj i ∈ neighbors (mkadjlist (rawgraph n es)) u := by
      unfold neighbors
      refine List.mem_map.mpr ⟨i, ?_, rfl⟩
      rw [List.mem_range'_1]
      omega
    rw [hnb u hu] at hmem
    unfold outs at hmem
    obtain ⟨ed, hed, ht⟩ := List.mem_map.mp hmem
    rw [← ht]
    exact (h ed (List.mem_filter.mp hed).1).2

/-! ## Mass accounting -/

theorem foldl_relax_p (g : adjlist) (alpha : ℚ) (thr : Nat → ℚ) (u : Nat) (val : ℚ)
    (is : List Nat) (st : PushState) :
    (is.foldl (relax g alpha thr u val) st).p = st.p := by
  induction is generalizing st with
  | nil => rfl
  | cons i is ih => rw [List.foldl_cons, ih, relax_p]

theorem foldl_relax_it (g : adjlist) (alpha : ℚ) (thr : Nat → ℚ) (u : Nat) (val : ℚ)
    (is : List Nat) (st : PushState) :
    (is.foldl (relax g alpha thr u val) st).it = st.it := by
  induction is generalizing st with
  | nil => rfl
  | cons i is ih => rw [List.foldl_cons, ih, relax_it]

theorem foldl_relax_vsum (g : adjlist) (alpha : ℚ) (thr : Nat → ℚ) (u : Nat) (val : ℚ)
    (is : List Nat) (his : ∀ i ∈ is, g.adj i < g.n) (st : PushState) :
    vsum (is.foldl (relax g alpha thr u val) st).r.val g.n =
      vsum st.r.val g.n + (is.length : ℚ) * ((1 - alpha) * val / ((g.d u : Nat) : ℚ)) := by
  induction is generalizing st with
  | nil => simp
  | cons i is ih =>
    rw [List.foldl_cons, ih (fun j hj => his j (List.mem_cons_of_mem _ hj)), relax_r_val,
      vsum_update _ _ _ _ (his i (List.mem_cons_self _ _))]
    simp only [List.length_cons, Nat.cast_add, Nat.cast_one]
    ring

theorem foldl_relax_wl_mem (g : adjlist) (alpha : ℚ) (thr : Nat → ℚ) (u : Nat) (val : ℚ)
    (is : List Nat) (st : PushState) (x : Nat)
    (hx : x ∈ (is.foldl (relax g alpha thr u val) st).wl) :
    x ∈ st.wl ∨ ∃ i ∈ is, x = g.adj i := by
  induction is generalizing st with
  | nil => exact Or.inl hx
  | cons i is ih =>
    rw [List.foldl_cons] at hx
    rcases ih _ hx with h | ⟨j, hj, hxj⟩
    · rw [relax_wl] at h
      split_ifs at h
      · rcases List.mem_append.mp h with h1 | h1
        · exact Or.inl h1
        · rw [List.mem_singleton] at h1
          exact Or.inr ⟨i, List.mem_cons_self _ _, h1⟩
      · exact Or.inl h
    · exact Or.inr ⟨j, List.mem_cons_of_mem _ hj, hxj⟩

theorem pushStep_p (g : adjlist) (alpha : ℚ) (thr : Nat → ℚ) (st : PushState) :
    (pushStep g alpha thr st).p = (popnode alpha st).p := by
  unfold pushStep
  exact foldl_relax_p _ _ _ _ _ _ _

theorem pushStep_it (g : adjlist) (alpha : ℚ) (thr : Nat → ℚ) (st : PushState) :
    (pushStep g alpha thr st).it = st.it + 1 := by
  unfold pushStep
  rw [foldl_relax_it]
  rfl

theorem pushStep_wl_mem (g : adjlist) (alpha : ℚ) (thr : Nat → ℚ) (st : PushState)
    (hn : st.n > 0) (x : Nat) (hx : x ∈ (pushStep g alpha thr st).wl) :
    x ∈ st.wl ∨ ∃ i, g.cd (st.list (st.n - 1)) ≤ i ∧ i < g.cd (st.list (st.n - 1) + 1) ∧
      x = g.adj i := by
  unfold pushStep at hx
  rcases foldl_relax_wl_mem _ _ _ _ _ _ _ x hx with h | ⟨i, hi, hxi⟩
  · left
    rw [popnode_wl alpha st hn]
    exact List.mem_append_left _ h
  · right
    rw [List.mem_range'_1] at hi
    exact ⟨i, hi.1, by omega, hxi⟩

theorem pushStep_r_vsum (g : adjlist) (hg : GraphOK g) (alpha : ℚ) (thr : Nat → ℚ)
    (st : PushState) (hu : st.list (st.n - 1) < g.n) :
    vsum (pushStep g alpha thr st).r.val g.n =
      vsum st.r.val g.n - st.r.val (st.list (st.n - 1)) +
        (if g.d (st.list (st.n - 1)) = 0 then 0
          else (1 - alpha) * st.r.val (st.list (st.n - 1))) := by
  unfold pushStep
  rw [foldl_relax_vsum _ _ _ _ _ _ (range_adj_lt g hg _ hu), popnode_r_val,
    vsum_update _ _ _ _ hu, List.length_range', hg.1 _ hu, Nat.add_sub_cancel_left]
  split_ifs with hd
  · rw [hd]
    simp
  · have hd2 : ((g.d (st.list (st.n - 1)) : Nat) : ℚ) ≠ 0 := Nat.cast_ne_zero.mpr hd
    field_simp

theorem pushStep_p_vsum (g : adjlist) (alpha : ℚ) (thr : Nat → ℚ)
    (st : PushState) (hu : st.list (st.n - 1) < g.n) :
    vsum (pushStep g alpha thr st).p.val g.n =
      vsum st.p.val g.n + alpha * st.r.val (st.list (st.n - 1)) := by
  rw [pushStep_p, popnode_p_val, vsum_update _ _ _ _ hu]
  ring

/-! ## Conservation (C2) -/

theorem reach_lt (g : adjlist) (hg : GraphOK g) (source : Nat) (hs : source < g.n) (x : Nat)
    (hx : Reach g source x) : x < g.n := by
  induction hx with
  | refl => exact hs
  | step u i _ h1 h2 ih => exact hg.2 u ih i h1 h2

theorem pushStep_mass (g : adjlist) (hg : GraphOK g) (alpha : ℚ) (thr : Nat → ℚ)
    (st : PushState) (hu : st.list (st.n - 1) < g.n) :
    mass g (pushStep g alpha thr st) =
      mass g st - (if g.d (st.list (st.n - 1)) = 0
        then (1 - alpha) * st.r.val (st.list (st.n - 1)) else 0) := by
  unfold mass
  rw [pushStep_r_vsum g hg alpha thr st hu, pushStep_p_vsum g alpha thr st hu]
  split_ifs <;> ring

theorem pushInit_mass (g : adjlist) (thr : Nat → ℚ) (source : Nat) (hs : source < g.n)
    (r p : Dict) (list : Nat → Nat) (hr : ∀ x, r.val x = 0) (hp : ∀ x, p.val x = 0) :
    mass g (pushInit thr source r p list) = 1 := by
  have hr0 : r.val = fun _ => 0 := funext hr
  have hp0 : p.val = fun _ => 0 := funext hp
  unfold mass
  rw [pushInit_r_val, pushInit_p, vsum_update _ _ _ _ hs, hr0, hp0, vsum_zero]
  ring

theorem run_conserved (g : adjlist) (hg : GraphOK g) (alpha : ℚ) (thr : Nat → ℚ)
    (source : Nat) (hs : source < g.n) (hsink : ∀ x, Reach g source x → g.d x ≠ 0) (k : Nat) :
    (∀ x ∈ (run g alpha thr source k).wl, Reach g source x) ∧
      mass g (run g alpha thr source k) = 1 := by
  unfold run
  apply pushLoop_inv g alpha thr
    (fun st => (∀ x ∈ st.wl, Reach g source x) ∧ mass g st = 1)
  · intro st ⟨h1, h2⟩ hn
    have htop := h1 _ (top_mem_wl st hn)
    have hu := reach_lt g hg source hs _ htop
    refine ⟨?_, ?_⟩
    · intro x hx
      rcases pushStep_wl_mem g alpha thr st hn x hx with h | ⟨i, hi1, hi2, hxi⟩
      · exact h1 x h
      · rw [hxi]
        exact Reach.step _ i htop hi1 hi2
    · rw [pushStep_mass g hg alpha thr st hu, if_neg (hsink _ htop), h2]
      ring
  · refine ⟨?_, ?_⟩
    · intro x hx
      rw [pushInit_wl] at hx
      split_ifs at hx
      · rw [List.mem_singleton] at hx
        rw [hx]
        exact Reach.refl
      · simp at hx
    · exact pushInit_mass g thr source hs _ _ _ (fun _ => rfl) (fun _ => rfl)

theorem pushWith_eq_some (g : adjlist) (alpha : ℚ) (thr : Nat → ℚ) (source : Nat) (r p : Dict)
    (list : Nat → Nat) (fuel : Nat) (st : PushState)
    (h : pushWith g alpha thr source r p list fuel = some st) :
    st = pushLoop g alpha thr fuel (pushInit thr source r p list) ∧ st.n = 0 ∧
      st.oob = false := by
  unfold pushWith at h
  simp only [] at h
  split_ifs at h with ho hn
  · have := Option.some.inj h
    rw [← this]
    exact ⟨rfl, hn, by simpa using ho⟩

/-- Conservation while the stores stay inside the arrays.  On a built graph,
for every `alpha`, every `eps` and every source from which no node of
out-degree 0 can be reached, a run of `push` started from all-zero dictionaries
has `sum(p) + sum(r) = 1` after the initialisation and after every iteration
of the loop (`k` counts them) as long as no store has left `r->list` or
`p->list`, for any threshold `thr`, and so in the state that `push` of `push.c`
or of `allpush.c` returns. -/
theorem conservation_inbounds (n : Nat) (es : List edge) (h : ∀ ed ∈ es, ed.s < n ∧ ed.t < n)
    (g : adjlist) (hg : g = mkadjlist (rawgraph n es)) (alpha eps : ℚ) (source : Nat)
    (hs : source < n) (hsink : ∀ x, Reach g source x → g.d x ≠ 0) :
    (∀ (thr : Nat → ℚ) (k : Nat), (run g alpha thr source k).oob = false →
      mass g (run g alpha thr source k) = 1) ∧
    (∀ fuel st, push g alpha source eps (allocdict g.n) (allocdict g.n) (fun _ => 0) fuel
        = some st → mass g st = 1) ∧
    (∀ fuel st, AllPush.push g alpha source eps (allocdict g.n) (allocdict g.n) (fun _ => 0) fuel
        = some st → mass g st = 1) := by
  have hok : GraphOK g := by
    rw [hg]
    exact graphOK_mkadjlist n es h
  have hs2 : source < g.n := by
    rw [hg]
    exact hs
  refine ⟨?_, ?_, ?_⟩
  · intro thr k _
    exact (run_conserved g hok alpha thr source hs2 hsink k).2
  · intro fuel st hst
    rw [(pushWith_eq_some _ _ _ _ _ _ _ _ _ hst).1]
    exact (run_conserved g hok alpha (flat eps) source hs2 hsink fuel).2
  · intro fuel st hst
    rw [(pushWith_eq_some _ _ _ _ _ _ _ _ _ hst).1]
    exact (run_conserved g hok alpha (scaled g eps) source hs2 hsink fuel).2

theorem csr_fidelity_witness :
    ((csredges (mkadjlist (rawgraph 2 [⟨0, 1⟩, ⟨1, 0⟩])) : List edge) : Multiset edge)
      = (([⟨0, 1⟩, ⟨1, 0⟩] : List edge) : Multiset edge) :=
  (csr_fidelity 2 [⟨0, 1⟩, ⟨1, 0⟩] (by decide)).1

/-! ## Runs on concrete inputs -/

theorem pushLoop_stable (g : adjlist) (alpha : ℚ) (thr : Nat → ℚ) (k j : Nat) (st : PushState)
    (h : (pushLoop g alpha thr k st).n = 0) :
    pushLoop g alpha thr (k + j) st = pushLoop g alpha thr k st := by
  induction k generalizing st with
  | zero =>
    have h0 : st.n = 0 := h
    cases j with
    | zero => rfl
    | succ j =>
      show pushLoop g alpha thr (0 + (j + 1)) st = st
      rw [Nat.zero_add]
      unfold pushLoop
      rw [if_neg (by omega)]
  | succ k ih =>
    have hk : k + 1 + j = (k + j) + 1 := by omega
    rw [hk]
    unfold pushLoop at h ⊢
    split_ifs at h ⊢ with hn
    · exact ih _ h
    · rfl

theorem pushWith_of_nil (g : adjlist) (alpha : ℚ) (thr : Nat → ℚ) (source : Nat) (r p : Dict)
    (list : Nat → Nat) (k j : Nat)
    (h : (pushLoop g alpha thr k (pushInit thr source r p list)).n = 0)
    (ho : (pushLoop g alpha thr k (pushInit thr source r p list)).oob = false) :
    pushWith g alpha thr source r p list (k + j)
      = some (pushLoop g alpha thr k (pushInit thr source r p list)) := by
  unfold pushWith
  simp only []
  rw [pushLoop_stable g alpha thr k j _ h, if_neg (by rw [ho]; decide), if_pos h]

theorem pushLoop_succ (g : adjlist) (alpha : ℚ) (thr : Nat → ℚ) (k : Nat) (st : PushState) :
    pushLoop g alpha thr (k + 1) st
      = if (pushLoop g alpha thr k st).n > 0 then
          pushStep g alpha thr (pushLoop g alpha thr k st)
        else pushLoop g alpha thr k st := by
  induction k generalizing st with
  | zero => simp [pushLoop]
  | succ k ih =>
    by_cases h : st.n > 0
    · have e1 : pushLoop g alpha thr (k + 1 + 1) st
          = pushLoop g alpha thr (k + 1) (pushStep g alpha thr st) := by
        rw [pushLoop, if_pos h]
      have e2 : pushLoop g alpha thr (k + 1) st
          = pushLoop g alpha thr k (pushStep g alpha thr st) := by
        rw [pushLoop, if_pos h]
      rw [e1, e2, ih]
    · have e1 : pushLoop g alpha thr (k + 1 + 1) st = st := by
        rw [pushLoop, if_neg h]
      have e2 : pushLoop g alpha thr (k + 1) st = st := by
        rw [pushLoop, if_neg h]
      rw [e1, e2, if_neg h]

theorem run_succ (g : adjlist) (alpha : ℚ) (thr : Nat → ℚ) (source k : Nat) :
    run g alpha thr source (k + 1)
      = if (run g alpha thr source k).n > 0 then
          pushStep g alpha thr (run g alpha thr source k)
        else run g alpha thr source k :=
  pushLoop_succ g alpha thr k _

theorem pushLoop_oob (g : adjlist) (alpha : ℚ) (thr : Nat → ℚ) (k j : Nat) (st : PushState)
    (h : (pushLoop g alpha thr k st).oob = true) :
    (pushLoop g alpha thr (k + j) st).oob = true := by
  induction j with
  | zero => exact h
  | succ j ih =>
    rw [← Nat.add_assoc, pushLoop_succ]
    split_ifs
    · exact pushStep_oob g alpha thr _ ih
    · exact ih

theorem pushWith_none (g : adjlist) (alpha : ℚ) (thr : Nat → ℚ) (source : Nat) (r p : Dict)
    (list : Nat → Nat) (k : Nat)
    (h : (pushLoop g alpha thr k (pushInit thr source r p list)).oob = true) (fuel : Nat) :
    pushWith g alpha thr source r p list fuel = none := by
  unfold pushWith
  simp only []
  by_cases ho : (pushLoop g alpha thr fuel (pushInit thr source r p list)).oob = true
  · rw [if_pos ho]
  · rw [if_neg ho]
    have hn : (pushLoop g alpha thr fuel (pushInit thr source r p list)).n ≠ 0 := by
      intro hn
      rcases le_total fuel k with hle | hle
      · obtain ⟨j, rfl⟩ := Nat.exists_eq_add_of_le hle
        rw [pushLoop_stable g alpha thr fuel j _ hn] at h
        exact ho h
      · obtain ⟨j, rfl⟩ := Nat.exists_eq_add_of_le hle
        exact ho (pushLoop_oob g alpha thr k j _ h)
    rw [if_neg hn]

theorem run_tracked (g : adjlist) (alpha : ℚ) (thr : Nat → ℚ) (source k : Nat) :
    Tracked g.n (run g alpha thr source k) := by
  unfold run
  apply pushLoop_inv g alpha thr (Tracked g.n)
  · intro st hst _
    exact pushStep_tracked g alpha thr g.n st hst
  · exact pushInit_tracked thr source _ _ _ g.n rfl rfl (fits_allocdict g.n) (fits_allocdict g.n)

theorem tracked_oob (N : Nat) (st : PushState) (h : Tracked N st) :
    st.oob = false ↔ st.r.n ≤ N ∧ st.p.n ≤ N := by
  obtain ⟨h1, h2, h3, h4⟩ := h
  unfold Fits at h3 h4
  unfold PushState.oob
  rw [h3, h4, h1, h2, Bool.or_eq_false_iff, decide_eq_false_iff_not, decide_eq_false_iff_not,
    Nat.not_lt, Nat.not_lt]

theorem push_none_of_oob (g : adjlist) (alpha : ℚ) (thr : Nat → ℚ) (source k : Nat)
    (h : (run g alpha thr source k).oob = true) (fuel : Nat) :
    pushWith g alpha thr source (allocdict g.n) (allocdict g.n) (fun _ => 0) fuel = none :=
  pushWith_none g alpha thr source _ _ _ k h fuel

theorem run_inbounds_of_final (g : adjlist) (alpha : ℚ) (thr : Nat → ℚ) (source K : Nat)
    (hn : (run g alpha thr source K).n = 0) (ho : (run g alpha thr source K).oob = false)
    (k : Nat) : (run g alpha thr source k).oob = false := by
  rcases le_total k K with hle | hle
  · obtain ⟨j, rfl⟩ := Nat.exists_eq_add_of_le hle
    cases hk : (run g alpha thr source k).oob with
    | false => rfl
    | true =>
      have := pushLoop_oob g alpha thr k j _ hk
      unfold run at ho
      rw [ho] at this
      exact absurd this (by decide)
  · obtain ⟨j, rfl⟩ := Nat.exists_eq_add_of_le hle
    unfold run at hn ho ⊢
    rw [pushLoop_stable g alpha thr K j _ hn]
    exact ho

theorem dupgraph_facts : dupgraph.n = 2 ∧ dupgraph.cd 0 = 0 ∧ dupgraph.cd 1 = 2 ∧
    dupgraph.cd 2 = 2 ∧ dupgraph.adj 0 = 1 ∧ dupgraph.adj 1 = 1 ∧ dupgraph.d 0 = 2 ∧
    dupgraph.d 1 = 0 := by
  decide

theorem dupgraph_run :
    (run dupgraph (3 / 20) (flat (17 / 40)) 0 1).n = 0 ∧
    (run dupgraph (3 / 20) (flat (17 / 40)) 0 1).r.val 1 = 17 / 20 ∧
    (run dupgraph (3 / 20) (flat (17 / 40)) 0 1).oob = false := by
  obtain ⟨h0, h1, h2, h3, h4, h5, h6, h7⟩ := dupgraph_facts
  refine ⟨?_, ?_, ?_⟩
  · norm_num [run, pushLoop, pushStep, pushInit, flat, relax_n, relax_r_val, popnode, allocdict,
      Dict.add, h0, h1, h2, h3, h4, h5, h6, h7, List.range', Function.update_apply]
  · norm_num [run, pushLoop, pushStep, pushInit, flat, relax_n, relax_r_val, popnode, allocdict,
      Dict.add, h0, h1, h2, h3, h4, h5, h6, h7, List.range', Function.update_apply]
  · norm_num [PushState.oob, run, pushLoop, pushStep, pushInit, flat, relax_n, relax_r_val,
      relax_r_oob, relax_r_n, relax_r_nmax, relax_p, popnode, allocdict, Dict.add, h0, h1, h2,
      h3, h4, h5, h6, h7, List.range', Function.update_apply]

/-! ## Termination and the bound on the number of pushes (C5) -/

theorem pushStep_progress (g : adjlist) (hg : GraphOK g) (alpha : ℚ) (thr : Nat → ℚ) (δ : ℚ)
    (ha0 : 0 ≤ alpha) (ha1 : alpha ≤ 1) (hthr : ∀ v, 0 < thr v → δ ≤ thr v)
    (st : PushState) (hn : st.n > 0)
    (hst : Sound g thr δ st ∧ mass g st ≤ 1 ∧ (st.it : ℚ) * (alpha * δ) ≤ vsum st.p.val g.n) :
    Sound g thr δ (pushStep g alpha thr st) ∧ mass g (pushStep g alpha thr st) ≤ 1 ∧
      ((pushStep g alpha thr st).it : ℚ) * (alpha * δ)
        ≤ vsum (pushStep g alpha thr st).p.val g.n := by
  obtain ⟨h1, h2, h3⟩ := hst
  have htop := top_mem_wl st hn
  have hu := h1.wl_lt _ htop
  have hval := h1.wl_delta _ htop
  have hr0 := h1.r_nonneg (st.list (st.n - 1))
  refine ⟨pushStep_sound g hg alpha thr δ ha0 ha1 hthr st h1 hn, ?_, ?_⟩
  · rw [pushStep_mass g hg alpha thr st hu]
    have : 0 ≤ (1 - alpha) * st.r.val (st.list (st.n - 1)) := mul_nonneg (by linarith) hr0
    split_ifs <;> linarith
  · rw [pushStep_it, pushStep_p_vsum g alpha thr st hu]
    have : alpha * δ ≤ alpha * st.r.val (st.list (st.n - 1)) :=
      mul_le_mul_of_nonneg_left hval ha0
    push_cast
    linarith

theorem run_invariant (g : adjlist) (hg : GraphOK g) (alpha : ℚ) (thr : Nat → ℚ) (δ : ℚ)
    (ha0 : 0 ≤ alpha) (ha1 : alpha ≤ 1) (hthr : ∀ v, 0 < thr v → δ ≤ thr v)
    (source : Nat) (hs : source < g.n) (hδ : 1 > thr source → δ ≤ 1) (k : Nat) :
    Sound g thr δ (run g alpha thr source k) ∧ mass g (run g alpha thr source k) ≤ 1 ∧
      ((run g alpha thr source k).it : ℚ) * (alpha * δ)
        ≤ vsum (run g alpha thr source k).p.val g.n := by
  unfold run
  apply pushLoop_inv g alpha thr
    (fun st => Sound g thr δ st ∧ mass g st ≤ 1 ∧ (st.it : ℚ) * (alpha * δ) ≤ vsum st.p.val g.n)
  · intro st hst hn
    exact pushStep_progress g hg alpha thr δ ha0 ha1 hthr st hn hst
  · refine ⟨pushInit_sound g thr δ source _ _ _ hs (fun _ => rfl) (fun _ => rfl) hδ, ?_, ?_⟩
    · rw [pushInit_mass g thr source hs _ _ _ (fun _ => rfl) (fun _ => rfl)]
    · rw [pushInit_it, pushInit_p]
      simp [allocdict, vsum_zero]

theorem run_it_bound (g : adjlist) (hg : GraphOK g) (alpha : ℚ) (thr : Nat → ℚ) (δ : ℚ)
    (ha0 : 0 < alpha) (ha1 : alpha ≤ 1) (hδ0 : 0 < δ) (hthr : ∀ v, 0 < thr v → δ ≤ thr v)
    (source : Nat) (hs : source < g.n) (hδ : 1 > thr source → δ ≤ 1) (k : Nat) :
    ((run g alpha thr source k).it : ℚ) ≤ 1 / (δ * alpha) := by
  obtain ⟨h1, h2, h3⟩ := run_invariant g hg alpha thr δ (le_of_lt ha0) ha1 hthr source hs hδ k
  have hr := vsum_nonneg (run g alpha thr source k).r.val g.n h1.r_nonneg
  unfold mass at h2
  have hpos : 0 < δ * alpha := mul_pos hδ0 ha0
  rw [le_div_iff₀ hpos]
  have : alpha * δ = δ * alpha := mul_comm _ _
  rw [this] at h3
  linarith

theorem pushLoop_it (g : adjlist) (alpha : ℚ) (thr : Nat → ℚ) (k : Nat) (st : PushState) :
    (pushLoop g alpha thr k st).n = 0 ∨ (pushLoop g alpha thr k st).it = st.it + k := by
  induction k generalizing st with
  | zero => exact Or.inr rfl
  | succ k ih =>
    unfold pushLoop
    split_ifs with hn
    · rcases ih (pushStep g alpha thr st) with h | h
      · exact Or.inl h
      · right
        rw [h, pushStep_it]
        omega
    · left
      omega

theorem run_terminates (g : adjlist) (hg : GraphOK g) (alpha : ℚ) (thr : Nat → ℚ) (δ : ℚ)
    (ha0 : 0 < alpha) (ha1 : alpha ≤ 1) (hδ0 : 0 < δ) (hthr : ∀ v, 0 < thr v → δ ≤ thr v)
    (source : Nat) (hs : source < g.n) (hδ : 1 > thr source → δ ≤ 1) :
    (run g alpha thr source (⌊1 / (δ * alpha)⌋₊ + 1)).n = 0 := by
  have hb := run_it_bound g hg alpha thr δ ha0 ha1 hδ0 hthr source hs hδ
    (⌊1 / (δ * alpha)⌋₊ + 1)
  rcases pushLoop_it g alpha thr (⌊1 / (δ * alpha)⌋₊ + 1)
    (pushInit thr source (allocdict g.n) (allocdict g.n) (fun _ => 0)) with h | h
  · exact h
  · exfalso
    have hit : (run g alpha thr source (⌊1 / (δ * alpha)⌋₊ + 1)).it
        = ⌊1 / (δ * alpha)⌋₊ + 1 := by
      unfold run
      rw [h, pushInit_it]
      omega
    rw [hit] at hb
    have := Nat.lt_floor_add_one (1 / (δ * alpha))
    push_cast at hb
    linarith

theorem pushLoop_unique (g : adjlist) (alpha : ℚ) (thr : Nat → ℚ) (a b : Nat) (st : PushState)
    (ha : (pushLoop g alpha thr a st).n = 0) (hb : (pushLoop g alpha thr b st).n = 0) :
    pushLoop g alpha thr a st = pushLoop g alpha thr b st := by
  rcases le_total a b with h | h
  · obtain ⟨j, rfl⟩ := Nat.exists_eq_add_of_le h
    exact (pushLoop_stable g alpha thr a j st ha).symm
  · obtain ⟨j, rfl⟩ := Nat.exists_eq_add_of_le h
    exact pushLoop_stable g alpha thr b j st hb

/-! ## Residuals left above the threshold (C3, C4) -/

/-- C3 (flat-policy postcondition), evaluated on the input file with the lines
`0 1` and `0 1`, source 0, `alpha = 0.15`, `eps = 0.425`: `push` of `push.c`
returns after one iteration, and node 1 is left with the residual `0.85`, above
`eps`.  The first edge raises `r[1]` from 0 to exactly `eps` (not above, so no
enqueue); at the second edge the test `r->val[v]<eps` is false and the `else`
branch adds the share without enqueueing. -/
theorem flat_residual_exceeds_eps :
    (∀ j, push dupgraph (3 / 20) 0 (17 / 40) (allocdict 2) (allocdict 2) (fun _ => 0) (1 + j)
      = some (run dupgraph (3 / 20) (flat (17 / 40)) 0 1)) ∧
    (run dupgraph (3 / 20) (flat (17 / 40)) 0 1).r.val 1 = 17 / 20 ∧
    ¬ ((run dupgraph (3 / 20) (flat (17 / 40)) 0 1).r.val 1 ≤ 17 / 40) := by
  obtain ⟨h1, h2, h3⟩ := dupgraph_run
  refine ⟨?_, h2, ?_⟩
  · intro j
    exact pushWith_of_nil dupgraph (3 / 20) (flat (17 / 40)) 0 _ _ _ 1 j h1 h3
  · rw [h2]
    norm_num

theorem onedge_facts : onedge.n = 2 ∧ onedge.cd 0 = 0 ∧ onedge.cd 1 = 1 ∧
    onedge.cd 2 = 1 ∧ onedge.adj 0 = 1 ∧ onedge.d 0 = 1 ∧ onedge.d 1 = 0 := by
  decide

theorem onedge_run :
    (run onedge (3 / 20) (scaled onedge (1 / 2)) 0 1).n = 0 ∧
    (run onedge (3 / 20) (scaled onedge (1 / 2)) 0 1).r.val 1 = 17 / 20 ∧
    (run onedge (3 / 20) (scaled onedge (1 / 2)) 0 1).oob = false := by
  obtain ⟨h0, h1, h2, h3, h4, h5, h6⟩ := onedge_facts
  refine ⟨?_, ?_, ?_⟩
  rotate_left 2
  · norm_num [PushState.oob, run, pushLoop, pushStep, pushInit, scaled, relax_n, relax_r_val,
      relax_r_oob, relax_r_n, relax_r_nmax, relax_p, popnode, allocdict, Dict.add, h0, h1, h2,
      h3, h4, h5, h6, List.range', Function.update_apply]
  · norm_num [run, pushLoop, pushStep, pushInit, scaled, relax_n, relax_r_val, popnode,
      allocdict, Dict.add, h0, h1, h2, h3, h4, h5, h6, List.range', Function.update_apply]
  · norm_num [run, pushLoop, pushStep, pushInit, scaled, relax_n, relax_r_val, popnode,
      allocdict, Dict.add, h0, h1, h2, h3, h4, h5, h6, List.range', Function.update_apply]

/-- C4 (degree-scaled postcondition), evaluated on the input file with the
single line `0 1`, source 0, `alpha = 0.15`, `eps = 0.5`: `push` of `allpush.c`
returns after one iteration, and node 1, of out-degree 0, is left with the
residual `0.85`, above its threshold `eps*d[1] = 0`.  The test
`r->val[v]<eps*g->d[v]` reads `0 < 0`, so the `else` branch adds the share
without enqueueing. -/
theorem scaled_sink_residual_exceeds :
    (∀ j, AllPush.push onedge (3 / 20) 0 (1 / 2) (allocdict 2) (allocdict 2) (fun _ => 0) (1 + j)
      = some (run onedge (3 / 20) (scaled onedge (1 / 2)) 0 1)) ∧
    onedge.d 1 = 0 ∧
    (run onedge (3 / 20) (scaled onedge (1 / 2)) 0 1).r.val 1 = 17 / 20 ∧
    ¬ ((run onedge (3 / 20) (scaled onedge (1 / 2)) 0 1).r.val 1
        ≤ 1 / 2 * ((onedge.d 1 : Nat) : ℚ)) := by
  obtain ⟨h1, h2, h3⟩ := onedge_run
  refine ⟨?_, by decide, h2, ?_⟩
  · intro j
    exact pushWith_of_nil onedge (3 / 20) (scaled onedge (1 / 2)) 0 _ _ _ 1 j h1 h3
  · rw [h2, onedge_facts.2.2.2.2.2.2]
    norm_num

/-! ## Mass dropped at sinks (C6) -/

theorem pushStep_sink (g : adjlist) (hg : GraphOK g) (alpha : ℚ) (thr : Nat → ℚ)
    (st : PushState) (hu : st.list (st.n - 1) < g.n) (hd : g.d (st.list (st.n - 1)) = 0) :
    pushStep g alpha thr st = popnode alpha st := by
  unfold pushStep
  simp only []
  rw [hg.1 _ hu, hd]
  simp

theorem pushStep_sinkmass (g : adjlist) (alpha : ℚ) (thr : Nat → ℚ)
    (st : PushState) (hu : st.list (st.n - 1) < g.n) :
    sinkmass g (pushStep g alpha thr st) =
      sinkmass g st + (if g.d (st.list (st.n - 1)) = 0
        then alpha * st.r.val (st.list (st.n - 1)) else 0) := by
  unfold sinkmass
  rw [pushStep_p, popnode_p_val]
  have hfun : (fun u => if g.d u = 0 then
        Function.update st.p.val (st.list (st.n - 1))
          (st.p.val (st.list (st.n - 1)) + alpha * st.r.val (st.list (st.n - 1))) u else 0)
      = Function.update (fun u => if g.d u = 0 then st.p.val u else 0) (st.list (st.n - 1))
          (if g.d (st.list (st.n - 1)) = 0
            then st.p.val (st.list (st.n - 1)) + alpha * st.r.val (st.list (st.n - 1))
            else 0) := by
    funext x
    by_cases hx : x = st.list (st.n - 1)
    · subst hx
      simp
    · simp [Function.update_noteq hx]
  rw [hfun, vsum_update _ _ _ _ hu]
  split_ifs <;> ring

theorem run_sink_identity (g : adjlist) (hg : GraphOK g) (alpha : ℚ) (thr : Nat → ℚ)
    (source : Nat) (hs : source < g.n) (k : Nat) :
    (∀ x ∈ (run g alpha thr source k).wl, x < g.n) ∧
      alpha * (1 - mass g (run g alpha thr source k))
        = (1 - alpha) * sinkmass g (run g alpha thr source k) := by
  unfold run
  apply pushLoop_inv g alpha thr
    (fun st => (∀ x ∈ st.wl, x < g.n) ∧ alpha * (1 - mass g st) = (1 - alpha) * sinkmass g st)
  · intro st ⟨h1, h2⟩ hn
    have hu := h1 _ (top_mem_wl st hn)
    refine ⟨?_, ?_⟩
    · intro x hx
      rcases pushStep_wl_mem g alpha thr st hn x hx with h | ⟨i, hi1, hi2, hxi⟩
      · exact h1 x h
      · rw [hxi]
        exact hg.2 _ hu i hi1 hi2
    · rw [pushStep_mass g hg alpha thr st hu, pushStep_sinkmass g alpha thr st hu]
      split_ifs <;> linarith
  · refine ⟨?_, ?_⟩
    · intro x hx
      rw [pushInit_wl] at hx
      split_ifs at hx
      · rw [List.mem_singleton] at hx
        rw [hx]
        exact hs
      · simp at hx
    · rw [pushInit_mass g thr source hs _ _ _ (fun _ => rfl) (fun _ => rfl)]
      unfold sinkmass
      rw [pushInit_p]
      simp [allocdict, vsum_zero]

/-- Mass dropped at sinks, while the stores stay inside the arrays.  On a built
graph: an iteration of the loop of `push` that pops a node `u` of out-degree 0
holding `val` is the pop alone (the loop over the neighbours, the only place
with a division by `d[u]`, runs zero times): `p[u]` grows by `alpha*val`,
`r[u]` becomes 0, no other entry changes, and `sum(p) + sum(r)` decreases by
exactly `(1-alpha)*val`.  Hence, for `alpha` other than 0 and every source
below `n`, after every iteration of a run from all-zero dictionaries in which
no store has left `r->list` or `p->list`, and in the state that `push`
returns, `sum(p) + sum(r) = 1 - ((1-alpha)/alpha) * (sum of p[u] over sinks u)`. -/
theorem sink_mass_drop_inbounds (n : Nat) (es : List edge) (h : ∀ ed ∈ es, ed.s < n ∧ ed.t < n)
    (g : adjlist) (hg : g = mkadjlist (rawgraph n es)) (alpha eps : ℚ) (source : Nat)
    (ha : alpha ≠ 0) (hs : source < n) :
    (∀ (thr : Nat → ℚ) (st : PushState), st.n > 0 → st.list (st.n - 1) < n →
      g.d (st.list (st.n - 1)) = 0 →
        pushStep g alpha thr st = popnode alpha st ∧
        (pushStep g alpha thr st).p.val = Function.update st.p.val (st.list (st.n - 1))
          (st.p.val (st.list (st.n - 1)) + alpha * st.r.val (st.list (st.n - 1))) ∧
        (pushStep g alpha thr st).r.val = Function.update st.r.val (st.list (st.n - 1)) 0 ∧
        mass g (pushStep g alpha thr st)
          = mass g st - (1 - alpha) * st.r.val (st.list (st.n - 1))) ∧
    (∀ (thr : Nat → ℚ) (k : Nat), (run g alpha thr source k).oob = false →
      mass g (run g alpha thr source k)
        = 1 - (1 - alpha) / alpha * sinkmass g (run g alpha thr source k)) ∧
    (∀ fuel st, push g alpha source eps (allocdict g.n) (allocdict g.n) (fun _ => 0) fuel
        = some st → mass g st = 1 - (1 - alpha) / alpha * sinkmass g st) := by
  have hok : GraphOK g := by
    rw [hg]
    exact graphOK_mkadjlist n es h
  have hn : g.n = n := by
    rw [hg]
    rfl
  have hs2 : source < g.n := by
    rw [hn]
    exact hs
  have key : ∀ (thr : Nat → ℚ) (k : Nat), mass g (run g alpha thr source k)
        = 1 - (1 - alpha) / alpha * sinkmass g (run g alpha thr source k) := by
    intro thr k
    have := (run_sink_identity g hok alpha thr source hs2 k).2
    field_simp
    linarith
  refine ⟨?_, fun thr k _ => key thr k, ?_⟩
  · intro thr st _ hu hd
    rw [← hn] at hu
    have hstep := pushStep_sink g hok alpha thr st hu hd
    refine ⟨hstep, ?_, ?_, ?_⟩
    · rw [hstep, popnode_p_val]
    · rw [hstep, popnode_r_val]
    · rw [pushStep_mass g hok alpha thr st hu, if_pos hd]
  · intro fuel st hst
    rw [(pushWith_eq_some _ _ _ _ _ _ _ _ _ hst).1]
    exact key (flat eps) fuel

/-! ## The emitted result set (C7) -/

theorem pushStep_listed (g : adjlist) (alpha : ℚ) (thr : Nat → ℚ) (δ : ℚ)
    (ha0 : 0 < alpha) (hδ0 : 0 < δ) (st : PushState) (hn : st.n > 0)
    (hst : Sound g thr δ st) (hl : Listed g st.p) :
    Listed g (pushStep g alpha thr st).p := by
  have htop := top_mem_wl st hn
  have hu := hst.wl_lt _ htop
  have hval := hst.wl_delta _ htop
  have hp0 := hst.p_nonneg (st.list (st.n - 1))
  have hpos : st.p.val (st.list (st.n - 1)) + alpha * st.r.val (st.list (st.n - 1)) ≠ 0 := by
    have : 0 < alpha * st.r.val (st.list (st.n - 1)) := mul_pos ha0 (lt_of_lt_of_le hδ0 hval)
    linarith
  rw [pushStep_p]
  refine ⟨?_, ?_, ?_⟩
  · rw [popnode_p_touched]
    split_ifs with h0
    · refine List.nodup_append.mpr ⟨hl.nodup, List.nodup_singleton _, ?_⟩
      intro a ha hb
      rw [List.mem_singleton] at hb
      subst hb
      exact (hl.iff _).mp ha h0
    · exact hl.nodup
  · intro x hx
    rw [popnode_p_touched] at hx
    split_ifs at hx with h0
    · rcases List.mem_append.mp hx with h | h
      · exact hl.lt x h
      · rw [List.mem_singleton] at h
        rw [h]
        exact hu
    · exact hl.lt x hx
  · intro x
    rw [popnode_p_touched, popnode_p_val]
    by_cases hx : x = st.list (st.n - 1)
    · subst hx
      rw [Function.update_same]
      refine ⟨fun _ => hpos, fun _ => ?_⟩
      split_ifs with h0
      · simp
      · exact (hl.iff _).mpr h0
    · rw [Function.update_noteq hx]
      split_ifs with h0
      · rw [List.mem_append, List.mem_singleton]
        constructor
        · rintro (h | h)
          · exact (hl.iff x).mp h
          · exact absurd h hx
        · intro h
          exact Or.inl ((hl.iff x).mpr h)
      · exact hl.iff x

theorem nodup_length_le (l : List Nat) (n : Nat) (hnd : l.Nodup) (hlt : ∀ x ∈ l, x < n) :
    l.length ≤ n := by
  have hsub : l.toFinset ⊆ Finset.range n := by
    intro x hx
    rw [Finset.mem_range]
    exact hlt x (List.mem_toFinset.mp hx)
  have := Finset.card_le_card hsub
  rw [List.toFinset_card_of_nodup hnd, Finset.card_range] at this
  exact this

theorem run_listed (g : adjlist) (hg : GraphOK g) (alpha : ℚ) (thr : Nat → ℚ) (δ : ℚ)
    (ha0 : 0 < alpha) (ha1 : alpha ≤ 1) (hδ0 : 0 < δ) (hthr : ∀ v, 0 < thr v → δ ≤ thr v)
    (source : Nat) (hs : source < g.n) (hδ : 1 > thr source → δ ≤ 1) (k : Nat) :
    Sound g thr δ (run g alpha thr source k) ∧ Listed g (run g alpha thr source k).p := by
  unfold run
  apply pushLoop_inv g alpha thr (fun st => Sound g thr δ st ∧ Listed g st.p)
  · intro st ⟨h1, h2⟩ hn
    exact ⟨pushStep_sound g hg alpha thr δ (le_of_lt ha0) ha1 hthr st h1 hn,
      pushStep_listed g alpha thr δ ha0 hδ0 st hn h1 h2⟩
  · refine ⟨pushInit_sound g thr δ source _ _ _ hs (fun _ => rfl) (fun _ => rfl) hδ, ?_⟩
    rw [pushInit_p]
    refine ⟨?_, ?_, ?_⟩
    · simp [Dict.touched, allocdict]
    · simp [Dict.touched, allocdict]
    · simp [Dict.touched, allocdict]

theorem run_p_le (g : adjlist) (hg : GraphOK g) (alpha : ℚ) (thr : Nat → ℚ) (δ : ℚ)
    (ha0 : 0 < alpha) (ha1 : alpha ≤ 1) (hδ0 : 0 < δ) (hthr : ∀ v, 0 < thr v → δ ≤ thr v)
    (source : Nat) (hs : source < g.n) (hδ : 1 > thr source → δ ≤ 1) (k : Nat) :
    (run g alpha thr source k).p.n ≤ g.n := by
  have hl := (run_listed g hg alpha thr δ ha0 ha1 hδ0 hthr source hs hδ k).2
  have hlen : (run g alpha thr source k).p.touched.length = (run g alpha thr source k).p.n := by
    simp [Dict.touched]
  rw [← hlen]
  exact nodup_length_le _ _ hl.nodup hl.lt

theorem run_safe (g : adjlist) (hg : GraphOK g) (alpha : ℚ) (thr : Nat → ℚ) (δ : ℚ)
    (ha0 : 0 < alpha) (ha1 : alpha ≤ 1) (hδ0 : 0 < δ) (hthr : ∀ v, 0 < thr v → δ ≤ thr v)
    (source : Nat) (hs : source < g.n) (hδ : 1 > thr source → δ ≤ 1) (k : Nat)
    (hfit : (run g alpha thr source k).r.n ≤ g.n) :
    (run g alpha thr source k).oob = false :=
  (tracked_oob g.n _ (run_tracked g alpha thr source k)).mpr
    ⟨hfit, run_p_le g hg alpha thr δ ha0 ha1 hδ0 hthr source hs hδ k⟩

theorem run_r_le (g : adjlist) (alpha : ℚ) (thr : Nat → ℚ) (source k : Nat)
    (h : (run g alpha thr source k).oob = false) : (run g alpha thr source k).r.n ≤ g.n :=
  ((tracked_oob g.n _ (run_tracked g alpha thr source k)).mp h).1

theorem pushWith_returns (g : adjlist) (hg : GraphOK g) (alpha : ℚ) (thr : Nat → ℚ) (δ : ℚ)
    (ha0 : 0 < alpha) (ha1 : alpha ≤ 1) (hδ0 : 0 < δ) (hthr : ∀ v, 0 < thr v → δ ≤ thr v)
    (source : Nat) (hs : source < g.n) (hδ : 1 > thr source → δ ≤ 1)
    (hfit : InBounds g alpha thr source) :
    (∀ j, pushWith g alpha thr source (allocdict g.n) (allocdict g.n) (fun _ => 0)
      (⌊1 / (δ * alpha)⌋₊ + 1 + j) = some (run g alpha thr source (⌊1 / (δ * alpha)⌋₊ + 1))) ∧
    (∀ fuel st2, pushWith g alpha thr source (allocdict g.n) (allocdict g.n) (fun _ => 0) fuel
      = some st2 → st2 = run g alpha thr source (⌊1 / (δ * alpha)⌋₊ + 1)) := by
  have hterm := run_terminates g hg alpha thr δ ha0 ha1 hδ0 hthr source hs hδ
  refine ⟨?_, ?_⟩
  · intro j
    exact pushWith_of_nil g alpha thr source _ _ _ _ j hterm
      (run_safe g hg alpha thr δ ha0 ha1 hδ0 hthr source hs hδ _ (hfit _))
  · intro fuel st2 hst2
    obtain ⟨h1, h2, -⟩ := pushWith_eq_some _ _ _ _ _ _ _ _ _ hst2
    rw [h1] at h2 ⊢
    exact pushLoop_unique g alpha thr _ _ _ h2 hterm

/-- Termination within the bound, while the stores stay inside the arrays.  On
a built graph, for `alpha` in (0,1), `eps > 0` and a source below `n`, when the
run of `push` of `push.c` from all-zero dictionaries keeps `r->n` within
`nmax`, the call returns (some bound on the iterations is enough, and every
larger bound gives the same final state), and the number `it` of iterations of
its loop is at most `1/(eps*alpha)`, whatever `n` and `e`. -/
theorem push_terminates_inbounds (n : Nat) (es : List edge)
    (h : ∀ ed ∈ es, ed.s < n ∧ ed.t < n)
    (g : adjlist) (hg : g = mkadjlist (rawgraph n es)) (alpha eps : ℚ) (source : Nat)
    (ha0 : 0 < alpha) (ha1 : alpha < 1) (heps : 0 < eps) (hs : source < n)
    (hfit : InBounds g alpha (flat eps) source) :
    ∃ st : PushState,
      (∃ fuel, ∀ j, push g alpha source eps (allocdict g.n) (allocdict g.n) (fun _ => 0)
        (fuel + j) = some st) ∧
      (∀ fuel st2, push g alpha source eps (allocdict g.n) (allocdict g.n) (fun _ => 0) fuel
        = some st2 → st2 = st) ∧
      (st.it : ℚ) ≤ 1 / (eps * alpha) := by
  have hok : GraphOK g := by
    rw [hg]
    exact graphOK_mkadjlist n es h
  have hs2 : source < g.n := by
    rw [hg]
    exact hs
  have hthr : ∀ v, 0 < flat eps v → eps ≤ flat eps v := fun v _ => le_refl _
  have hδ : 1 > flat eps source → eps ≤ 1 := fun h => le_of_lt h
  obtain ⟨hret, huniq⟩ := pushWith_returns g hok alpha (flat eps) eps ha0 (le_of_lt ha1) heps
    hthr source hs2 hδ hfit
  exact ⟨run g alpha (flat eps) source (⌊1 / (eps * alpha)⌋₊ + 1),
    ⟨⌊1 / (eps * alpha)⌋₊ + 1, hret⟩, huniq,
    run_it_bound g hok alpha (flat eps) eps ha0 (le_of_lt ha1) heps hthr source hs2 hδ _⟩

theorem print_dict_fst (dict : Dict) : (print_dict dict).map Prod.fst = dict.touched := by
  simp [print_dict, Dict.touched]

theorem print_dict_snd (dict : Dict) (rec : Nat × ℚ) (h : rec ∈ print_dict dict) :
    rec.1 ∈ dict.touched ∧ rec.2 = dict.val rec.1 := by
  unfold print_dict at h
  obtain ⟨i, hi, heq⟩ := List.mem_map.mp h
  rw [← heq]
  exact ⟨List.mem_map.mpr ⟨i, hi, rfl⟩, rfl⟩

theorem listed_count (g : adjlist) (dict : Dict) (hl : Listed g dict) :
    dict.n = ((List.range g.n).filter (fun u => dict.val u ≠ 0)).length := by
  have hperm : dict.touched.Perm ((List.range g.n).filter (fun u => dict.val u ≠ 0)) := by
    apply (List.perm_ext_iff_of_nodup hl.nodup ((List.nodup_range g.n).filter _)).mpr
    intro a
    rw [List.mem_filter, List.mem_range]
    constructor
    · intro ha
      exact ⟨hl.lt a ha, by simpa using (hl.iff a).mp ha⟩
    · intro ha
      exact (hl.iff a).mpr (by simpa using ha.2)
  rw [← hperm.length_eq]
  simp [Dict.touched]

/-- The emitted result set, while the stores stay inside the arrays.  On a
built graph, for `alpha` in (0,1), `eps > 0` and a source below `n`, when the
run of `push` of `push.c` from all-zero dictionaries keeps `r->n` within
`nmax`, the call returns one final state, and in it the first `p->n` entries
of `p->list` are pairwise distinct and are exactly the nodes `u` with
`p->val[u] != 0`; so `print_dict` writes one record `(u, p->val[u])` per such
node, each with a nonzero value, and `p->n` is the number of nodes with a
nonzero result. -/
theorem emitted_result_set_inbounds (n : Nat) (es : List edge)
    (h : ∀ ed ∈ es, ed.s < n ∧ ed.t < n)
    (g : adjlist) (hg : g = mkadjlist (rawgraph n es)) (alpha eps : ℚ) (source : Nat)
    (ha0 : 0 < alpha) (ha1 : alpha < 1) (heps : 0 < eps) (hs : source < n)
    (hfit : InBounds g alpha (flat eps) source) :
    ∃ st : PushState,
      (∃ fuel, ∀ j, push g alpha source eps (allocdict g.n) (allocdict g.n) (fun _ => 0)
        (fuel + j) = some st) ∧
      (∀ fuel st2, push g alpha source eps (allocdict g.n) (allocdict g.n) (fun _ => 0) fuel
        = some st2 → st2 = st) ∧
      st.p.touched.Nodup ∧
      (∀ u, u ∈ st.p.touched ↔ st.p.val u ≠ 0) ∧
      (print_dict st.p).map Prod.fst = st.p.touched ∧
      (∀ rec ∈ print_dict st.p, rec.2 = st.p.val rec.1 ∧ rec.2 ≠ 0) ∧
      (print_dict st.p).length = st.p.n ∧
      st.p.n = ((List.range n).filter (fun u => st.p.val u ≠ 0)).length := by
  have hok : GraphOK g := by
    rw [hg]
    exact graphOK_mkadjlist n es h
  have hn : g.n = n := by
    rw [hg]
    rfl
  have hs2 : source < g.n := by
    rw [hn]
    exact hs
  have hthr : ∀ v, 0 < flat eps v → eps ≤ flat eps v := fun v _ => le_refl _
  have hδ : 1 > flat eps source → eps ≤ 1 := fun h => le_of_lt h
  obtain ⟨hret, huniq⟩ := pushWith_returns g hok alpha (flat eps) eps ha0 (le_of_lt ha1) heps
    hthr source hs2 hδ hfit
  obtain ⟨-, hl⟩ := run_listed g hok alpha (flat eps) eps ha0 (le_of_lt ha1) heps hthr
    source hs2 hδ (⌊1 / (eps * alpha)⌋₊ + 1)
  refine ⟨run g alpha (flat eps) source (⌊1 / (eps * alpha)⌋₊ + 1),
    ⟨⌊1 / (eps * alpha)⌋₊ + 1, hret⟩, huniq, hl.nodup, hl.iff, print_dict_fst _, ?_, ?_, ?_⟩
  · intro rec hrec
    obtain ⟨h1, h2⟩ := print_dict_snd _ rec hrec
    refine ⟨h2, ?_⟩
    rw [h2]
    exact (hl.iff _).mp h1
  · simp [print_dict]
  · rw [← hn]
    exact listed_count g _ hl

/-! ## Non-negative values (C9) -/

theorem foldl_relax_nonneg (g : adjlist) (alpha : ℚ) (thr : Nat → ℚ) (u : Nat) (val : ℚ)
    (hsh : 0 ≤ (1 - alpha) * val / ((g.d u : Nat) : ℚ)) (is : List Nat) (st : PushState)
    (hst : (∀ x, 0 ≤ st.r.val x) ∧ (∀ x, 0 ≤ st.p.val x)) :
    (∀ x, 0 ≤ (is.foldl (relax g alpha thr u val) st).r.val x) ∧
    (∀ x, 0 ≤ (is.foldl (relax g alpha thr u val) st).p.val x) := by
  induction is generalizing st with
  | nil => exact hst
  | cons i is ih =>
    rw [List.foldl_cons]
    apply ih
    refine ⟨?_, ?_⟩
    · intro x
      exact le_trans (hst.1 x) (relax_r_mono g alpha thr u val st i hsh x)
    · intro x
      rw [relax_p]
      exact hst.2 x

theorem popnode_nonneg (alpha : ℚ) (ha0 : 0 ≤ alpha) (st : PushState)
    (hst : (∀ x, 0 ≤ st.r.val x) ∧ (∀ x, 0 ≤ st.p.val x)) :
    (∀ x, 0 ≤ (popnode alpha st).r.val x) ∧ (∀ x, 0 ≤ (popnode alpha st).p.val x) := by
  refine ⟨?_, ?_⟩
  · intro x
    rw [popnode_r_val]
    by_cases hx : x = st.list (st.n - 1)
    · rw [hx, Function.update_same]
    · rw [Function.update_noteq hx]
      exact hst.1 x
  · intro x
    rw [popnode_p_val]
    by_cases hx : x = st.list (st.n - 1)
    · rw [hx, Function.update_same]
      have h1 := hst.2 (st.list (st.n - 1))
      have h2 := mul_nonneg ha0 (hst.1 (st.list (st.n - 1)))
      linarith
    · rw [Function.update_noteq hx]
      exact hst.2 x

theorem midstep_nonneg (g : adjlist) (alpha : ℚ) (thr : Nat → ℚ) (ha0 : 0 ≤ alpha)
    (ha1 : alpha ≤ 1) (st : PushState)
    (hst : (∀ x, 0 ≤ st.r.val x) ∧ (∀ x, 0 ≤ st.p.val x)) (j : Nat) :
    (∀ x, 0 ≤ (midstep g alpha thr st j).r.val x) ∧
    (∀ x, 0 ≤ (midstep g alpha thr st j).p.val x) := by
  unfold midstep
  exact foldl_relax_nonneg g alpha thr _ _ (share_nonneg alpha _ _ ha1 (hst.1 _)) _ _
    (popnode_nonneg alpha ha0 st hst)

theorem midstep_full (g : adjlist) (alpha : ℚ) (thr : Nat → ℚ) (st : PushState) :
    midstep g alpha thr st (g.cd (st.list (st.n - 1) + 1) - g.cd (st.list (st.n - 1)))
      = pushStep g alpha thr st := by
  unfold midstep pushStep
  simp only []
  rw [List.take_of_length_le (by simp)]

theorem run_nonneg (g : adjlist) (alpha : ℚ) (thr : Nat → ℚ) (ha0 : 0 ≤ alpha)
    (ha1 : alpha ≤ 1) (source : Nat) (k : Nat) :
    (∀ x, 0 ≤ (run g alpha thr source k).r.val x) ∧
    (∀ x, 0 ≤ (run g alpha thr source k).p.val x) := by
  unfold run
  apply pushLoop_inv g alpha thr (fun st => (∀ x, 0 ≤ st.r.val x) ∧ (∀ x, 0 ≤ st.p.val x))
  · intro st hst _
    rw [← midstep_full]
    exact midstep_nonneg g alpha thr ha0 ha1 st hst _
  · refine ⟨?_, ?_⟩
    · intro x
      rw [pushInit_r_val]
      by_cases hx : x = source
      · rw [hx, Function.update_same]
        norm_num
      · rw [Function.update_noteq hx]
        exact le_refl _
    · intro x
      rw [pushInit_p]
      exact le_refl _

theorem cleandict_fold (list : Nat → Nat) (val : Nat → ℚ) (m : Nat) (x : Nat) :
    (List.range m).foldl (fun val i => Function.update val (list i) 0) val x
      = if x ∈ (List.range m).map list then 0 else val x := by
  induction m with
  | zero => simp
  | succ m ih =>
    simp only [List.range_succ, List.foldl_append, List.map_append, List.mem_append,
      List.foldl_cons, List.foldl_nil, List.map_cons, List.map_nil, List.mem_singleton]
    by_cases hx : x = list m
    · rw [hx, Function.update_same]
      simp
    · rw [Function.update_noteq hx, ih]
      simp [hx]

theorem cleandict_val (dict : Dict) (hc : Covered dict) (x : Nat) :
    (AllPush.cleandict dict).val x = 0 := by
  unfold AllPush.cleandict
  simp only []
  rw [cleandict_fold]
  split_ifs with hx
  · rfl
  · by_contra hne
    exact hx (hc x hne)

theorem cleandict_n (dict : Dict) : (AllPush.cleandict dict).n = 0 := rfl

theorem cleandict_touched (dict : Dict) : (AllPush.cleandict dict).touched = [] := by
  simp [Dict.touched, cleandict_n]

theorem covered_update (val : Nat → ℚ) (touched : List Nat) (v : Nat) (y : ℚ)
    (hc : ∀ x, val x ≠ 0 → x ∈ touched) (x : Nat)
    (hx : Function.update val v y x ≠ 0) :
    x ∈ (if val v = 0 then touched ++ [v] else touched) := by
  by_cases hxv : x = v
  · subst hxv
    split_ifs with h0
    · simp
    · exact hc x h0
  · rw [Function.update_noteq hxv] at hx
    split_ifs
    · exact List.mem_append_left _ (hc x hx)
    · exact hc x hx

theorem relax_covered (g : adjlist) (alpha : ℚ) (thr : Nat → ℚ) (u : Nat) (val : ℚ)
    (st : PushState) (i : Nat) (hst : Covered st.r ∧ Covered st.p) :
    Covered (relax g alpha thr u val st i).r ∧ Covered (relax g alpha thr u val st i).p := by
  refine ⟨?_, ?_⟩
  · intro x hx
    rw [relax_r_val] at hx
    rw [relax_touched]
    exact covered_update _ _ _ _ hst.1 x hx
  · rw [relax_p]
    exact hst.2

theorem popnode_covered (alpha : ℚ) (st : PushState) (hst : Covered st.r ∧ Covered st.p) :
    Covered (popnode alpha st).r ∧ Covered (popnode alpha st).p := by
  refine ⟨?_, ?_⟩
  · intro x hx
    rw [popnode_r_val] at hx
    rw [popnode_r_touched]
    by_cases hxu : x = st.list (st.n - 1)
    · rw [hxu, Function.update_same] at hx
      exact absurd rfl hx
    · rw [Function.update_noteq hxu] at hx
      exact hst.1 x hx
  · intro x hx
    rw [popnode_p_val] at hx
    rw [popnode_p_touched]
    exact covered_update _ _ _ _ hst.2 x hx

theorem pushStep_covered (g : adjlist) (alpha : ℚ) (thr : Nat → ℚ) (st : PushState)
    (hst : Covered st.r ∧ Covered st.p) :
    Covered (pushStep g alpha thr st).r ∧ Covered (pushStep g alpha thr st).p := by
  unfold pushStep
  simp only []
  generalize List.range' _ _ = is
  have := popnode_covered alpha st hst
  generalize popnode alpha st = st1 at this
  induction is generalizing st1 with
  | nil => exact this
  | cons i is ih =>
    rw [List.foldl_cons]
    exact ih _ (relax_covered g alpha thr _ _ st1 i this)

theorem pushInit_covered (thr : Nat → ℚ) (source : Nat) (r p : Dict) (list : Nat → Nat)
    (hr : Covered r) (hp : Covered p) :
    Covered (pushInit thr source r p list).r ∧ Covered (pushInit thr source r p list).p := by
  refine ⟨?_, ?_⟩
  · intro x hx
    rw [pushInit_r_val] at hx
    rw [pushInit_r_touched]
    by_cases hxs : x = source
    · simp [hxs]
    · rw [Function.update_noteq hxs] at hx
      exact List.mem_append_left _ (hr x hx)
  · rw [pushInit_p]
    exact hp

theorem pushWith_covered (g : adjlist) (alpha : ℚ) (thr : Nat → ℚ) (source : Nat) (r p : Dict)
    (list : Nat → Nat) (fuel : Nat) (st : PushState) (hr : Covered r) (hp : Covered p)
    (h : pushWith g alpha thr source r p list fuel = some st) :
    Covered st.r ∧ Covered st.p := by
  rw [(pushWith_eq_some _ _ _ _ _ _ _ _ _ h).1]
  apply pushLoop_inv g alpha thr (fun st => Covered st.r ∧ Covered st.p)
  · intro st2 h2 _
    exact pushStep_covered g alpha thr st2 h2
  · exact pushInit_covered thr source r p list hr hp

theorem covered_of_zero (dict : Dict) (h : ∀ x, dict.val x = 0) : Covered dict :=
  fun x hx => absurd (h x) hx

theorem queries_covered (g : adjlist) (eps : ℚ) (fuel : Nat) (i : Nat) (b : AllPush.Batch)
    (hb : AllPush.queries g eps fuel i = some b) : Covered b.r ∧ Covered b.p := by
  induction i generalizing b with
  | zero =>
    unfold AllPush.queries at hb
    have := Option.some.inj hb
    rw [← this]
    exact ⟨covered_of_zero _ (fun _ => rfl), covered_of_zero _ (fun _ => rfl)⟩
  | succ i ih =>
    unfold AllPush.queries at hb
    cases h1 : AllPush.queries g eps fuel i with
    | none => simp [h1] at hb
    | some b1 =>
      rw [h1] at hb
      simp only [] at hb
      obtain ⟨hr1, hp1⟩ := ih b1 h1
      cases h2 : AllPush.push g ALPHA i eps (AllPush.cleandict b1.r) (AllPush.cleandict b1.p)
          b1.list fuel with
      | none => simp [h2] at hb
      | some st =>
        rw [h2] at hb
        simp only [] at hb
        have := Option.some.inj hb
        rw [← this]
        exact pushWith_covered g ALPHA _ i _ _ _ fuel st
          (covered_of_zero _ (cleandict_val _ hr1)) (covered_of_zero _ (cleandict_val _ hp1)) h2

theorem wl_length (st : PushState) : st.wl.length = st.n := by
  simp [PushState.wl]

theorem sim_n (a b : PushState) (h : Sim a b) : a.n = b.n := by
  rw [← wl_length a, ← wl_length b, h.1]

theorem sim_symm (a b : PushState) (h : Sim a b) : Sim b a :=
  ⟨h.1.symm, h.2.1.symm, h.2.2.1.symm, h.2.2.2.1.symm, h.2.2.2.2.1.symm, h.2.2.2.2.2.symm⟩

theorem sim_top (alpha : ℚ) (a b : PushState) (h : Sim a b) (hn : a.n > 0) :
    (popnode alpha a).wl = (popnode alpha b).wl ∧ a.list (a.n - 1) = b.list (b.n - 1) := by
  have hnb : b.n > 0 := by
    rw [← sim_n a b h]
    exact hn
  have h1 := popnode_wl alpha a hn
  have h2 := popnode_wl alpha b hnb
  rw [h.1, h2] at h1
  obtain ⟨h3, h4⟩ := List.append_inj' h1 rfl
  exact ⟨h3.symm, (List.singleton_inj.mp h4).symm⟩

theorem popnode_sim (alpha : ℚ) (a b : PushState) (h : Sim a b) (hn : a.n > 0) :
    Sim (popnode alpha a) (popnode alpha b) := by
  obtain ⟨hwl, hu⟩ := sim_top alpha a b h hn
  obtain ⟨-, hit, hrv, hrt, hpv, hpt⟩ := h
  refine ⟨hwl, ?_, ?_, ?_, ?_, ?_⟩
  · rw [popnode_it, popnode_it, hit]
  · rw [popnode_r_val, popnode_r_val, hrv, hu]
  · rw [popnode_r_touched, popnode_r_touched, hrt]
  · rw [popnode_p_val, popnode_p_val, hpv, hrv, hu]
  · rw [popnode_p_touched, popnode_p_touched, hpv, hpt, hu]

theorem relax_sim (g : adjlist) (alpha : ℚ) (thr : Nat → ℚ) (u : Nat) (val : ℚ)
    (a b : PushState) (i : Nat) (h : Sim a b) :
    Sim (relax g alpha thr u val a i) (relax g alpha thr u val b i) := by
  obtain ⟨hwl, hit, hrv, hrt, hpv, hpt⟩ := h
  refine ⟨?_, ?_, ?_, ?_, ?_, ?_⟩
  · rw [relax_wl, relax_wl, hwl, hrv]
  · rw [relax_it, relax_it, hit]
  · rw [relax_r_val, relax_r_val, hrv]
  · rw [relax_touched, relax_touched, hrv, hrt]
  · rw [relax_p, relax_p, hpv]
  · rw [relax_p, relax_p, hpt]

theorem foldl_relax_sim (g : adjlist) (alpha : ℚ) (thr : Nat → ℚ) (u : Nat) (val : ℚ)
    (is : List Nat) (a b : PushState) (h : Sim a b) :
    Sim (is.foldl (relax g alpha thr u val) a) (is.foldl (relax g alpha thr u val) b) := by
  induction is generalizing a b with
  | nil => exact h
  | cons i is ih =>
    rw [List.foldl_cons, List.foldl_cons]
    exact ih _ _ (relax_sim g alpha thr u val a b i h)

theorem pushStep_sim (g : adjlist) (alpha : ℚ) (thr : Nat → ℚ) (a b : PushState)
    (h : Sim a b) (hn : a.n > 0) :
    Sim (pushStep g alpha thr a) (pushStep g alpha thr b) := by
  have hu := (sim_top alpha a b h hn).2
  have hpop := popnode_sim alpha a b h hn
  unfold pushStep
  simp only []
  rw [← hu, ← h.2.2.1]
  exact foldl_relax_sim g alpha thr _ _ _ _ _ hpop

theorem pushLoop_sim (g : adjlist) (alpha : ℚ) (thr : Nat → ℚ) (k : Nat) (a b : PushState)
    (h : Sim a b) : Sim (pushLoop g alpha thr k a) (pushLoop g alpha thr k b) := by
  induction k generalizing a b with
  | zero => exact h
  | succ k ih =>
    have hn := sim_n a b h
    unfold pushLoop
    by_cases ha : a.n > 0
    · have hb : b.n > 0 := by
        rw [← hn]
        exact ha
      rw [if_pos ha, if_pos hb]
      exact ih _ _ (pushStep_sim g alpha thr a b h ha)
    · have hb : ¬ b.n > 0 := by
        rw [← hn]
        exact ha
      rw [if_neg ha, if_neg hb]
      exact h

theorem pushInit_sim (thr : Nat → ℚ) (source : Nat) (r p r2 p2 : Dict) (list list2 : Nat → Nat)
    (hrv : r.val = r2.val) (hrt : r.touched = r2.touched) (hpv : p.val = p2.val)
    (hpt : p.touched = p2.touched) :
    Sim (pushInit thr source r p list) (pushInit thr source r2 p2 list2) := by
  refine ⟨?_, ?_, ?_, ?_, ?_, ?_⟩
  · rw [pushInit_wl, pushInit_wl]
  · rw [pushInit_it, pushInit_it]
  · rw [pushInit_r_val, pushInit_r_val, hrv]
  · rw [pushInit_r_touched, pushInit_r_touched, hrt]
  · rw [pushInit_p, pushInit_p, hpv]
  · rw [pushInit_p, pushInit_p, hpt]

theorem pushLoop_tracked (g : adjlist) (alpha : ℚ) (thr : Nat → ℚ) (N k : Nat)
    (st : PushState) (h : Tracked N st) : Tracked N (pushLoop g alpha thr k st) :=
  pushLoop_inv g alpha thr (Tracked N) (fun st2 h2 _ => pushStep_tracked g alpha thr N st2 h2)
    k st h

theorem sim_oob (N : Nat) (a b : PushState) (ha : Tracked N a) (hb : Tracked N b)
    (h : Sim a b) : a.oob = b.oob := by
  have hr : a.r.n = b.r.n := by
    have := congrArg List.length h.2.2.2.1
    simpa [Dict.touched] using this
  have hp : a.p.n = b.p.n := by
    have := congrArg List.length h.2.2.2.2.2
    simpa [Dict.touched] using this
  have h1 := tracked_oob N a ha
  have h2 := tracked_oob N b hb
  rw [hr, hp] at h1
  cases hao : a.oob <;> cases hbo : b.oob
  · rfl
  · have := h2.mpr (h1.mp hao)
    rw [hbo] at this
    exact absurd this (by decide)
  · have := h1.mpr (h2.mp hbo)
    rw [hao] at this
    exact absurd this (by decide)
  · rfl

theorem pushWith_sim (g : adjlist) (alpha : ℚ) (thr : Nat → ℚ) (source : Nat)
    (r p r2 p2 : Dict) (list list2 : Nat → Nat)
    (hrv : r.val = r2.val) (hrt : r.touched = r2.touched) (hpv : p.val = p2.val)
    (hpt : p.touched = p2.touched) (N : Nat)
    (ht : Tracked N (pushInit thr source r p list))
    (ht2 : Tracked N (pushInit thr source r2 p2 list2)) (fuel : Nat) (st : PushState)
    (h : pushWith g alpha thr source r p list fuel = some st) :
    ∃ st2, pushWith g alpha thr source r2 p2 list2 fuel = some st2 ∧ Sim st st2 := by
  obtain ⟨h1, h2, h3⟩ := pushWith_eq_some _ _ _ _ _ _ _ _ _ h
  have hsim := pushLoop_sim g alpha thr fuel _ _
    (pushInit_sim thr source r p r2 p2 list list2 hrv hrt hpv hpt)
  have hoob := sim_oob N _ _ (pushLoop_tracked g alpha thr N fuel _ ht)
    (pushLoop_tracked g alpha thr N fuel _ ht2) hsim
  rw [← h1] at hsim hoob
  refine ⟨pushLoop g alpha thr fuel (pushInit thr source r2 p2 list2), ?_, hsim⟩
  have hn := sim_n _ _ hsim
  rw [h2] at hn
  rw [h3] at hoob
  have hk := pushWith_of_nil g alpha thr source r2 p2 list2 fuel 0 hn.symm hoob.symm
  rw [Nat.add_zero] at hk
  exact hk

theorem fits_cleandict (dict : Dict) (h : dict.oob = false) : Fits (AllPush.cleandict dict) := by
  unfold Fits AllPush.cleandict
  simp [h]

theorem queries_tracked (g : adjlist) (eps : ℚ) (fuel : Nat) (i : Nat) (b : AllPush.Batch)
    (hb : AllPush.queries g eps fuel i = some b) :
    b.r.nmax = g.n ∧ b.p.nmax = g.n ∧ b.r.oob = false ∧ b.p.oob = false := by
  induction i generalizing b with
  | zero =>
    unfold AllPush.queries at hb
    have := Option.some.inj hb
    rw [← this]
    exact ⟨rfl, rfl, rfl, rfl⟩
  | succ i ih =>
    unfold AllPush.queries at hb
    cases h1 : AllPush.queries g eps fuel i with
    | none => simp [h1] at hb
    | some b1 =>
      rw [h1] at hb
      simp only [] at hb
      obtain ⟨hr1, hp1, hro, hpo⟩ := ih b1 h1
      cases h2 : AllPush.push g ALPHA i eps (AllPush.cleandict b1.r) (AllPush.cleandict b1.p)
          b1.list fuel with
      | none => simp [h2] at hb
      | some st =>
        rw [h2] at hb
        simp only [] at hb
        have := Option.some.inj hb
        rw [← this]
        obtain ⟨e1, -, e3⟩ := pushWith_eq_some _ _ _ _ _ _ _ _ _ h2
        have ht : Tracked g.n st := by
          rw [e1]
          exact pushLoop_tracked g ALPHA _ g.n fuel _
            (pushInit_tracked _ i _ _ _ g.n hr1 hp1 (fits_cleandict _ hro)
              (fits_cleandict _ hpo))
        unfold PushState.oob at e3
        rw [Bool.or_eq_false_iff] at e3
        exact ⟨ht.1, ht.2.1, e3.1, e3.2⟩

theorem popfloor_pos (eps : ℚ) : 0 < popfloor eps := by
  unfold popfloor
  split_ifs with h
  · norm_num
  · exact lt_min (by linarith) (by norm_num)

theorem print_dict_eq (dict : Dict) :
    print_dict dict = dict.touched.map (fun u => (u, dict.val u)) := by
  simp [print_dict, Dict.touched, List.map_map, Function.comp_def]

/-- Reuse of the dictionaries, for the queries that the loop reaches.  In the
loop of `main` of `allpush.c`, on a built graph and for every `eps`: whenever
the queries for the sources `0..i-1` have returned, with every store inside
its array, and left the dictionaries `r` and `p` (and the worklist buffer),
`cleandict` leaves every entry of `val` equal to 0 and `n = 0` in both, and
`push(g, ALPHA, i, eps, r, p)` on the cleaned dictionaries returns exactly when
`push` on freshly allocated dictionaries does, with the same values of `p`, the
same touched list of `p` and so the same line written by `print_dict`. -/
theorem batch_reuse_inbounds (n : Nat) (es : List edge) (g : adjlist)
    (hg : g = mkadjlist (rawgraph n es)) (eps : ℚ) (fuel i : Nat) (b : AllPush.Batch)
    (hb : AllPush.queries g eps fuel i = some b) :
    ((∀ x, (AllPush.cleandict b.r).val x = 0) ∧ (AllPush.cleandict b.r).n = 0 ∧
      (∀ x, (AllPush.cleandict b.p).val x = 0) ∧ (AllPush.cleandict b.p).n = 0) ∧
    (∀ fuel2 st, AllPush.push g ALPHA i eps (AllPush.cleandict b.r) (AllPush.cleandict b.p)
        b.list fuel2 = some st →
      ∃ st2, AllPush.push g ALPHA i eps (allocdict g.n) (allocdict g.n) (fun _ => 0) fuel2
          = some st2 ∧
        st.p.val = st2.p.val ∧ st.p.touched = st2.p.touched ∧
        print_dict st.p = print_dict st2.p) ∧
    (∀ fuel2 st2, AllPush.push g ALPHA i eps (allocdict g.n) (allocdict g.n) (fun _ => 0) fuel2
        = some st2 →
      ∃ st, AllPush.push g ALPHA i eps (AllPush.cleandict b.r) (AllPush.cleandict b.p)
          b.list fuel2 = some st ∧
        st.p.val = st2.p.val ∧ st.p.touched = st2.p.touched ∧
        print_dict st.p = print_dict st2.p) := by
  subst hg
  obtain ⟨hcr, hcp⟩ := queries_covered _ eps fuel i b hb
  obtain ⟨hr1, hp1, hro, hpo⟩ := queries_tracked _ eps fuel i b hb
  have hrv : (AllPush.cleandict b.r).val = (allocdict (mkadjlist (rawgraph n es)).n).val :=
    funext (fun x => cleandict_val b.r hcr x)
  have hpv : (AllPush.cleandict b.p).val = (allocdict (mkadjlist (rawgraph n es)).n).val :=
    funext (fun x => cleandict_val b.p hcp x)
  have hrt : (AllPush.cleandict b.r).touched = (allocdict (mkadjlist (rawgraph n es)).n).touched :=
    cleandict_touched b.r
  have hpt : (AllPush.cleandict b.p).touched = (allocdict (mkadjlist (rawgraph n es)).n).touched :=
    cleandict_touched b.p
  have ht1 : Tracked (mkadjlist (rawgraph n es)).n
      (pushInit (scaled (mkadjlist (rawgraph n es)) eps) i (AllPush.cleandict b.r)
        (AllPush.cleandict b.p) b.list) :=
    pushInit_tracked _ i _ _ _ _ hr1 hp1 (fits_cleandict _ hro) (fits_cleandict _ hpo)
  have ht2 : Tracked (mkadjlist (rawgraph n es)).n
      (pushInit (scaled (mkadjlist (rawgraph n es)) eps) i
        (allocdict (mkadjlist (rawgraph n es)).n) (allocdict (mkadjlist (rawgraph n es)).n)
        (fun _ => 0)) :=
    pushInit_tracked _ i _ _ _ _ rfl rfl (fits_allocdict _) (fits_allocdict _)
  refine ⟨⟨cleandict_val b.r hcr, rfl, cleandict_val b.p hcp, rfl⟩, ?_, ?_⟩
  · intro fuel2 st hst
    obtain ⟨st2, hst2, hsim⟩ := pushWith_sim _ ALPHA _ i _ _ _ _ b.list (fun _ => 0)
      hrv hrt hpv hpt _ ht1 ht2 fuel2 st hst
    refine ⟨st2, hst2, hsim.2.2.2.2.1, hsim.2.2.2.2.2, ?_⟩
    rw [print_dict_eq, print_dict_eq, hsim.2.2.2.2.1, hsim.2.2.2.2.2]
  · intro fuel2 st2 hst2
    obtain ⟨st, hst, hsim⟩ := pushWith_sim _ ALPHA _ i _ _ _ _ (fun _ => 0) b.list
      hrv.symm hrt.symm hpv.symm hpt.symm _ ht2 ht1 fuel2 st2 hst2
    refine ⟨st, hst, hsim.2.2.2.2.1.symm, hsim.2.2.2.2.2.symm, ?_⟩
    rw [print_dict_eq, print_dict_eq, hsim.2.2.2.2.1, hsim.2.2.2.2.2]

/-! ## Degree and offset tables (C18) -/

theorem psum_outs_length (n : Nat) (es : List edge) (hs : ∀ ed ∈ es, ed.s < n) :
    psum (fun x => (outs es x).length) n = es.length := by
  have h1 := (flatMap_filter_perm es n).length_eq
  rw [List.length_flatMap] at h1
  have h2 : es.filter (fun ed => decide (ed.s < n)) = es := by
    rw [List.filter_eq_self]
    intro ed hed
    simpa using hs ed hed
  rw [h2] at h1
  rw [← h1]
  unfold psum
  congr 1
  apply List.map_congr_left
  intro x _
  simp [outs]

/-- C18 (degree and offset tables).  For every edge list with all ids below
`n`, after `mkadjlist`: `d[i]` is the number of input edges with source `i` for
every `i < n` (the counts are back in place although `d` served as the scatter
cursor), `cd[0] = 0`, `cd[i+1] = cd[i] + d[i]` for every `i < n`, `cd` is
non-decreasing on `0..n`, and `cd[n] = e`, the number of input edges. -/
theorem degree_offset_tables (n : Nat) (es : List edge) (h : ∀ ed ∈ es, ed.s < n ∧ ed.t < n) :
    (∀ i, i < n → (mkadjlist (rawgraph n es)).d i
        = (es.filter (fun ed => ed.s = i)).length) ∧
    (mkadjlist (rawgraph n es)).cd 0 = 0 ∧
    (∀ i, i < n → (mkadjlist (rawgraph n es)).cd (i + 1)
        = (mkadjlist (rawgraph n es)).cd i + (mkadjlist (rawgraph n es)).d i) ∧
    (∀ i j, i ≤ j → j ≤ n →
      (mkadjlist (rawgraph n es)).cd i ≤ (mkadjlist (rawgraph n es)).cd j) ∧
    (mkadjlist (rawgraph n es)).cd n = (mkadjlist (rawgraph n es)).e ∧
    (mkadjlist (rawgraph n es)).e = es.length := by
  have hs : ∀ ed ∈ es, ed.s < n := fun ed hed => (h ed hed).1
  obtain ⟨-, he, hd, hcd, -⟩ := mkadjlist_spec n es hs
  refine ⟨?_, ?_, ?_, ?_, ?_, he⟩
  · intro i _
    rw [hd i]
    simp [outs]
  · rw [hcd 0 (Nat.zero_le n)]
    simp [psum]
  · intro i hi
    rw [hcd (i + 1) (by omega), hcd i (by omega), hd i, psum_succ]
  · intro i j hij hj
    rw [hcd i (by omega), hcd j hj]
    exact psum_mono _ i j hij
  · rw [hcd n (le_refl n), he]
    exact psum_outs_length n es hs

theorem degree_offset_tables_witness :
    (mkadjlist (rawgraph 2 [⟨0, 1⟩, ⟨0, 1⟩])).cd 2 = (mkadjlist (rawgraph 2 [⟨0, 1⟩, ⟨0, 1⟩])).e :=
  (degree_offset_tables 2 [⟨0, 1⟩, ⟨0, 1⟩] (by decide)).2.2.2.2.1

/-! ## No validation of the parameters (C11) -/

theorem twocycle_facts : twocycle.n = 2 ∧ twocycle.cd 0 = 0 ∧ twocycle.cd 1 = 1 ∧
    twocycle.cd 2 = 2 ∧ twocycle.adj 0 = 1 ∧ twocycle.adj 1 = 0 ∧ twocycle.d 0 = 1 ∧
    twocycle.d 1 = 1 := by
  decide

theorem pushInit_r_n (thr : Nat → ℚ) (source : Nat) (r p : Dict) (list : Nat → Nat) :
    (pushInit thr source r p list).r.n = r.n + 1 := by
  unfold pushInit
  simp only []
  split_ifs <;> rfl

theorem pushInit_n (thr : Nat → ℚ) (source : Nat) (r p : Dict) (list : Nat → Nat) :
    (pushInit thr source r p list).n = if 1 > thr source then 1 else 0 := by
  unfold pushInit
  simp only []
  split_ifs <;> rfl

theorem selfloop_facts : selfloop.n = 1 ∧ selfloop.cd 0 = 0 ∧ selfloop.cd 1 = 1 ∧
    selfloop.adj 0 = 0 ∧ selfloop.d 0 = 1 := by
  decide

theorem selfloop_step (alpha eps : ℚ) (st : PushState) (hn : st.n = 1) (hl : st.list 0 = 0) :
    pushStep selfloop alpha (flat eps) st
      = relax selfloop alpha (flat eps) 0 (st.r.val 0) (popnode alpha st) 0 := by
  obtain ⟨-, h1, h2, -, -⟩ := selfloop_facts
  unfold pushStep
  simp [hn, hl, h1, h2, List.range']

theorem selfloop_first_step (alpha eps : ℚ) (he1 : eps < 1) :
    (run selfloop alpha (flat eps) 0 0).r.n = 1 ∧
    (run selfloop alpha (flat eps) 0 0).r.nmax = 1 ∧
    (run selfloop alpha (flat eps) 0 0).oob = false ∧
    (run selfloop alpha (flat eps) 0 1).r.n = 2 ∧
    (run selfloop alpha (flat eps) 0 1).r.oob = true := by
  obtain ⟨h0, h1, h2, h3, h4⟩ := selfloop_facts
  have hpos : (1 : ℚ) > flat eps 0 := he1
  have hinit : run selfloop alpha (flat eps) 0 0
      = pushInit (flat eps) 0 (allocdict 1) (allocdict 1) (fun _ => 0) := rfl
  have hn : (run selfloop alpha (flat eps) 0 0).n = 1 := by
    rw [hinit, pushInit_n, if_pos hpos]
  have hl : (run selfloop alpha (flat eps) 0 0).list 0 = 0 := by
    rw [hinit]
    unfold pushInit
    simp only []
    rw [if_pos hpos]
    simp
  have hrn : (run selfloop alpha (flat eps) 0 0).r.n = 1 := by
    rw [hinit, pushInit_r_n]
    rfl
  have hrm : (run selfloop alpha (flat eps) 0 0).r.nmax = 1 := by
    have := (run_tracked selfloop alpha (flat eps) 0 0).1
    rw [this, h0]
  have hro : (run selfloop alpha (flat eps) 0 0).oob = false := by
    rw [hinit]
    unfold pushInit PushState.oob
    simp only []
    rw [if_pos hpos]
    simp [allocdict, Dict.add]
  have hstep : run selfloop alpha (flat eps) 0 1
      = relax selfloop alpha (flat eps) 0 ((run selfloop alpha (flat eps) 0 0).r.val 0)
          (popnode alpha (run selfloop alpha (flat eps) 0 0)) 0 := by
    rw [run_succ, if_pos (by rw [hn]; exact Nat.one_pos)]
    exact selfloop_step alpha eps _ hn hl
  have hr0 : (popnode alpha (run selfloop alpha (flat eps) 0 0)).r.val (selfloop.adj 0) = 0 := by
    rw [popnode_r_val, hn, hl, h3, Function.update_same]
  refine ⟨hrn, hrm, hro, ?_, ?_⟩
  · rw [hstep, relax_r_n, if_pos hr0, popnode_r_n, hrn]
  · rw [hstep, relax_r_oob, if_pos hr0, popnode_r_n, popnode_r_nmax, hrn, hrm]
    simp

/-- C12 (scenario A), evaluated on the graph of the file with the single line
`0 0`, source 0, for every `alpha` and every `eps < 1` (all of the scenario):
after the initialisation `r->list` holds node 0 and is full (`r->n = 1 = nmax`).
The first iteration pops node 0 and sets `r[0] = 0`; at the edge `0 -> 0` the
test `r->val[v]==0` then takes node 0 for a new node and stores it in
`r->list[1]`, outside the array of one entry.  So `push` has no defined result
on this input, whatever the bound on its iterations. -/
theorem selfloop_leaves_list (alpha eps : ℚ) (he1 : eps < 1) :
    (run selfloop alpha (flat eps) 0 0).r.n = 1 ∧
    (run selfloop alpha (flat eps) 0 0).r.nmax = 1 ∧
    (run selfloop alpha (flat eps) 0 0).oob = false ∧
    (run selfloop alpha (flat eps) 0 1).r.n = 2 ∧
    (run selfloop alpha (flat eps) 0 1).r.oob = true ∧
    ∀ fuel, push selfloop alpha 0 eps (allocdict 1) (allocdict 1) (fun _ => 0) fuel = none := by
  obtain ⟨h1, h2, h3, h4, h5⟩ := selfloop_first_step alpha eps he1
  refine ⟨h1, h2, h3, h4, h5, ?_⟩
  intro fuel
  have ho : (run selfloop alpha (flat eps) 0 1).oob = true := by
    unfold PushState.oob
    rw [h5]
    rfl
  exact push_none_of_oob selfloop alpha (flat eps) 0 1 ho fuel

theorem selfloop_leaves_list_witness :
    (run selfloop (3 / 20) (flat (1 / 100)) 0 1).r.oob = true ∧
    ∀ fuel, push selfloop (3 / 20) 0 (1 / 100) (allocdict 1) (allocdict 1) (fun _ => 0) fuel
      = none :=
  (selfloop_leaves_list (3 / 20) (1 / 100) (by norm_num)).2.2.2.2

/-! ## The touched list of `r` (C16) -/

theorem twocycle_run_overflow :
    (run twocycle (3 / 20) (flat (4 / 5)) 0 2).n = 0 ∧
    (run twocycle (3 / 20) (flat (4 / 5)) 0 2).r.n = 3 ∧
    (run twocycle (3 / 20) (flat (4 / 5)) 0 2).r.nmax = 2 ∧
    (run twocycle (3 / 20) (flat (4 / 5)) 0 2).r.list 0 = 0 ∧
    (run twocycle (3 / 20) (flat (4 / 5)) 0 2).r.list 1 = 1 ∧
    (run twocycle (3 / 20) (flat (4 / 5)) 0 2).r.list 2 = 0 ∧
    (run twocycle (3 / 20) (flat (4 / 5)) 0 2).r.oob = true := by
  obtain ⟨h0, h1, h2, h3, h4, h5, h6, h7⟩ := twocycle_facts
  refine ⟨?_, ?_, ?_, ?_, ?_, ?_, ?_⟩
  rotate_left 6
  · norm_num [run, pushLoop, pushStep, pushInit, flat, relax_n, relax_list, relax_r_val, relax_r_n,
      relax_r_oob, relax_r_nmax, popnode, allocdict, Dict.add, h0, h1, h2, h3, h4, h5, h6, h7,
      List.range', Function.update_apply]
  · norm_num [run, pushLoop, pushStep, pushInit, flat, relax_n, relax_list, relax_r_val, popnode,
      allocdict, Dict.add, h0, h1, h2, h3, h4, h5, h6, h7, List.range', Function.update_apply]
  · norm_num [run, pushLoop, pushStep, pushInit, flat, relax_n, relax_list, relax_r_val, relax_r_n,
      popnode, allocdict, Dict.add, h0, h1, h2, h3, h4, h5, h6, h7, List.range',
      Function.update_apply]
  · norm_num [run, pushLoop, pushStep, pushInit, flat, relax_n, relax_list, relax_r_val,
      relax_r_nmax, popnode, allocdict, Dict.add, h0, h1, h2, h3, h4, h5, h6, h7, List.range',
      Function.update_apply]
  · norm_num [run, pushLoop, pushStep, pushInit, flat, relax_n, relax_list, relax_r_val, relax_r_n,
      relax_r_list, popnode, allocdict, Dict.add, h0, h1, h2, h3, h4, h5, h6, h7, List.range',
      Function.update_apply]
  · norm_num [run, pushLoop, pushStep, pushInit, flat, relax_n, relax_list, relax_r_val, relax_r_n,
      relax_r_list, popnode, allocdict, Dict.add, h0, h1, h2, h3, h4, h5, h6, h7, List.range',
      Function.update_apply]
  · norm_num [run, pushLoop, pushStep, pushInit, flat, relax_n, relax_list, relax_r_val, relax_r_n,
      relax_r_list, popnode, allocdict, Dict.add, h0, h1, h2, h3, h4, h5, h6, h7, List.range',
      Function.update_apply]

/-- C16 (accounting-set invariant), evaluated on the two-cycle (file lines
`0 1` and `1 0`), source 0, `alpha = 0.15`, `eps = 0.8`: the loop of `push` of
`push.c` ends after two iterations, and then the touched list of `r` is
`0, 1, 0`: node 0 occurs twice and the count `r->n = 3` exceeds the capacity
`r->nmax = 2`.  Node 0 was listed at the initialisation; its residual was set
to 0 when it was popped, so the test `r->val[v]==0` lists it again when node 1
pushes mass back to it.  That third store, `r->list[2] = 0`, is outside the
array of two entries (`oob`), so the call has no defined result. -/
theorem residual_list_overflows :
    (run twocycle (3 / 20) (flat (4 / 5)) 0 2).n = 0 ∧
    (run twocycle (3 / 20) (flat (4 / 5)) 0 2).r.touched = [0, 1, 0] ∧
    ¬ (run twocycle (3 / 20) (flat (4 / 5)) 0 2).r.touched.Nodup ∧
    (run twocycle (3 / 20) (flat (4 / 5)) 0 2).r.n = 3 ∧
    (run twocycle (3 / 20) (flat (4 / 5)) 0 2).r.nmax = 2 ∧
    (run twocycle (3 / 20) (flat (4 / 5)) 0 2).r.oob = true ∧
    (∀ fuel, push twocycle (3 / 20) 0 (4 / 5) (allocdict 2) (allocdict 2) (fun _ => 0) fuel
      = none) := by
  obtain ⟨h1, h2, h3, h4, h5, h6, h7⟩ := twocycle_run_overflow
  have ht : (run twocycle (3 / 20) (flat (4 / 5)) 0 2).r.touched = [0, 1, 0] := by
    unfold Dict.touched
    rw [h2]
    simp [List.range_succ, h4, h5, h6]
  refine ⟨h1, ht, ?_, h2, h3, h7, ?_⟩
  · rw [ht]
    decide
  · intro fuel
    have ho : (run twocycle (3 / 20) (flat (4 / 5)) 0 2).oob = true := by
      unfold PushState.oob
      rw [h7]
      rfl
    exact push_none_of_oob twocycle (3 / 20) (flat (4 / 5)) 0 2 ho fuel

/-! ## The worklist (C17) -/

theorem insum_cons (ed : edge) (es : List edge) (d : Nat → Nat) (p : Nat → ℚ) (x : Nat) :
    insum (ed :: es) d p x
      = (if ed.t = x then p ed.s / ((d ed.s : Nat) : ℚ) else 0) + insum es d p x := by
  unfold insum
  by_cases h : ed.t = x
  · simp [List.filter_cons, h]
  · simp [List.filter_cons, h]

theorem insum_zero (es : List edge) (d : Nat → Nat) (x : Nat) :
    insum es d (fun _ => 0) x = 0 := by
  induction es with
  | nil => simp [insum]
  | cons ed es ih =>
    rw [insum_cons, ih]
    simp

theorem multiplicity_cons (ed : edge) (es : List edge) (u x : Nat) :
    multiplicity (ed :: es) u x
      = (if ed.s = u ∧ ed.t = x then 1 else 0) + multiplicity es u x := by
  unfold multiplicity
  by_cases h : ed.s = u ∧ ed.t = x
  · simp [List.filter_cons, h]
    omega
  · simp only [List.filter_cons, h, decide_False, if_false, Bool.false_eq_true]
    omega

theorem insum_update (es : List edge) (d : Nat → Nat) (p : Nat → ℚ) (u : Nat) (c : ℚ)
    (x : Nat) :
    insum es d (Function.update p u (p u + c)) x
      = insum es d p x + (multiplicity es u x : ℚ) * (c / ((d u : Nat) : ℚ)) := by
  induction es with
  | nil => simp [insum, multiplicity]
  | cons ed es ih =>
    rw [insum_cons, insum_cons, multiplicity_cons, ih]
    by_cases ht : ed.t = x
    · by_cases hs : ed.s = u
      · rw [hs, Function.update_same]
        simp only [ht, if_true, and_self, Nat.cast_add, Nat.cast_one]
        ring
      · rw [Function.update_noteq hs]
        simp only [ht, hs, if_true, false_and, if_false, Nat.cast_add, Nat.cast_zero]
        ring
    · simp only [ht, if_false, and_false, Nat.cast_add, Nat.cast_zero]
      ring

theorem count_outs (es : List edge) (u x : Nat) :
    List.count x (outs es u) = multiplicity es u x := by
  induction es with
  | nil => simp [outs, multiplicity]
  | cons ed es ih =>
    rw [multiplicity_cons, ← ih]
    have hc : outs (ed :: es) u = (if ed.s = u then [ed.t] else []) ++ outs es u := by
      have := outs_append [ed] es u
      rw [outs_single] at this
      exact this
    rw [hc, List.count_append]
    by_cases hs : ed.s = u
    · by_cases ht : ed.t = x
      · simp [hs, ht]
      · simp [hs, ht, List.count_cons]
    · simp [hs]

theorem foldl_relax_r_val (g : adjlist) (alpha : ℚ) (thr : Nat → ℚ) (u : Nat) (val : ℚ)
    (is : List Nat) (st : PushState) (x : Nat) :
    (is.foldl (relax g alpha thr u val) st).r.val x
      = st.r.val x + (List.count x (is.map g.adj) : ℚ)
          * ((1 - alpha) * val / ((g.d u : Nat) : ℚ)) := by
  induction is generalizing st with
  | nil => simp
  | cons i is ih =>
    rw [List.foldl_cons, ih, relax_r_val, List.map_cons, List.count_cons]
    by_cases hx : x = g.adj i
    · subst hx
      rw [Function.update_same]
      simp only [beq_self_eq_true, if_true, Nat.cast_add, Nat.cast_one]
      ring
    · rw [Function.update_noteq hx]
      have hne : ¬ (g.adj i == x) = true := by
        simp only [beq_iff_eq]
        exact fun h => hx h.symm
      simp [hne]

theorem pushStep_r_val (n : Nat) (es : List edge) (h : ∀ ed ∈ es, ed.s < n ∧ ed.t < n)
    (alpha : ℚ) (thr : Nat → ℚ) (st : PushState) (hu : st.list (st.n - 1) < n) (x : Nat) :
    (pushStep (mkadjlist (rawgraph n es)) alpha thr st).r.val x
      = Function.update st.r.val (st.list (st.n - 1)) 0 x
        + (multiplicity es (st.list (st.n - 1)) x : ℚ)
          * ((1 - alpha) * st.r.val (st.list (st.n - 1))
              / (((mkadjlist (rawgraph n es)).d (st.list (st.n - 1)) : Nat) : ℚ)) := by
  have hs : ∀ ed ∈ es, ed.s < n := fun ed hed => (h ed hed).1
  have hnb := (mkadjlist_spec n es hs).2.2.2.2 _ hu
  unfold neighbors at hnb
  unfold pushStep
  simp only []
  rw [foldl_relax_r_val, hnb, count_outs, popnode_r_val]

theorem pushStep_balanced (n : Nat) (es : List edge) (h : ∀ ed ∈ es, ed.s < n ∧ ed.t < n)
    (alpha : ℚ) (thr : Nat → ℚ) (source : Nat) (st : PushState) (hu : st.list (st.n - 1) < n)
    (hst : Balanced es (mkadjlist (rawgraph n es)).d alpha source st) :
    Balanced es (mkadjlist (rawgraph n es)).d alpha source
      (pushStep (mkadjlist (rawgraph n es)) alpha thr st) := by
  intro x
  rw [pushStep_r_val n es h alpha thr st hu x, pushStep_p, popnode_p_val, insum_update]
  have hx := hst x
  by_cases hxu : x = st.list (st.n - 1)
  · subst hxu
    rw [Function.update_same, Function.update_same]
    linear_combination hx
  · rw [Function.update_noteq hxu, Function.update_noteq hxu]
    linear_combination hx

theorem pushInit_balanced (es : List edge) (d : Nat → Nat) (alpha : ℚ) (thr : Nat → ℚ)
    (source : Nat) (r p : Dict) (list : Nat → Nat) (hr : ∀ x, r.val x = 0)
    (hp : ∀ x, p.val x = 0) :
    Balanced es d alpha source (pushInit thr source r p list) := by
  intro x
  have hp0 : p.val = fun _ => 0 := funext hp
  rw [pushInit_r_val, pushInit_p, hp0, insum_zero]
  by_cases hx : x = source
  · rw [hx, Function.update_same]
    simp
  · rw [Function.update_noteq hx, hr x]
    simp [hx]

theorem onestep_fold (d : Nat → Nat) (v1 : Nat → ℚ) (es : List edge) (acc : Nat → ℚ)
    (x : Nat) :
    es.foldl (fun v2 ed => Function.update v2 ed.t (v2 ed.t + v1 ed.s / ((d ed.s : Nat) : ℚ)))
      acc x = acc x + insum es d v1 x := by
  induction es generalizing acc with
  | nil => simp [insum]
  | cons ed es ih =>
    rw [List.foldl_cons, ih, insum_cons]
    by_cases ht : ed.t = x
    · rw [← ht, Function.update_same]
      simp only [if_true]
      ring
    · have hne : x ≠ ed.t := fun hh => ht hh.symm
      rw [Function.update_noteq hne]
      simp only [ht, if_false]
      ring

theorem onestep_eq_insum (n : Nat) (es : List edge) (v1 : Nat → ℚ) (x : Nat) :
    Rooted.onestep (sparseof n es) v1 x = insum es (sparseof n es).dout v1 x := by
  unfold Rooted.onestep
  have h1 : (sparseof n es).el.take (sparseof n es).e = es := by
    simp [sparseof]
  rw [h1, onestep_fold]
  simp

theorem sparseof_dout (n : Nat) (es : List edge) (hs : ∀ ed ∈ es, ed.s < n) :
    (sparseof n es).dout = (mkadjlist (rawgraph n es)).d := by
  funext x
  rw [(mkadjlist_spec n es hs).2.2.1 x]
  simp [sparseof, countdeg_apply]

theorem run_balanced (n : Nat) (es : List edge) (h : ∀ ed ∈ es, ed.s < n ∧ ed.t < n)
    (alpha : ℚ) (thr : Nat → ℚ) (source : Nat) (hs : source < n) (k : Nat) :
    (∀ x ∈ (run (mkadjlist (rawgraph n es)) alpha thr source k).wl, x < n) ∧
    Balanced es (mkadjlist (rawgraph n es)).d alpha source
      (run (mkadjlist (rawgraph n es)) alpha thr source k) := by
  have hok := graphOK_mkadjlist n es h
  unfold run
  apply pushLoop_inv (mkadjlist (rawgraph n es)) alpha thr
    (fun st => (∀ x ∈ st.wl, x < n) ∧ Balanced es (mkadjlist (rawgraph n es)).d alpha source st)
  · intro st ⟨h1, h2⟩ hn
    have hu := h1 _ (top_mem_wl st hn)
    refine ⟨?_, pushStep_balanced n es h alpha thr source st hu h2⟩
    intro x hx
    rcases pushStep_wl_mem _ alpha thr st hn x hx with hh | ⟨i, hi1, hi2, hxi⟩
    · exact h1 x hh
    · rw [hxi]
      exact hok.2 _ hu i hi1 hi2
  · refine ⟨?_, pushInit_balanced es _ alpha thr source _ _ _ (fun _ => rfl) (fun _ => rfl)⟩
    intro x hx
    rw [pushInit_wl] at hx
    split_ifs at hx
    · rw [List.mem_singleton] at hx
      rw [hx]
      exact hs
    · simp at hx

/-- The power-iteration equation up to the residual, while the stores stay
inside the arrays.  On a built graph (sinks allowed), for every `alpha`, every
`eps` and every source below `n`, after the initialisation and after every
iteration of the loop of `push` started from all-zero dictionaries (for the
threshold of `push.c`, of `allpush.c`, or any other) in which no store has left
`r->list` or `p->list`, and in the state that `push` returns, every node `x`
has `p[x] = alpha*([x = source] - r[x]) + (1 - alpha) * (sum over the input
edges (u, x) of p[u]/d[u])`; and that sum is what `onestep` of
`RootedPageRankEPS.c` computes from `p` on the same edge list. -/
theorem push_keeps_equation_inbounds (n : Nat) (es : List edge)
    (h : ∀ ed ∈ es, ed.s < n ∧ ed.t < n)
    (g : adjlist) (hg : g = mkadjlist (rawgraph n es)) (alpha eps : ℚ) (source : Nat)
    (hs : source < n) :
    (∀ (thr : Nat → ℚ) (k : Nat), (run g alpha thr source k).oob = false →
      ∀ x, (run g alpha thr source k).p.val x
        = alpha * ((if x = source then 1 else 0) - (run g alpha thr source k).r.val x)
          + (1 - alpha) * insum es g.d (run g alpha thr source k).p.val x) ∧
    (∀ fuel st, push g alpha source eps (allocdict g.n) (allocdict g.n) (fun _ => 0) fuel
      = some st → ∀ x, st.p.val x
        = alpha * ((if x = source then 1 else 0) - st.r.val x)
          + (1 - alpha) * insum es g.d st.p.val x) ∧
    (∀ (v : Nat → ℚ) (x : Nat), insum es g.d v x = Rooted.onestep (sparseof n es) v x) := by
  subst hg
  have key : ∀ (thr : Nat → ℚ) (k x : Nat),
      (run (mkadjlist (rawgraph n es)) alpha thr source k).p.val x
      = alpha * ((if x = source then 1 else 0)
          - (run (mkadjlist (rawgraph n es)) alpha thr source k).r.val x)
        + (1 - alpha) * insum es (mkadjlist (rawgraph n es)).d
            (run (mkadjlist (rawgraph n es)) alpha thr source k).p.val x := by
    intro thr k x
    have := (run_balanced n es h alpha thr source hs k).2 x
    linear_combination this
  refine ⟨fun thr k _ x => key thr k x, ?_, ?_⟩
  · intro fuel st hst x
    rw [(pushWith_eq_some _ _ _ _ _ _ _ _ _ hst).1]
    exact key (flat eps) fuel x
  · intro v x
    rw [onestep_eq_insum, sparseof_dout n es (fun ed hed => (h ed hed).1)]

/-! ## Scenario B: the two-cycle (C13) -/

theorem twocycle_step (alpha eps : ℚ) (st : PushState) (hn : st.n = 1) (u w : Nat)
    (hu : st.list 0 = u) (huw : (u = 0 ∧ w = 1) ∨ (u = 1 ∧ w = 0)) :
    pushStep twocycle alpha (flat eps) st
      = relax twocycle alpha (flat eps) u (st.r.val u) (popnode alpha st) (twocycle.cd u) ∧
    twocycle.adj (twocycle.cd u) = w := by
  obtain ⟨-, h1, h2, h3, h4, h5, -, -⟩ := twocycle_facts
  rcases huw with ⟨rfl, rfl⟩ | ⟨rfl, rfl⟩
  · refine ⟨?_, ?_⟩
    · unfold pushStep
      simp [hn, hu, h1, h2, List.range']
    · rw [h1, h4]
  · refine ⟨?_, ?_⟩
    · unfold pushStep
      simp [hn, hu, h2, h3, List.range']
    · rw [h2, h5]

theorem twocycle_inv (alpha eps : ℚ) (he0 : 0 < eps) (he1 : eps < 1) (k : Nat) :
    ((run twocycle alpha (flat eps) 0 k).n = 1 ∧
        (run twocycle alpha (flat eps) 0 k).list 0 < 2 ∧
        (run twocycle alpha (flat eps) 0 k).r.val
          (1 - (run twocycle alpha (flat eps) 0 k).list 0) = 0) ∨
    ((run twocycle alpha (flat eps) 0 k).n = 0 ∧
        (run twocycle alpha (flat eps) 0 k).r.val 0 ≤ eps ∧
        (run twocycle alpha (flat eps) 0 k).r.val 1 ≤ eps) := by
  unfold run
  apply pushLoop_inv twocycle alpha (flat eps)
    (fun st => (st.n = 1 ∧ st.list 0 < 2 ∧ st.r.val (1 - st.list 0) = 0) ∨
      (st.n = 0 ∧ st.r.val 0 ≤ eps ∧ st.r.val 1 ≤ eps))
  · intro st hst hn
    rcases hst with ⟨hn1, hl, hr⟩ | ⟨hn0, -, -⟩
    · have hcases : ∃ u w, st.list 0 = u ∧ ((u = 0 ∧ w = 1) ∨ (u = 1 ∧ w = 0)) := by
        have : st.list 0 = 0 ∨ st.list 0 = 1 := by omega
        rcases this with h0 | h1
        · exact ⟨0, 1, h0, Or.inl ⟨rfl, rfl⟩⟩
        · exact ⟨1, 0, h1, Or.inr ⟨rfl, rfl⟩⟩
      obtain ⟨u, w, hu, huw⟩ := hcases
      obtain ⟨hstep, hadj⟩ := twocycle_step alpha eps st hn1 u w hu huw
      have hw1 : 1 - u = w := by
        rcases huw with ⟨rfl, rfl⟩ | ⟨rfl, rfl⟩ <;> rfl
      have hw2 : 1 - w = u := by
        rcases huw with ⟨rfl, rfl⟩ | ⟨rfl, rfl⟩ <;> rfl
      have hne : w ≠ u := by
        rcases huw with ⟨rfl, rfl⟩ | ⟨rfl, rfl⟩ <;> decide
      have hw2lt : w < 2 := by
        rcases huw with ⟨rfl, rfl⟩ | ⟨rfl, rfl⟩ <;> decide
      have htop : st.list (st.n - 1) = u := by
        rw [hn1]
        exact hu
      have hrw : (popnode alpha st).r.val w = 0 := by
        rw [popnode_r_val, htop, Function.update_noteq hne, ← hw1, ← hu]
        exact hr
      have hru : (popnode alpha st).r.val u = 0 := by
        rw [popnode_r_val, htop, Function.update_same]
      have hpn : (popnode alpha st).n = 0 := by
        show st.n - 1 = 0
        omega
      have hn2 : (relax twocycle alpha (flat eps) u (st.r.val u) (popnode alpha st)
            (twocycle.cd u)).n
          = if 0 < eps ∧ eps < (1 - alpha) * st.r.val u / ((twocycle.d u : Nat) : ℚ)
            then 1 else 0 := by
        rw [relax_n, hadj, hrw, hpn]
        simp only [flat, zero_add]
      have hl2 : (relax twocycle alpha (flat eps) u (st.r.val u) (popnode alpha st)
            (twocycle.cd u)).list
          = if 0 < eps ∧ eps < (1 - alpha) * st.r.val u / ((twocycle.d u : Nat) : ℚ)
            then Function.update (popnode alpha st).list 0 w else (popnode alpha st).list := by
        rw [relax_list, hadj, hrw, hpn]
        simp only [flat, zero_add]
      have hr2 : (relax twocycle alpha (flat eps) u (st.r.val u) (popnode alpha st)
            (twocycle.cd u)).r.val
          = Function.update (popnode alpha st).r.val w
              ((1 - alpha) * st.r.val u / ((twocycle.d u : Nat) : ℚ)) := by
        rw [relax_r_val, hadj, hrw]
        simp only [zero_add]
      rw [hstep, hn2, hl2, hr2]
      by_cases hc : 0 < eps ∧ eps < (1 - alpha) * st.r.val u / ((twocycle.d u : Nat) : ℚ)
      · left
        rw [if_pos hc, if_pos hc]
        refine ⟨rfl, ?_, ?_⟩
        · rw [Function.update_same]
          exact hw2lt
        · rw [Function.update_same, hw2, Function.update_noteq hne.symm]
          exact hru
      · right
        rw [if_neg hc]
        have hle : (1 - alpha) * st.r.val u / ((twocycle.d u : Nat) : ℚ) ≤ eps := by
          by_contra hlt
          exact hc ⟨he0, lt_of_not_ge hlt⟩
        have hvals : Function.update (popnode alpha st).r.val w
              ((1 - alpha) * st.r.val u / ((twocycle.d u : Nat) : ℚ)) w ≤ eps ∧
            Function.update (popnode alpha st).r.val w
              ((1 - alpha) * st.r.val u / ((twocycle.d u : Nat) : ℚ)) u ≤ eps := by
          rw [Function.update_same, Function.update_noteq hne.symm, hru]
          exact ⟨hle, le_of_lt he0⟩
        refine ⟨rfl, ?_, ?_⟩
        · rcases huw with ⟨rfl, rfl⟩ | ⟨rfl, rfl⟩
          · exact hvals.2
          · exact hvals.1
        · rcases huw with ⟨rfl, rfl⟩ | ⟨rfl, rfl⟩
          · exact hvals.1
          · exact hvals.2
    · omega
  · left
    have hpos : (1 : ℚ) > flat eps 0 := he1
    refine ⟨?_, ?_, ?_⟩
    · rw [pushInit_n, if_pos hpos]
    · unfold pushInit
      simp only []
      rw [if_pos hpos]
      simp
    · have hl : (pushInit (flat eps) 0 (allocdict twocycle.n) (allocdict twocycle.n)
          (fun _ => 0)).list 0 = 0 := by
        unfold pushInit
        simp only []
        rw [if_pos hpos]
        simp
      rw [hl, pushInit_r_val]
      simp [allocdict]

theorem twocycle_closed_form (alpha eps p0 p1 r0 r1 : ℚ) (ha0 : 0 < alpha) (ha1 : alpha < 1)
    (h0 : p0 + alpha * r0 = alpha + (1 - alpha) * p1)
    (h1 : p1 + alpha * r1 = (1 - alpha) * p0)
    (hr0 : 0 ≤ r0) (hr1 : 0 ≤ r1) (hr0e : r0 ≤ eps) (hr1e : r1 ≤ eps) :
    |p0 - 1 / (2 - alpha)| ≤ eps ∧ |p1 - (1 - alpha) / (2 - alpha)| ≤ eps := by
  have hD : 0 < 2 - alpha := by linarith
  have hDne : 2 - alpha ≠ 0 := ne_of_gt hD
  have hane : alpha ≠ 0 := ne_of_gt ha0
  have hkey : (2 - alpha) * p0 = 1 - r0 - (1 - alpha) * r1 := by
    have : alpha * ((2 - alpha) * p0 - (1 - r0 - (1 - alpha) * r1)) = 0 := by
      linear_combination h0 + (1 - alpha) * h1
    rcases mul_eq_zero.mp this with h | h
    · exact absurd h hane
    · linarith
  have he0 : 1 / (2 - alpha) - p0 = (r0 + (1 - alpha) * r1) / (2 - alpha) := by
    field_simp
    linear_combination -hkey
  have hnum0 : 0 ≤ r0 + (1 - alpha) * r1 := by
    have := mul_nonneg (show (0 : ℚ) ≤ 1 - alpha by linarith) hr1
    linarith
  have hnum1 : r0 + (1 - alpha) * r1 ≤ eps * (2 - alpha) := by
    have := mul_le_mul_of_nonneg_left hr1e (show (0 : ℚ) ≤ 1 - alpha by linarith)
    nlinarith
  have hlo : 0 ≤ 1 / (2 - alpha) - p0 := by
    rw [he0]
    exact div_nonneg hnum0 (le_of_lt hD)
  have hhi : 1 / (2 - alpha) - p0 ≤ eps := by
    rw [he0, div_le_iff₀ hD]
    exact hnum1
  have he1 : (1 - alpha) / (2 - alpha) - p1
      = alpha * r1 + (1 - alpha) * (1 / (2 - alpha) - p0) := by
    have hsplit : (1 - alpha) / (2 - alpha) = (1 - alpha) * (1 / (2 - alpha)) := by ring
    rw [hsplit]
    linear_combination -h1
  have hlo1 : 0 ≤ (1 - alpha) / (2 - alpha) - p1 := by
    rw [he1]
    have h2 := mul_nonneg (le_of_lt ha0) hr1
    have h3 := mul_nonneg (show (0 : ℚ) ≤ 1 - alpha by linarith) hlo
    linarith
  have hhi1 : (1 - alpha) / (2 - alpha) - p1 ≤ eps := by
    rw [he1]
    have h2 := mul_le_mul_of_nonneg_left hr1e (le_of_lt ha0)
    have h3 := mul_le_mul_of_nonneg_left hhi (show (0 : ℚ) ≤ 1 - alpha by linarith)
    linarith
  refine ⟨?_, ?_⟩
  · rw [abs_le]
    constructor <;> linarith
  · rw [abs_le]
    constructor <;> linarith

/-- The two-cycle, while the stores stay inside the arrays.  On the two-cycle
`0 -> 1 -> 0`, for every `alpha` in (0,1) and every `eps` in (0,1) for which
the run of `push` of `push.c` from source 0 on all-zero dictionaries keeps
`r->n` within `nmax`, the call returns one final state, and in it `p[0]` is
within `eps` of `1/(2-alpha)` and `p[1]` within `eps` of
`(1-alpha)/(2-alpha)`.  These two numbers are the rooted PageRank of the
two-cycle: they solve `x0 = alpha + (1-alpha)*x1`, `x1 = (1-alpha)*x0`.  For
`alpha = 0.15` they are `20/37` and `17/37`. -/
theorem scenario_twocycle_inbounds (alpha eps : ℚ) (ha0 : 0 < alpha) (ha1 : alpha < 1)
    (he0 : 0 < eps) (he1 : eps < 1) (hfit : InBounds twocycle alpha (flat eps) 0) :
    (∃ st : PushState,
      (∃ fuel, ∀ j, push twocycle alpha 0 eps (allocdict 2) (allocdict 2) (fun _ => 0)
        (fuel + j) = some st) ∧
      (∀ fuel st2, push twocycle alpha 0 eps (allocdict 2) (allocdict 2) (fun _ => 0) fuel
        = some st2 → st2 = st) ∧
      |st.p.val 0 - 1 / (2 - alpha)| ≤ eps ∧
      |st.p.val 1 - (1 - alpha) / (2 - alpha)| ≤ eps) ∧
    1 / (2 - alpha) = alpha + (1 - alpha) * ((1 - alpha) / (2 - alpha)) ∧
    (1 - alpha) / (2 - alpha) = (1 - alpha) * (1 / (2 - alpha)) ∧
    (1 : ℚ) / (2 - 3 / 20) = 20 / 37 ∧ ((1 : ℚ) - 3 / 20) / (2 - 3 / 20) = 17 / 37 := by
  have hok : GraphOK twocycle := graphOK_mkadjlist 2 [⟨0, 1⟩, ⟨1, 0⟩] (by decide)
  have hs : (0 : Nat) < twocycle.n := by decide
  have hthr : ∀ v, 0 < flat eps v → eps ≤ flat eps v := fun v _ => le_refl _
  have hδ : 1 > flat eps 0 → eps ≤ 1 := fun h => le_of_lt h
  obtain ⟨hret, huniq⟩ := pushWith_returns twocycle hok alpha (flat eps) eps ha0 (le_of_lt ha1)
    he0 hthr 0 hs hδ hfit
  have hterm := run_terminates twocycle hok alpha (flat eps) eps ha0 (le_of_lt ha1) he0 hthr
    0 hs hδ
  have hnn := run_nonneg twocycle alpha (flat eps) (le_of_lt ha0) (le_of_lt ha1) 0
    (⌊1 / (eps * alpha)⌋₊ + 1)
  have hb : Balanced [⟨0, 1⟩, ⟨1, 0⟩] twocycle.d alpha 0
      (run twocycle alpha (flat eps) 0 (⌊1 / (eps * alpha)⌋₊ + 1)) :=
    (run_balanced 2 [⟨0, 1⟩, ⟨1, 0⟩] (by decide) alpha (flat eps) 0 (by decide)
      (⌊1 / (eps * alpha)⌋₊ + 1)).2
  have hle : (run twocycle alpha (flat eps) 0 (⌊1 / (eps * alpha)⌋₊ + 1)).r.val 0 ≤ eps ∧
      (run twocycle alpha (flat eps) 0 (⌊1 / (eps * alpha)⌋₊ + 1)).r.val 1 ≤ eps := by
    rcases twocycle_inv alpha eps he0 he1 (⌊1 / (eps * alpha)⌋₊ + 1) with ⟨h1, -, -⟩ | ⟨-, h2, h3⟩
    · omega
    · exact ⟨h2, h3⟩
  have hd0 : twocycle.d 0 = 1 := by decide
  have hd1 : twocycle.d 1 = 1 := by decide
  have hins0 : ∀ v : Nat → ℚ, insum [⟨0, 1⟩, ⟨1, 0⟩] twocycle.d v 0 = v 1 := by
    intro v
    simp [insum, hd1]
  have hins1 : ∀ v : Nat → ℚ, insum [⟨0, 1⟩, ⟨1, 0⟩] twocycle.d v 1 = v 0 := by
    intro v
    simp [insum, hd0]
  have hb0 := hb 0
  have hb1 := hb 1
  rw [hins0, if_pos rfl, mul_one] at hb0
  rw [hins1, if_neg (by decide), mul_zero, zero_add] at hb1
  have hhalf : 0 < 2 - alpha := by linarith
  refine ⟨⟨run twocycle alpha (flat eps) 0 (⌊1 / (eps * alpha)⌋₊ + 1),
    ⟨⌊1 / (eps * alpha)⌋₊ + 1, hret⟩, huniq, ?_⟩, ?_, ?_, by norm_num, by norm_num⟩
  · exact twocycle_closed_form alpha eps _ _ _ _ ha0 ha1 hb0 hb1 (hnn.1 0) (hnn.1 1) hle.1 hle.2
  · field_simp
    ring
  · field_simp

theorem twocycle_coarse_run :
    (run twocycle (3 / 20) (flat (9 / 10)) 0 1).n = 0 ∧
    (run twocycle (3 / 20) (flat (9 / 10)) 0 1).oob = false := by
  obtain ⟨h0, h1, h2, h3, h4, h5, h6, h7⟩ := twocycle_facts
  refine ⟨?_, ?_⟩
  · norm_num [run, pushLoop, pushStep, pushInit, flat, relax_n, relax_r_val, popnode, allocdict,
      Dict.add, h0, h1, h2, h3, h4, h5, h6, h7, List.range', Function.update_apply]
  · norm_num [PushState.oob, run, pushLoop, pushStep, pushInit, flat, relax_n, relax_r_val,
      relax_r_oob, relax_r_n, relax_r_nmax, relax_p, popnode, allocdict, Dict.add, h0, h1, h2,
      h3, h4, h5, h6, h7, List.range', Function.update_apply]

theorem twocycle_coarse_inbounds : InBounds twocycle (3 / 20) (flat (9 / 10)) 0 := fun k =>
  run_r_le twocycle (3 / 20) (flat (9 / 10)) 0 k
    (run_inbounds_of_final twocycle (3 / 20) (flat (9 / 10)) 0 1 twocycle_coarse_run.1
      twocycle_coarse_run.2 k)

theorem scenario_twocycle_coarse :
    ∃ st : PushState,
      (∃ fuel, ∀ j, push twocycle (3 / 20) 0 (9 / 10) (allocdict 2) (allocdict 2) (fun _ => 0)
        (fuel + j) = some st) ∧
      (∀ fuel st2, push twocycle (3 / 20) 0 (9 / 10) (allocdict 2) (allocdict 2) (fun _ => 0)
        fuel = some st2 → st2 = st) ∧
      |st.p.val 0 - 1 / (2 - 3 / 20)| ≤ 9 / 10 ∧
      |st.p.val 1 - (1 - 3 / 20) / (2 - 3 / 20)| ≤ 9 / 10 :=
  (scenario_twocycle_inbounds (3 / 20) (9 / 10) (by norm_num) (by norm_num) (by norm_num)
    (by norm_num) twocycle_coarse_inbounds).1

/-! ## Pop orders (C19) -/

theorem swapTop_top (st : PushState) (j : Nat) :
    (swapTop st j).list ((swapTop st j).n - 1) = st.list j := by
  show Function.update (Function.update st.list j (st.list (st.n - 1))) (st.n - 1)
    (st.list j) (st.n - 1) = st.list j
  rw [Function.update_same]

theorem loopy_facts : loopy.n = 7 ∧ loopy.cd 0 = 0 ∧ loopy.cd 1 = 3 ∧ loopy.cd 2 = 4 ∧
    loopy.cd 3 = 4 ∧ loopy.adj 0 = 0 ∧ loopy.adj 1 = 0 ∧ loopy.adj 2 = 1 ∧ loopy.adj 3 = 2 ∧
    loopy.d 0 = 3 ∧ loopy.d 1 = 1 ∧ loopy.d 2 = 0 := by
  decide

theorem loopy_small_0 :
    (run loopy (3 / 20) (flat (7 / 25)) 0 0).n = 1 ∧
    (run loopy (3 / 20) (flat (7 / 25)) 0 0).it = 0 ∧
    (run loopy (3 / 20) (flat (7 / 25)) 0 0).r.n = 1 ∧
    (run loopy (3 / 20) (flat (7 / 25)) 0 0).list 0 = 0 ∧
    (run loopy (3 / 20) (flat (7 / 25)) 0 0).r.val 0 = 1 ∧
    (run loopy (3 / 20) (flat (7 / 25)) 0 0).r.val 1 = 0 ∧
    (run loopy (3 / 20) (flat (7 / 25)) 0 0).r.val 2 = 0 := by
  obtain ⟨h0, h1, h2, h3, h4, h5, h6, h7, h8, h9, h10, h11⟩ := loopy_facts
  refine ⟨?_, ?_, ?_, ?_, ?_, ?_, ?_⟩ <;>
    norm_num [run, pushLoop, pushInit, flat, allocdict, Dict.add, Function.update_apply]

theorem loopy_small_1 :
    (run loopy (3 / 20) (flat (7 / 25)) 0 1).n = 2 ∧
    (run loopy (3 / 20) (flat (7 / 25)) 0 1).it = 1 ∧
    (run loopy (3 / 20) (flat (7 / 25)) 0 1).r.n = 3 ∧
    (run loopy (3 / 20) (flat (7 / 25)) 0 1).list 0 = 0 ∧
    (run loopy (3 / 20) (flat (7 / 25)) 0 1).list 1 = 1 ∧
    (run loopy (3 / 20) (flat (7 / 25)) 0 1).r.val 0 = 17 / 30 ∧
    (run loopy (3 / 20) (flat (7 / 25)) 0 1).r.val 1 = 17 / 60 ∧
    (run loopy (3 / 20) (flat (7 / 25)) 0 1).r.val 2 = 0 := by
  obtain ⟨h0, h1, h2, h3, h4, h5, h6, h7, h8, h9, h10, h11⟩ := loopy_facts
  obtain ⟨b0, b1, b2, b3, b4, b5, b6⟩ := loopy_small_0
  have hstep : (run loopy (3 / 20) (flat (7 / 25)) 0 1) = pushStep loopy (3 / 20) (flat (7 / 25)) (run loopy (3 / 20) (flat (7 / 25)) 0 0) := by
    rw [run_succ]
    exact if_pos (by rw [show _ = 1 from b0]; decide)
  rw [hstep]
  refine ⟨?_, ?_, ?_, ?_, ?_, ?_, ?_, ?_⟩ <;>
    norm_num [pushStep, popnode, relax_n, relax_list, relax_r_val, relax_r_n, relax_it, flat,
      h0, h1, h2, h3, h4, h5, h6, h7, h8, h9, h10, h11, b0, b1, b2, b3, b4, b5, b6, List.range', Function.update_apply]

theorem loopy_small_2 :
    (run loopy (3 / 20) (flat (7 / 25)) 0 2).n = 1 ∧
    (run loopy (3 / 20) (flat (7 / 25)) 0 2).it = 2 ∧
    (run loopy (3 / 20) (flat (7 / 25)) 0 2).r.n = 4 ∧
    (run loopy (3 / 20) (flat (7 / 25)) 0 2).list 0 = 0 ∧
    (run loopy (3 / 20) (flat (7 / 25)) 0 2).r.val 0 = 17 / 30 ∧
    (run loopy (3 / 20) (flat (7 / 25)) 0 2).r.val 1 = 0 ∧
    (run loopy (3 / 20) (flat (7 / 25)) 0 2).r.val 2 = 289 / 1200 := by
  obtain ⟨h0, h1, h2, h3, h4, h5, h6, h7, h8, h9, h10, h11⟩ := loopy_facts
  obtain ⟨b0, b1, b2, b3, b4, b5, b6, b7⟩ := loopy_small_1
  have hstep : (run loopy (3 / 20) (flat (7 / 25)) 0 2) = pushStep loopy (3 / 20) (flat (7 / 25)) (run loopy (3 / 20) (flat (7 / 25)) 0 1) := by
    rw [run_succ]
    exact if_pos (by rw [show _ = 2 from b0]; decide)
  rw [hstep]
  refine ⟨?_, ?_, ?_, ?_, ?_, ?_, ?_⟩ <;>
    norm_num [pushStep, popnode, relax_n, relax_list, relax_r_val, relax_r_n, relax_it, flat,
      h0, h1, h2, h3, h4, h5, h6, h7, h8, h9, h10, h11, b0, b1, b2, b3, b4, b5, b6, b7, List.range', Function.update_apply]

theorem loopy_small_3 :
    (run loopy (3 / 20) (flat (7 / 25)) 0 3).n = 1 ∧
    (run loopy (3 / 20) (flat (7 / 25)) 0 3).it = 3 ∧
    (run loopy (3 / 20) (flat (7 / 25)) 0 3).r.n = 6 ∧
    (run loopy (3 / 20) (flat (7 / 25)) 0 3).list 0 = 0 ∧
    (run loopy (3 / 20) (flat (7 / 25)) 0 3).r.val 0 = 289 / 900 ∧
    (run loopy (3 / 20) (flat (7 / 25)) 0 3).r.val 1 = 289 / 1800 ∧
    (run loopy (3 / 20) (flat (7 / 25)) 0 3).r.val 2 = 289 / 1200 := by
  obtain ⟨h0, h1, h2, h3, h4, h5, h6, h7, h8, h9, h10, h11⟩ := loopy_facts
  obtain ⟨b0, b1, b2, b3, b4, b5, b6⟩ := loopy_small_2
  have hstep : (run loopy (3 / 20) (flat (7 / 25)) 0 3) = pushStep loopy (3 / 20) (flat (7 / 25)) (run loopy (3 / 20) (flat (7 / 25)) 0 2) := by
    rw [run_succ]
    exact if_pos (by rw [show _ = 1 from b0]; decide)
  rw [hstep]
  refine ⟨?_, ?_, ?_, ?_, ?_, ?_, ?_⟩ <;>
    norm_num [pushStep, popnode, relax_n, relax_list, relax_r_val, relax_r_n, relax_it, flat,
      h0, h1, h2, h3, h4, h5, h6, h7, h8, h9, h10, h11, b0, b1, b2, b3, b4, b5, b6, List.range', Function.update_apply]

theorem loopy_small_4 :
    (run loopy (3 / 20) (flat (7 / 25)) 0 4).n = 0 ∧
    (run loopy (3 / 20) (flat (7 / 25)) 0 4).it = 4 ∧
    (run loopy (3 / 20) (flat (7 / 25)) 0 4).r.n = 7 ∧
    (run loopy (3 / 20) (flat (7 / 25)) 0 4).r.val 0 = 4913 / 27000 ∧
    (run loopy (3 / 20) (flat (7 / 25)) 0 4).r.val 1 = 13583 / 54000 ∧
    (run loopy (3 / 20) (flat (7 / 25)) 0 4).r.val 2 = 289 / 1200 := by
  obtain ⟨h0, h1, h2, h3, h4, h5, h6, h7, h8, h9, h10, h11⟩ := loopy_facts
  obtain ⟨b0, b1, b2, b3, b4, b5, b6⟩ := loopy_small_3
  have hstep : (run loopy (3 / 20) (flat (7 / 25)) 0 4) = pushStep loopy (3 / 20) (flat (7 / 25)) (run loopy (3 / 20) (flat (7 / 25)) 0 3) := by
    rw [run_succ]
    exact if_pos (by rw [show _ = 1 from b0]; decide)
  rw [hstep]
  refine ⟨?_, ?_, ?_, ?_, ?_, ?_⟩ <;>
    norm_num [pushStep, popnode, relax_n, relax_list, relax_r_val, relax_r_n, relax_it, flat,
      h0, h1, h2, h3, h4, h5, h6, h7, h8, h9, h10, h11, b0, b1, b2, b3, b4, b5, b6, List.range', Function.update_apply]

theorem loopy_large_0 :
    (run loopy (3 / 20) (flat (3 / 10)) 0 0).n = 1 ∧
    (run loopy (3 / 20) (flat (3 / 10)) 0 0).it = 0 ∧
    (run loopy (3 / 20) (flat (3 / 10)) 0 0).r.n = 1 ∧
    (run loopy (3 / 20) (flat (3 / 10)) 0 0).list 0 = 0 ∧
    (run loopy (3 / 20) (flat (3 / 10)) 0 0).r.val 0 = 1 ∧
    (run loopy (3 / 20) (flat (3 / 10)) 0 0).r.val 1 = 0 ∧
    (run loopy (3 / 20) (flat (3 / 10)) 0 0).r.val 2 = 0 := by
  obtain ⟨h0, h1, h2, h3, h4, h5, h6, h7, h8, h9, h10, h11⟩ := loopy_facts
  refine ⟨?_, ?_, ?_, ?_, ?_, ?_, ?_⟩ <;>
    norm_num [run, pushLoop, pushInit, flat, allocdict, Dict.add, Function.update_apply]

theorem loopy_large_1 :
    (run loopy (3 / 20) (flat (3 / 10)) 0 1).n = 1 ∧
    (run loopy (3 / 20) (flat (3 / 10)) 0 1).it = 1 ∧
    (run loopy (3 / 20) (flat (3 / 10)) 0 1).r.n = 3 ∧
    (run loopy (3 / 20) (flat (3 / 10)) 0 1).list 0 = 0 ∧
    (run loopy (3 / 20) (flat (3 / 10)) 0 1).r.val 0 = 17 / 30 ∧
    (run loopy (3 / 20) (flat (3 / 10)) 0 1).r.val 1 = 17 / 60 ∧
    (run loopy (3 / 20) (flat (3 / 10)) 0 1).r.val 2 = 0 := by
  obtain ⟨h0, h1, h2, h3, h4, h5, h6, h7, h8, h9, h10, h11⟩ := loopy_facts
  obtain ⟨b0, b1, b2, b3, b4, b5, b6⟩ := loopy_large_0
  have hstep : (run loopy (3 / 20) (flat (3 / 10)) 0 1) = pushStep loopy (3 / 20) (flat (3 / 10)) (run loopy (3 / 20) (flat (3 / 10)) 0 0) := by
    rw [run_succ]
    exact if_pos (by rw [show _ = 1 from b0]; decide)
  rw [hstep]
  refine ⟨?_, ?_, ?_, ?_, ?_, ?_, ?_⟩ <;>
    norm_num [pushStep, popnode, relax_n, relax_list, relax_r_val, relax_r_n, relax_it, flat,
      h0, h1, h2, h3, h4, h5, h6, h7, h8, h9, h10, h11, b0, b1, b2, b3, b4, b5, b6, List.range', Function.update_apply]

theorem loopy_large_2 :
    (run loopy (3 / 20) (flat (3 / 10)) 0 2).n = 2 ∧
    (run loopy (3 / 20) (flat (3 / 10)) 0 2).it = 2 ∧
    (run loopy (3 / 20) (flat (3 / 10)) 0 2).r.n = 4 ∧
    (run loopy (3 / 20) (flat (3 / 10)) 0 2).list 0 = 0 ∧
    (run loopy (3 / 20) (flat (3 / 10)) 0 2).list 1 = 1 ∧
    (run loopy (3 / 20) (flat (3 / 10)) 0 2).r.val 0 = 289 / 900 ∧
    (run loopy (3 / 20) (flat (3 / 10)) 0 2).r.val 1 = 799 / 1800 ∧
    (run loopy (3 / 20) (flat (3 / 10)) 0 2).r.val 2 = 0 := by
  obtain ⟨h0, h1, h2, h3, h4, h5, h6, h7, h8, h9, h10, h11⟩ := loopy_facts
  obtain ⟨b0, b1, b2, b3, b4, b5, b6⟩ := loopy_large_1
  have hstep : (run loopy (3 / 20) (flat (3 / 10)) 0 2) = pushStep loopy (3 / 20) (flat (3 / 10)) (run loopy (3 / 20) (flat (3 / 10)) 0 1) := by
    rw [run_succ]
    exact if_pos (by rw [show _ = 1 from b0]; decide)
  rw [hstep]
  refine ⟨?_, ?_, ?_, ?_, ?_, ?_, ?_, ?_⟩ <;>
    norm_num [pushStep, popnode, relax_n, relax_list, relax_r_val, relax_r_n, relax_it, flat,
      h0, h1, h2, h3, h4, h5, h6, h7, h8, h9, h10, h11, b0, b1, b2, b3, b4, b5, b6, List.range', Function.update_apply]

theorem loopy_large_3 :
    (run loopy (3 / 20) (flat (3 / 10)) 0 3).n = 2 ∧
    (run loopy (3 / 20) (flat (3 / 10)) 0 3).it = 3 ∧
    (run loopy (3 / 20) (flat (3 / 10)) 0 3).r.n = 5 ∧
    (run loopy (3 / 20) (flat (3 / 10)) 0 3).list 0 = 0 ∧
    (run loopy (3 / 20) (flat (3 / 10)) 0 3).list 1 = 2 ∧
    (run loopy (3 / 20) (flat (3 / 10)) 0 3).r.val 0 = 289 / 900 ∧
    (run loopy (3 / 20) (flat (3 / 10)) 0 3).r.val 1 = 0 ∧
    (run loopy (3 / 20) (flat (3 / 10)) 0 3).r.val 2 = 13583 / 36000 := by
  obtain ⟨h0, h1, h2, h3, h4, h5, h6, h7, h8, h9, h10, h11⟩ := loopy_facts
  obtain ⟨b0, b1, b2, b3, b4, b5, b6, b7⟩ := loopy_large_2
  have hstep : (run loopy (3 / 20) (flat (3 / 10)) 0 3) = pushStep loopy (3 / 20) (flat (3 / 10)) (run loopy (3 / 20) (flat (3 / 10)) 0 2) := by
    rw [run_succ]
    exact if_pos (by rw [show _ = 2 from b0]; decide)
  rw [hstep]
  refine ⟨?_, ?_, ?_, ?_, ?_, ?_, ?_, ?_⟩ <;>
    norm_num [pushStep, popnode, relax_n, relax_list, relax_r_val, relax_r_n, relax_it, flat,
      h0, h1, h2, h3, h4, h5, h6, h7, h8, h9, h10, h11, b0, b1, b2, b3, b4, b5, b6, b7, List.range', Function.update_apply]

theorem loopy_large_4 :
    (run loopy (3 / 20) (flat (3 / 10)) 0 4).n = 1 ∧
    (run loopy (3 / 20) (flat (3 / 10)) 0 4).it = 4 ∧
    (run loopy (3 / 20) (flat (3 / 10)) 0 4).r.n = 5 ∧
    (run loopy (3 / 20) (flat (3 / 10)) 0 4).list 0 = 0 ∧
    (run loopy (3 / 20) (flat (3 / 10)) 0 4).r.val 0 = 289 / 900 ∧
    (run loopy (3 / 20) (flat (3 / 10)) 0 4).r.val 1 = 0 ∧
    (run loopy (3 / 20) (flat (3 / 10)) 0 4).r.val 2 = 0 := by
  obtain ⟨h0, h1, h2, h3, h4, h5, h6, h7, h8, h9, h10, h11⟩ := loopy_facts
  obtain ⟨b0, b1, b2, b3, b4, b5, b6, b7⟩ := loopy_large_3
  have hstep : (run loopy (3 / 20) (flat (3 / 10)) 0 4) = pushStep loopy (3 / 20) (flat (3 / 10)) (run loopy (3 / 20) (flat (3 / 10)) 0 3) := by
    rw [run_succ]
    exact if_pos (by rw [show _ = 2 from b0]; decide)
  rw [hstep]
  refine ⟨?_, ?_, ?_, ?_, ?_, ?_, ?_⟩ <;>
    norm_num [pushStep, popnode, relax_n, relax_list, relax_r_val, relax_r_n, relax_it, flat,
      h0, h1, h2, h3, h4, h5, h6, h7, h8, h9, h10, h11, b0, b1, b2, b3, b4, b5, b6, b7, List.range', Function.update_apply]

theorem loopy_large_5 :
    (run loopy (3 / 20) (flat (3 / 10)) 0 5).n = 0 ∧
    (run loopy (3 / 20) (flat (3 / 10)) 0 5).it = 5 ∧
    (run loopy (3 / 20) (flat (3 / 10)) 0 5).r.n = 7 ∧
    (run loopy (3 / 20) (flat (3 / 10)) 0 5).r.val 0 = 4913 / 27000 ∧
    (run loopy (3 / 20) (flat (3 / 10)) 0 5).r.val 1 = 4913 / 54000 ∧
    (run loopy (3 / 20) (flat (3 / 10)) 0 5).r.val 2 = 0 := by
  obtain ⟨h0, h1, h2, h3, h4, h5, h6, h7, h8, h9, h10, h11⟩ := loopy_facts
  obtain ⟨b0, b1, b2, b3, b4, b5, b6⟩ := loopy_large_4
  have hstep : (run loopy (3 / 20) (flat (3 / 10)) 0 5) = pushStep loopy (3 / 20) (flat (3 / 10)) (run loopy (3 / 20) (flat (3 / 10)) 0 4) := by
    rw [run_succ]
    exact if_pos (by rw [show _ = 1 from b0]; decide)
  rw [hstep]
  refine ⟨?_, ?_, ?_, ?_, ?_, ?_⟩ <;>
    norm_num [pushStep, popnode, relax_n, relax_list, relax_r_val, relax_r_n, relax_it, flat,
      h0, h1, h2, h3, h4, h5, h6, h7, h8, h9, h10, h11, b0, b1, b2, b3, b4, b5, b6, List.range', Function.update_apply]

theorem loopy_small_safe : (run loopy (3 / 20) (flat (7 / 25)) 0 4).oob = false := by
  obtain ⟨-, -, hrn, -⟩ := loopy_small_4
  refine run_safe loopy (graphOK_mkadjlist 7 [⟨0, 0⟩, ⟨0, 0⟩, ⟨0, 1⟩, ⟨1, 2⟩, ⟨6, 0⟩] (by decide))
    (3 / 20) (flat (7 / 25)) (7 / 25) (by norm_num) (by norm_num) (by norm_num)
    (fun v _ => le_refl _) 0 (by decide) (fun _ => by norm_num) 4 ?_
  rw [hrn]
  decide

theorem loopy_large_safe : (run loopy (3 / 20) (flat (3 / 10)) 0 5).oob = false := by
  obtain ⟨-, -, hrn, -⟩ := loopy_large_5
  refine run_safe loopy (graphOK_mkadjlist 7 [⟨0, 0⟩, ⟨0, 0⟩, ⟨0, 1⟩, ⟨1, 2⟩, ⟨6, 0⟩] (by decide))
    (3 / 20) (flat (3 / 10)) (3 / 10) (by norm_num) (by norm_num) (by norm_num)
    (fun v _ => le_refl _) 0 (by decide) (fun _ => by norm_num) 5 ?_
  rw [hrn]
  decide

theorem loopy_small_inbounds : InBounds loopy (3 / 20) (flat (7 / 25)) 0 := fun k =>
  run_r_le loopy (3 / 20) (flat (7 / 25)) 0 k
    (run_inbounds_of_final loopy (3 / 20) (flat (7 / 25)) 0 4 loopy_small_4.1 loopy_small_safe k)

theorem loopy_large_inbounds : InBounds loopy (3 / 20) (flat (3 / 10)) 0 := fun k =>
  run_r_le loopy (3 / 20) (flat (3 / 10)) 0 k
    (run_inbounds_of_final loopy (3 / 20) (flat (3 / 10)) 0 5 loopy_large_5.1 loopy_large_safe k)

/-- C14, counterexample.  On the graph of the file with the lines `0 0`, `0 0`,
`0 1`, `1 2` and `6 0`, with `alpha = 0.15` and source 0, `push` of `push.c`
performs 4 iterations for `eps = 0.28` and 5 iterations for the larger
`eps = 0.3`.  With the smaller `eps` node 1 is pushed early, on its first share
`17/60`, and what it receives later stays below `eps`; with the larger one it
is pushed once, later, on a residual large enough to put node 2 over the
threshold as well. -/
theorem push_count_not_monotone :
    (∀ j, push loopy (3 / 20) 0 (7 / 25) (allocdict 7) (allocdict 7) (fun _ => 0) (4 + j)
      = some (run loopy (3 / 20) (flat (7 / 25)) 0 4)) ∧
    (run loopy (3 / 20) (flat (7 / 25)) 0 4).it = 4 ∧
    (∀ j, push loopy (3 / 20) 0 (3 / 10) (allocdict 7) (allocdict 7) (fun _ => 0) (5 + j)
      = some (run loopy (3 / 20) (flat (3 / 10)) 0 5)) ∧
    (run loopy (3 / 20) (flat (3 / 10)) 0 5).it = 5 ∧
    (7 / 25 : ℚ) ≤ 3 / 10 ∧
    ¬ ((run loopy (3 / 20) (flat (7 / 25)) 0 4).it
        ≥ (run loopy (3 / 20) (flat (3 / 10)) 0 5).it) := by
  obtain ⟨h1, h2, -⟩ := loopy_small_4
  obtain ⟨h3, h4, -⟩ := loopy_large_5
  refine ⟨?_, h2, ?_, h4, by norm_num, ?_⟩
  · intro j
    exact pushWith_of_nil loopy (3 / 20) (flat (7 / 25)) 0 _ _ _ 4 j h1 loopy_small_safe
  · intro j
    exact pushWith_of_nil loopy (3 / 20) (flat (3 / 10)) 0 _ _ _ 5 j h3 loopy_large_safe
  · rw [h2, h4]
    decide

theorem run_of_large_thr (g : adjlist) (alpha : ℚ) (thr : Nat → ℚ) (source k : Nat)
    (h : 1 ≤ thr source) :
    (run g alpha thr source k).n = 0 ∧ (run g alpha thr source k).it = 0 := by
  have hn : (pushInit thr source (allocdict g.n) (allocdict g.n) (fun _ => 0)).n = 0 := by
    rw [pushInit_n, if_neg (not_lt.mpr h)]
  have hst : run g alpha thr source k
      = pushInit thr source (allocdict g.n) (allocdict g.n) (fun _ => 0) := by
    have hst := pushLoop_stable g alpha thr 0 k
      (pushInit thr source (allocdict g.n) (allocdict g.n) (fun _ => 0)) hn
    rw [Nat.zero_add] at hst
    exact hst
  rw [hst]
  exact ⟨hn, pushInit_it _ _ _ _ _⟩

/-- C14, as the code has it.  On a built graph, for `alpha` in (0,1), a source
below `n` and `0 < eps1 <= eps2`, when the runs of `push` of `push.c` for
`eps1` and for `eps2` both keep `r->n` within `nmax`, `push` returns for both
values; its count `it` is at most `1/(eps1*alpha)` for `eps1` and at most
`1/(eps2*alpha)` for `eps2`, and the second bound is the smaller one; the
counts themselves are ordered only when `eps2 >= 1`, where the run with `eps2`
performs no iteration at all. -/
theorem push_count_bounds (n : Nat) (es : List edge) (h : ∀ ed ∈ es, ed.s < n ∧ ed.t < n)
    (g : adjlist) (hg : g = mkadjlist (rawgraph n es)) (alpha eps1 eps2 : ℚ) (source : Nat)
    (ha0 : 0 < alpha) (ha1 : alpha < 1) (h1 : 0 < eps1) (h12 : eps1 ≤ eps2) (hs : source < n)
    (hfit1 : InBounds g alpha (flat eps1) source)
    (hfit2 : InBounds g alpha (flat eps2) source) :
    ∃ st1 st2 : PushState,
      (∃ fuel, ∀ j, push g alpha source eps1 (allocdict g.n) (allocdict g.n) (fun _ => 0)
        (fuel + j) = some st1) ∧
      (∃ fuel, ∀ j, push g alpha source eps2 (allocdict g.n) (allocdict g.n) (fun _ => 0)
        (fuel + j) = some st2) ∧
      (st1.it : ℚ) ≤ 1 / (eps1 * alpha) ∧
      (st2.it : ℚ) ≤ 1 / (eps2 * alpha) ∧
      1 / (eps2 * alpha) ≤ 1 / (eps1 * alpha) ∧
      (1 ≤ eps2 → st2.it = 0 ∧ st2.it ≤ st1.it) := by
  have hok : GraphOK g := by
    rw [hg]
    exact graphOK_mkadjlist n es h
  have hs2 : source < g.n := by
    rw [hg]
    exact hs
  have h2 : 0 < eps2 := lt_of_lt_of_le h1 h12
  have hthr : ∀ eps : ℚ, ∀ v, 0 < flat eps v → eps ≤ flat eps v := fun _ _ _ => le_refl _
  have hδ : ∀ eps : ℚ, 1 > flat eps source → eps ≤ 1 := fun _ h => le_of_lt h
  have ht1 := run_terminates g hok alpha (flat eps1) eps1 ha0 (le_of_lt ha1) h1 (hthr eps1)
    source hs2 (hδ eps1)
  have ht2 := run_terminates g hok alpha (flat eps2) eps2 ha0 (le_of_lt ha1) h2 (hthr eps2)
    source hs2 (hδ eps2)
  refine ⟨run g alpha (flat eps1) source (⌊1 / (eps1 * alpha)⌋₊ + 1),
    run g alpha (flat eps2) source (⌊1 / (eps2 * alpha)⌋₊ + 1),
    ⟨⌊1 / (eps1 * alpha)⌋₊ + 1, ?_⟩, ⟨⌊1 / (eps2 * alpha)⌋₊ + 1, ?_⟩, ?_, ?_, ?_, ?_⟩
  · intro j
    exact pushWith_of_nil g alpha (flat eps1) source _ _ _ _ j ht1
      (run_safe g hok alpha (flat eps1) eps1 ha0 (le_of_lt ha1) h1 (hthr eps1) source hs2
        (hδ eps1) _ (hfit1 _))
  · intro j
    exact pushWith_of_nil g alpha (flat eps2) source _ _ _ _ j ht2
      (run_safe g hok alpha (flat eps2) eps2 ha0 (le_of_lt ha1) h2 (hthr eps2) source hs2
        (hδ eps2) _ (hfit2 _))
  · exact run_it_bound g hok alpha (flat eps1) eps1 ha0 (le_of_lt ha1) h1 (hthr eps1) source
      hs2 (hδ eps1) _
  · exact run_it_bound g hok alpha (flat eps2) eps2 ha0 (le_of_lt ha1) h2 (hthr eps2) source
      hs2 (hδ eps2) _
  · exact one_div_le_one_div_of_le (mul_pos h1 ha0) (mul_le_mul_of_nonneg_right h12 (le_of_lt ha0))
  · intro hbig
    have := (run_of_large_thr g alpha (flat eps2) source (⌊1 / (eps2 * alpha)⌋₊ + 1) hbig).2
    rw [this]
    exact ⟨rfl, Nat.zero_le _⟩

theorem push_count_bounds_witness :
    ∃ st1 st2 : PushState,
      (∃ fuel, ∀ j, push loopy (3 / 20) 0 (7 / 25) (allocdict loopy.n) (allocdict loopy.n)
        (fun _ => 0) (fuel + j) = some st1) ∧
      (∃ fuel, ∀ j, push loopy (3 / 20) 0 (3 / 10) (allocdict loopy.n) (allocdict loopy.n)
        (fun _ => 0) (fuel + j) = some st2) ∧
      (st1.it : ℚ) ≤ 1 / (7 / 25 * (3 / 20)) ∧
      (st2.it : ℚ) ≤ 1 / (3 / 10 * (3 / 20)) ∧
      1 / ((3 / 10 : ℚ) * (3 / 20)) ≤ 1 / (7 / 25 * (3 / 20)) ∧
      ((1 : ℚ) ≤ 3 / 10 → st2.it = 0 ∧ st2.it ≤ st1.it) :=
  push_count_bounds 7 [⟨0, 0⟩, ⟨0, 0⟩, ⟨0, 1⟩, ⟨1, 2⟩, ⟨6, 0⟩] (by decide) loopy rfl (3 / 20)
    (7 / 25) (3 / 10) 0 (by norm_num) (by norm_num) (by norm_num) (by norm_num) (by decide)
    loopy_small_inbounds loopy_large_inbounds

/-! ## The stopping rule of the power iteration (C15) -/

theorem prLoop_stable (g : Rooted.sparse) (source : Nat) (alpha eps : ℚ) (k j : Nat)
    (st : Rooted.PRState) (h : ¬ (Rooted.prLoop g source alpha eps k st).prec > eps) :
    Rooted.prLoop g source alpha eps (k + j) st = Rooted.prLoop g source alpha eps k st := by
  induction k generalizing st with
  | zero =>
    have h0 : ¬ st.prec > eps := h
    cases j with
    | zero => rfl
    | succ j =>
      rw [Nat.zero_add]
      show Rooted.prLoop g source alpha eps (j + 1) st = st
      rw [Rooted.prLoop, if_neg h0]
  | succ k ih =>
    by_cases hp : st.prec > eps
    · have e1 : Rooted.prLoop g source alpha eps (k + 1 + j) st
          = Rooted.prLoop g source alpha eps (k + j) (Rooted.prStep g source alpha st) := by
        rw [show k + 1 + j = (k + j) + 1 by omega, Rooted.prLoop, if_pos hp]
      have e2 : Rooted.prLoop g source alpha eps (k + 1) st
          = Rooted.prLoop g source alpha eps k (Rooted.prStep g source alpha st) := by
        rw [Rooted.prLoop, if_pos hp]
      rw [e1, e2]
      apply ih
      rw [← e2]
      exact h
    · have e1 : Rooted.prLoop g source alpha eps (k + 1 + j) st = st := by
        rw [show k + 1 + j = (k + j) + 1 by omega, Rooted.prLoop, if_neg hp]
      have e2 : Rooted.prLoop g source alpha eps (k + 1) st = st := by
        rw [Rooted.prLoop, if_neg hp]
      rw [e1, e2]

theorem prLoop_succ (g : Rooted.sparse) (source : Nat) (alpha eps : ℚ) (k : Nat)
    (st : Rooted.PRState) :
    Rooted.prLoop g source alpha eps (k + 1) st
      = if (Rooted.prLoop g source alpha eps k st).prec > eps then
          Rooted.prStep g source alpha (Rooted.prLoop g source alpha eps k st)
        else Rooted.prLoop g source alpha eps k st := by
  induction k generalizing st with
  | zero => simp [Rooted.prLoop]
  | succ k ih =>
    by_cases h : st.prec > eps
    · have e1 : Rooted.prLoop g source alpha eps (k + 1 + 1) st
          = Rooted.prLoop g source alpha eps (k + 1) (Rooted.prStep g source alpha st) := by
        rw [Rooted.prLoop, if_pos h]
      have e2 : Rooted.prLoop g source alpha eps (k + 1) st
          = Rooted.prLoop g source alpha eps k (Rooted.prStep g source alpha st) := by
        rw [Rooted.prLoop, if_pos h]
      rw [e1, e2, ih]
    · have e1 : Rooted.prLoop g source alpha eps (k + 1 + 1) st = st := by
        rw [Rooted.prLoop, if_neg h]
      have e2 : Rooted.prLoop g source alpha eps (k + 1) st = st := by
        rw [Rooted.prLoop, if_neg h]
      rw [e1, e2, if_neg h]

theorem prRun_succ (g : Rooted.sparse) (source : Nat) (alpha eps : ℚ) (k : Nat) :
    Rooted.prRun g source alpha eps (k + 1)
      = if (Rooted.prRun g source alpha eps k).prec > eps then
          Rooted.prStep g source alpha (Rooted.prRun g source alpha eps k)
        else Rooted.prRun g source alpha eps k :=
  prLoop_succ g source alpha eps k _

theorem pagerank_of_stop (g : Rooted.sparse) (source : Nat) (alpha eps : ℚ) (k j : Nat)
    (h : ¬ (Rooted.prRun g source alpha eps k).prec > eps) :
    Rooted.pagerank g source alpha eps (k + j) = some (Rooted.prRun g source alpha eps k).v1 := by
  have hst : Rooted.prRun g source alpha eps (k + j) = Rooted.prRun g source alpha eps k :=
    prLoop_stable g source alpha eps k j _ h
  unfold Rooted.pagerank
  simp only []
  rw [hst, if_neg h]

theorem twoleaves_facts : twoleaves.n = 3 ∧ twoleaves.e = 2 ∧
    twoleaves.el = [⟨0, 1⟩, ⟨0, 2⟩] ∧ twoleaves.dout 0 = 2 := by
  decide

theorem twoleaves_onestep (v : Nat → ℚ) :
    Rooted.onestep twoleaves v 0 = 0 ∧ Rooted.onestep twoleaves v 1 = v 0 / 2 ∧
    Rooted.onestep twoleaves v 2 = v 0 / 2 := by
  obtain ⟨h0, h1, h2, h3⟩ := twoleaves_facts
  refine ⟨?_, ?_, ?_⟩ <;>
    norm_num [Rooted.onestep, h0, h1, h2, h3, Function.update_apply]

theorem twoleaves_step (st : Rooted.PRState) (alpha : ℚ) :
    (Rooted.prStep twoleaves 0 alpha st).v1 0 = alpha ∧
    (Rooted.prStep twoleaves 0 alpha st).v1 1 = st.v1 0 / 2 * (1 - alpha) ∧
    (Rooted.prStep twoleaves 0 alpha st).v1 2 = st.v1 0 / 2 * (1 - alpha) ∧
    (Rooted.prStep twoleaves 0 alpha st).it = st.it + 1 := by
  obtain ⟨h0, h1, h2, h3⟩ := twoleaves_facts
  obtain ⟨o0, o1, o2⟩ := twoleaves_onestep st.v1
  refine ⟨?_, ?_, ?_, ?_⟩ <;>
    norm_num [Rooted.prStep, Rooted.scale, h0, o0, o1, o2, List.range_succ,
      Function.update_apply]

theorem twoleaves_prec (st : Rooted.PRState) (alpha : ℚ) :
    (Rooted.prStep twoleaves 0 alpha st).prec
      = Rooted.precsum 3 st.v1 (Rooted.prStep twoleaves 0 alpha st).v1 := by
  obtain ⟨h0, -⟩ := twoleaves_facts
  simp only [Rooted.prStep, h0]

theorem twoleaves_run_0 :
    (Rooted.prRun twoleaves 0 (3 / 20) (9 / 10) 0).v1 0 = 1 ∧
    (Rooted.prRun twoleaves 0 (3 / 20) (9 / 10) 0).v1 1 = 0 ∧
    (Rooted.prRun twoleaves 0 (3 / 20) (9 / 10) 0).v1 2 = 0 ∧
    (Rooted.prRun twoleaves 0 (3 / 20) (9 / 10) 0).prec = 1 ∧
    (Rooted.prRun twoleaves 0 (3 / 20) (9 / 10) 0).it = 0 := by
  refine ⟨?_, ?_, ?_, ?_, ?_⟩ <;>
    simp [Rooted.prRun, Rooted.prLoop, Rooted.prInit, Function.update_apply]

theorem twoleaves_run_1 :
    (Rooted.prRun twoleaves 0 (3 / 20) (9 / 10) 1).v1 0 = 3 / 20 ∧
    (Rooted.prRun twoleaves 0 (3 / 20) (9 / 10) 1).v1 1 = 17 / 40 ∧
    (Rooted.prRun twoleaves 0 (3 / 20) (9 / 10) 1).v1 2 = 17 / 40 ∧
    (Rooted.prRun twoleaves 0 (3 / 20) (9 / 10) 1).prec = 17 / 10 ∧
    (Rooted.prRun twoleaves 0 (3 / 20) (9 / 10) 1).it = 1 := by
  obtain ⟨b0, b1, b2, b3, b4⟩ := twoleaves_run_0
  have hstep : Rooted.prRun twoleaves 0 (3 / 20) (9 / 10) 1
      = Rooted.prStep twoleaves 0 (3 / 20) (Rooted.prRun twoleaves 0 (3 / 20) (9 / 10) 0) := by
    rw [prRun_succ]
    exact if_pos (by rw [b3]; norm_num)
  obtain ⟨s0, s1, s2, s3⟩ :=
    twoleaves_step (Rooted.prRun twoleaves 0 (3 / 20) (9 / 10) 0) (3 / 20)
  have hp := twoleaves_prec (Rooted.prRun twoleaves 0 (3 / 20) (9 / 10) 0) (3 / 20)
  rw [hstep]
  refine ⟨?_, ?_, ?_, ?_, ?_⟩
  · rw [s0]
  · rw [s1, b0]
    norm_num
  · rw [s2, b0]
    norm_num
  · rw [hp]
    norm_num [Rooted.precsum, List.range_succ, s0, s1, s2, b0, b1, b2]
  · rw [s3, b4]

theorem twoleaves_run_2 :
    (Rooted.prRun twoleaves 0 (3 / 20) (9 / 10) 2).v1 0 = 3 / 20 ∧
    (Rooted.prRun twoleaves 0 (3 / 20) (9 / 10) 2).v1 1 = 51 / 800 ∧
    (Rooted.prRun twoleaves 0 (3 / 20) (9 / 10) 2).v1 2 = 51 / 800 ∧
    (Rooted.prRun twoleaves 0 (3 / 20) (9 / 10) 2).prec = 289 / 400 ∧
    (Rooted.prRun twoleaves 0 (3 / 20) (9 / 10) 2).it = 2 := by
  obtain ⟨b0, b1, b2, b3, b4⟩ := twoleaves_run_1
  have hstep : Rooted.prRun twoleaves 0 (3 / 20) (9 / 10) 2
      = Rooted.prStep twoleaves 0 (3 / 20) (Rooted.prRun twoleaves 0 (3 / 20) (9 / 10) 1) := by
    rw [prRun_succ]
    exact if_pos (by rw [b3]; norm_num)
  obtain ⟨s0, s1, s2, s3⟩ :=
    twoleaves_step (Rooted.prRun twoleaves 0 (3 / 20) (9 / 10) 1) (3 / 20)
  have hp := twoleaves_prec (Rooted.prRun twoleaves 0 (3 / 20) (9 / 10) 1) (3 / 20)
  rw [hstep]
  refine ⟨?_, ?_, ?_, ?_, ?_⟩
  · rw [s0]
  · rw [s1, b0]
    norm_num
  · rw [s2, b0]
    norm_num
  · rw [hp]
    norm_num [Rooted.precsum, List.range_succ, s0, s1, s2, b0, b1, b2]
  · rw [s3, b4]

theorem twoleaves_documented :
    Rooted.nextiterate twoleaves 0 (3 / 20) (Rooted.prInit 0).v1 0 = 3 / 20 ∧
    Rooted.nextiterate twoleaves 0 (3 / 20) (Rooted.prInit 0).v1 1 = 17 / 40 ∧
    Rooted.nextiterate twoleaves 0 (3 / 20) (Rooted.prInit 0).v1 2 = 17 / 40 ∧
    Rooted.infnorm twoleaves.n
      (fun j => Rooted.nextiterate twoleaves 0 (3 / 20) (Rooted.prInit 0).v1 j
        - (Rooted.prInit 0).v1 j) = 17 / 20 := by
  obtain ⟨h0, -⟩ := twoleaves_facts
  obtain ⟨o0, o1, o2⟩ := twoleaves_onestep (Rooted.prInit 0).v1
  have e0 : (Rooted.prInit 0).v1 0 = 1 := by simp [Rooted.prInit]
  have e1 : (Rooted.prInit 0).v1 1 = 0 := by simp [Rooted.prInit]
  have e2 : (Rooted.prInit 0).v1 2 = 0 := by simp [Rooted.prInit]
  have n0 : Rooted.nextiterate twoleaves 0 (3 / 20) (Rooted.prInit 0).v1 0 = 3 / 20 := by
    norm_num [Rooted.nextiterate, o0]
  have n1 : Rooted.nextiterate twoleaves 0 (3 / 20) (Rooted.prInit 0).v1 1 = 17 / 40 := by
    norm_num [Rooted.nextiterate, o1, e0]
  have n2 : Rooted.nextiterate twoleaves 0 (3 / 20) (Rooted.prInit 0).v1 2 = 17 / 40 := by
    norm_num [Rooted.nextiterate, o2, e0]
  refine ⟨n0, n1, n2, ?_⟩
  rw [h0]
  norm_num [Rooted.infnorm, List.range_succ, n0, n1, n2, e0, e1, e2, abs_of_nonneg, abs_of_neg]

/-- C15, evaluated on the input file with the lines `0 1` and `0 2`, source 0,
`alpha = 0.15`, `eps = 0.9`.  The rule of the header comment stops at the first
iterate `(0.15, 0.425, 0.425)`: the infinite norm of its difference with the
start vector is `0.85`, below `eps`.  `pagerank` computes for that iterate
`prec = 1.7`, the sum of the absolute differences, goes on, and returns the
second iterate `(0.15, 0.06375, 0.06375)` after two iterations. -/
theorem pagerank_stops_on_sum :
    (∀ j, Rooted.pagerank twoleaves 0 (3 / 20) (9 / 10) (2 + j)
      = some (Rooted.prRun twoleaves 0 (3 / 20) (9 / 10) 2).v1) ∧
    (Rooted.prRun twoleaves 0 (3 / 20) (9 / 10) 2).it = 2 ∧
    (Rooted.prRun twoleaves 0 (3 / 20) (9 / 10) 2).v1 1 = 51 / 800 ∧
    (Rooted.prRun twoleaves 0 (3 / 20) (9 / 10) 1).prec = 17 / 10 ∧
    (∀ j, Rooted.pagerank_documented twoleaves 0 (3 / 20) (9 / 10) (j + 1) (Rooted.prInit 0).v1
      = some (Rooted.nextiterate twoleaves 0 (3 / 20) (Rooted.prInit 0).v1)) ∧
    Rooted.infnorm twoleaves.n
      (fun j => Rooted.nextiterate twoleaves 0 (3 / 20) (Rooted.prInit 0).v1 j
        - (Rooted.prInit 0).v1 j) = 17 / 20 ∧
    Rooted.nextiterate twoleaves 0 (3 / 20) (Rooted.prInit 0).v1 1 = 17 / 40 ∧
    (Rooted.prRun twoleaves 0 (3 / 20) (9 / 10) 2).v1 1
      ≠ Rooted.nextiterate twoleaves 0 (3 / 20) (Rooted.prInit 0).v1 1 := by
  obtain ⟨-, a1, -, a3, a4⟩ := twoleaves_run_2
  obtain ⟨-, -, -, b3, -⟩ := twoleaves_run_1
  obtain ⟨-, d1, -, d3⟩ := twoleaves_documented
  refine ⟨?_, a4, a1, b3, ?_, d3, d1, ?_⟩
  · intro j
    exact pagerank_of_stop twoleaves 0 (3 / 20) (9 / 10) 2 j (by rw [a3]; norm_num)
  · intro j
    rw [Rooted.pagerank_documented, if_pos (by rw [d3]; norm_num)]
  · rw [a1, d1]
    norm_num

/-! ## Runs that leave `r->list`

On the inputs evaluated here the run of `push` stores a node in `r->list` at an
index that the array does not have: the pop writes `r->val[u] = 0`, and when
mass comes back to `u` the test `r->val[v]==0` appends `u` a second time. -/

theorem twocycle_fault (alpha eps : ℚ) (he0 : 0 < eps) (he1 : eps < 1 - alpha)
    (he2 : eps < 1) :
    (run twocycle alpha (flat eps) 0 1).n = 1 ∧
    (run twocycle alpha (flat eps) 0 1).r.n = 2 ∧
    (run twocycle alpha (flat eps) 0 1).oob = false ∧
    (run twocycle alpha (flat eps) 0 2).r.n = 3 ∧
    (run twocycle alpha (flat eps) 0 2).r.nmax = 2 ∧
    (run twocycle alpha (flat eps) 0 2).r.oob = true := by
  obtain ⟨h0, h1, h2, h3, h4, h5, h6, h7⟩ := twocycle_facts
  refine ⟨?_, ?_, ?_, ?_, ?_, ?_⟩ <;>
    simp [PushState.oob, run, pushLoop, pushStep, pushInit, flat, relax_n, relax_list,
      relax_r_val, relax_r_n, relax_r_oob, relax_r_nmax, relax_p, popnode, allocdict, Dict.add,
      h0, h1, h2, h3, h4, h5, h6, h7, List.range', Function.update_apply, he0, he1, he2]

theorem twocycle_no_result (alpha eps : ℚ) (he0 : 0 < eps) (he1 : eps < 1 - alpha)
    (he2 : eps < 1) (fuel : Nat) :
    push twocycle alpha 0 eps (allocdict 2) (allocdict 2) (fun _ => 0) fuel = none := by
  have ho : (run twocycle alpha (flat eps) 0 2).oob = true := by
    unfold PushState.oob
    rw [(twocycle_fault alpha eps he0 he1 he2).2.2.2.2.2]
    rfl
  exact push_none_of_oob twocycle alpha (flat eps) 0 2 ho fuel

/-- C2 (conservation), evaluated on the two-cycle (file lines `0 1` and `1 0`,
no node of out-degree 0), source 0, `alpha = 0.15`, `eps = 0.01`: after the
first iteration `r->list` holds `0, 1` and is full, all stores were inside, and
node 1 waits on the worklist; the second iteration pops node 1 and appends
node 0 to `r->list` again, at index 2 of an array of `nmax = 2` entries.  From
that store on the C program has no defined behaviour, so it does not keep
`sum(p) + sum(r) = 1` through the iterations that follow, and `push` has no
defined result, whatever the bound on its iterations. -/
theorem conservation_run_leaves_list :
    twocycle.d 0 = 1 ∧ twocycle.d 1 = 1 ∧
    (run twocycle (3 / 20) (flat (1 / 100)) 0 1).n = 1 ∧
    (run twocycle (3 / 20) (flat (1 / 100)) 0 1).r.n = 2 ∧
    (run twocycle (3 / 20) (flat (1 / 100)) 0 1).oob = false ∧
    (run twocycle (3 / 20) (flat (1 / 100)) 0 2).r.n = 3 ∧
    (run twocycle (3 / 20) (flat (1 / 100)) 0 2).r.nmax = 2 ∧
    (run twocycle (3 / 20) (flat (1 / 100)) 0 2).r.oob = true ∧
    (∀ fuel, push twocycle (3 / 20) 0 (1 / 100) (allocdict 2) (allocdict 2) (fun _ => 0) fuel
      = none) := by
  obtain ⟨h1, h2, h3, h4, h5, h6⟩ :=
    twocycle_fault (3 / 20) (1 / 100) (by norm_num) (by norm_num) (by norm_num)
  exact ⟨by decide, by decide, h1, h2, h3, h4, h5, h6,
    twocycle_no_result (3 / 20) (1 / 100) (by norm_num) (by norm_num) (by norm_num)⟩

/-- C5 (termination and push bound), evaluated on the two-cycle, source 0,
`alpha = 0.15`, `eps = 0.001`: the second iteration of the loop of `push` of
`push.c` stores node 0 in `r->list[2]`, outside the array of `nmax = 2`
entries, with node 0 still to be pushed.  The C program has no defined
behaviour from there: for no bound on the iterations does `push` return a
state, and so it reports no count `it` within `1/(eps*alpha)`. -/
theorem push_never_returns :
    (run twocycle (3 / 20) (flat (1 / 1000)) 0 2).n = 1 ∧
    (run twocycle (3 / 20) (flat (1 / 1000)) 0 2).r.n = 3 ∧
    (run twocycle (3 / 20) (flat (1 / 1000)) 0 2).r.nmax = 2 ∧
    (run twocycle (3 / 20) (flat (1 / 1000)) 0 2).r.oob = true ∧
    (∀ fuel, push twocycle (3 / 20) 0 (1 / 1000) (allocdict 2) (allocdict 2) (fun _ => 0) fuel
      = none) := by
  obtain ⟨-, -, -, h4, h5, h6⟩ :=
    twocycle_fault (3 / 20) (1 / 1000) (by norm_num) (by norm_num) (by norm_num)
  refine ⟨?_, h4, h5, h6,
    twocycle_no_result (3 / 20) (1 / 1000) (by norm_num) (by norm_num) (by norm_num)⟩
  obtain ⟨h0, h1, h2, h3, h4, h5, h6, h7⟩ := twocycle_facts
  norm_num [run, pushLoop, pushStep, pushInit, flat, relax_n, relax_list, relax_r_val, popnode,
    allocdict, Dict.add, h0, h1, h2, h3, h4, h5, h6, h7, List.range', Function.update_apply]

theorem loopsink_facts : loopsink.n = 2 ∧ loopsink.cd 0 = 0 ∧ loopsink.cd 1 = 2 ∧
    loopsink.cd 2 = 2 ∧ loopsink.adj 0 = 0 ∧ loopsink.adj 1 = 1 ∧ loopsink.d 0 = 2 ∧
    loopsink.d 1 = 0 := by
  decide

/-- C6 (sink mass drop), evaluated on the graph of the file with the lines
`0 0` and `0 1` (node 1 has out-degree 0), source 0, `alpha = 0.15`,
`eps = 0.1`: the first iteration pops node 0 and sets `r[0] = 0`; at the edge
`0 -> 0` node 0 is appended to `r->list` again, which fills the array, and at
the edge `0 -> 1` node 1 is stored in `r->list[2]`, outside the array of
`nmax = 2` entries.  The C program has no defined behaviour from there, so it
does not reach a final state with `sum(p) + sum(r)` equal to
`1 - ((1-alpha)/alpha) * (sum of p[u] over sinks u)`. -/
theorem sink_run_leaves_list :
    loopsink.d 1 = 0 ∧
    (run loopsink (3 / 20) (flat (1 / 10)) 0 0).oob = false ∧
    (run loopsink (3 / 20) (flat (1 / 10)) 0 1).r.n = 3 ∧
    (run loopsink (3 / 20) (flat (1 / 10)) 0 1).r.nmax = 2 ∧
    (run loopsink (3 / 20) (flat (1 / 10)) 0 1).r.oob = true ∧
    (∀ fuel, push loopsink (3 / 20) 0 (1 / 10) (allocdict 2) (allocdict 2) (fun _ => 0) fuel
      = none) := by
  obtain ⟨h0, h1, h2, h3, h4, h5, h6, h7⟩ := loopsink_facts
  have ho : (run loopsink (3 / 20) (flat (1 / 10)) 0 1).r.oob = true := by
    norm_num [run, pushLoop, pushStep, pushInit, flat, relax_n, relax_list, relax_r_val,
      relax_r_n, relax_r_oob, relax_r_nmax, relax_p, popnode, allocdict, Dict.add, h0, h1, h2,
      h3, h4, h5, h6, h7, List.range', Function.update_apply]
  refine ⟨h7, ?_, ?_, ?_, ho, ?_⟩
  · norm_num [PushState.oob, run, pushLoop, pushInit, flat, allocdict, Dict.add, h0]
  · norm_num [run, pushLoop, pushStep, pushInit, flat, relax_n, relax_list, relax_r_val,
      relax_r_n, relax_r_oob, relax_r_nmax, relax_p, popnode, allocdict, Dict.add, h0, h1, h2,
      h3, h4, h5, h6, h7, List.range', Function.update_apply]
  · norm_num [run, pushLoop, pushStep, pushInit, flat, relax_n, relax_list, relax_r_val,
      relax_r_n, relax_r_oob, relax_r_nmax, relax_p, popnode, allocdict, Dict.add, h0, h1, h2,
      h3, h4, h5, h6, h7, List.range', Function.update_apply]
  · intro fuel
    have ho2 : (run loopsink (3 / 20) (flat (1 / 10)) 0 1).oob = true := by
      unfold PushState.oob
      rw [ho]
      rfl
    exact push_none_of_oob loopsink (3 / 20) (flat (1 / 10)) 0 1 ho2 fuel

/-- C7 (emitted result set), evaluated on the two-cycle, source 0,
`alpha = 0.15`, `eps = 0.25`: the second iteration of the loop of `push` stores
node 0 in `r->list[2]`, outside the array of `nmax = 2` entries.  The C program
has no defined behaviour from there (nothing keeps the stray stores away from
the count `p->n` or from `p->list`), so `push` does not return a state in
which `p->list[0..p->n)` is known to be the set of nodes with a nonzero
result. -/
theorem result_set_run_leaves_list :
    (run twocycle (3 / 20) (flat (1 / 4)) 0 1).oob = false ∧
    (run twocycle (3 / 20) (flat (1 / 4)) 0 2).r.n = 3 ∧
    (run twocycle (3 / 20) (flat (1 / 4)) 0 2).r.nmax = 2 ∧
    (run twocycle (3 / 20) (flat (1 / 4)) 0 2).r.oob = true ∧
    (∀ fuel, push twocycle (3 / 20) 0 (1 / 4) (allocdict 2) (allocdict 2) (fun _ => 0) fuel
      = none) := by
  obtain ⟨-, -, h3, h4, h5, h6⟩ :=
    twocycle_fault (3 / 20) (1 / 4) (by norm_num) (by norm_num) (by norm_num)
  exact ⟨h3, h4, h5, h6,
    twocycle_no_result (3 / 20) (1 / 4) (by norm_num) (by norm_num) (by norm_num)⟩

theorem cleandict_allocdict (n : Nat) : AllPush.cleandict (allocdict n) = allocdict n := by
  simp [AllPush.cleandict, allocdict]

theorem queries_none_succ (g : adjlist) (eps : ℚ) (fuel i : Nat)
    (h : AllPush.queries g eps fuel i = none) : AllPush.queries g eps fuel (i + 1) = none := by
  rw [AllPush.queries, h]

/-- C8 (batch reuse), evaluated on the two-cycle with `eps = 0.1`: in
`allpush.c` the query for source 0, the first of the loop of `main`, stores
node 0 in `r->list[2]` in its second iteration, outside the array of
`nmax = 2` entries.  The C program has no defined behaviour from there: the
first call of `push` has no defined result, and so the loop never gets to the
query for source 1 (or any later one) with dictionaries to clean and reuse. -/
theorem batch_first_query_fails :
    (run twocycle ALPHA (scaled twocycle (1 / 10)) 0 1).oob = false ∧
    (run twocycle ALPHA (scaled twocycle (1 / 10)) 0 2).r.n = 3 ∧
    (run twocycle ALPHA (scaled twocycle (1 / 10)) 0 2).r.nmax = 2 ∧
    (run twocycle ALPHA (scaled twocycle (1 / 10)) 0 2).r.oob = true ∧
    (∀ fuel, AllPush.push twocycle ALPHA 0 (1 / 10) (allocdict 2) (allocdict 2) (fun _ => 0) fuel
      = none) ∧
    (∀ fuel i, AllPush.queries twocycle (1 / 10) fuel (i + 1) = none) := by
  obtain ⟨h0, h1, h2, h3, h4, h5, h6, h7⟩ := twocycle_facts
  have ho : (run twocycle ALPHA (scaled twocycle (1 / 10)) 0 2).r.oob = true := by
    norm_num [run, pushLoop, pushStep, pushInit, scaled, ALPHA, relax_n, relax_list,
      relax_r_val, relax_r_n, relax_r_oob, relax_r_nmax, relax_p, popnode, allocdict, Dict.add,
      h0, h1, h2, h3, h4, h5, h6, h7, List.range', Function.update_apply]
  have hpush : ∀ fuel, AllPush.push twocycle ALPHA 0 (1 / 10) (allocdict 2) (allocdict 2)
      (fun _ => 0) fuel = none := by
    intro fuel
    have ho2 : (run twocycle ALPHA (scaled twocycle (1 / 10)) 0 2).oob = true := by
      unfold PushState.oob
      rw [ho]
      rfl
    exact push_none_of_oob twocycle ALPHA (scaled twocycle (1 / 10)) 0 2 ho2 fuel
  refine ⟨?_, ?_, ?_, ho, hpush, ?_⟩
  · norm_num [PushState.oob, run, pushLoop, pushStep, pushInit, scaled, ALPHA, relax_n,
      relax_list, relax_r_val, relax_r_n, relax_r_oob, relax_r_nmax, relax_p, popnode, allocdict,
      Dict.add, h0, h1, h2, h3, h4, h5, h6, h7, List.range', Function.update_apply]
  · norm_num [run, pushLoop, pushStep, pushInit, scaled, ALPHA, relax_n, relax_list,
      relax_r_val, relax_r_n, relax_r_oob, relax_r_nmax, relax_p, popnode, allocdict, Dict.add,
      h0, h1, h2, h3, h4, h5, h6, h7, List.range', Function.update_apply]
  · norm_num [run, pushLoop, pushStep, pushInit, scaled, ALPHA, relax_n, relax_list,
      relax_r_val, relax_r_n, relax_r_oob, relax_r_nmax, relax_p, popnode, allocdict, Dict.add,
      h0, h1, h2, h3, h4, h5, h6, h7, List.range', Function.update_apply]
  · intro fuel i
    induction i with
    | zero =>
      have hq : AllPush.queries twocycle (1 / 10) fuel (0 + 1)
          = match AllPush.push twocycle ALPHA 0 (1 / 10)
              (AllPush.cleandict (allocdict twocycle.n))
              (AllPush.cleandict (allocdict twocycle.n)) (fun _ => 0) fuel with
            | none => none
            | some st => some { r := st.r, p := st.p, list := st.list,
                                out := [] ++ [print_dict st.p] } := rfl
      rw [hq, cleandict_allocdict]
      have := hpush fuel
      rw [show (allocdict twocycle.n) = allocdict 2 from rfl, this]
    | succ i ih => exact queries_none_succ twocycle (1 / 10) fuel (i + 1) ih

/-- C13 (scenario B), evaluated on its own input: the two-cycle, source 0,
`alpha = 0.15`, `eps = 1e-8`.  After the first iteration `r->list` holds `0, 1`
and is full; the second iteration pops node 1 and stores node 0 in
`r->list[2]`, outside the array of `nmax = 2` entries.  The C program has no
defined behaviour from there, so `push` does not return values of `p` to
compare with `20/37` and `17/37`. -/
theorem scenario_twocycle_leaves_list :
    (run twocycle (3 / 20) (flat (1 / 100000000)) 0 1).n = 1 ∧
    (run twocycle (3 / 20) (flat (1 / 100000000)) 0 1).oob = false ∧
    (run twocycle (3 / 20) (flat (1 / 100000000)) 0 2).r.n = 3 ∧
    (run twocycle (3 / 20) (flat (1 / 100000000)) 0 2).r.nmax = 2 ∧
    (run twocycle (3 / 20) (flat (1 / 100000000)) 0 2).r.oob = true ∧
    (∀ fuel, push twocycle (3 / 20) 0 (1 / 100000000) (allocdict 2) (allocdict 2) (fun _ => 0)
      fuel = none) := by
  obtain ⟨h1, -, h3, h4, h5, h6⟩ :=
    twocycle_fault (3 / 20) (1 / 100000000) (by norm_num) (by norm_num) (by norm_num)
  exact ⟨h1, h3, h4, h5, h6,
    twocycle_no_result (3 / 20) (1 / 100000000) (by norm_num) (by norm_num) (by norm_num)⟩

/-- C20 (the power-iteration equation), evaluated on the two-cycle, source 0,
`alpha = 0.15`, `eps = 0.5`: the second iteration of the loop of `push` stores
node 0 in `r->list[2]`, outside the array of `nmax = 2` entries, while node 0
is back on the worklist.  The C program has no defined behaviour from there, so
the values of `r` and `p` after the later iterations, and at a return, are not
tied by the equation. -/
theorem equation_run_leaves_list :
    (run twocycle (3 / 20) (flat (1 / 2)) 0 1).oob = false ∧
    (run twocycle (3 / 20) (flat (1 / 2)) 0 2).n = 1 ∧
    (run twocycle (3 / 20) (flat (1 / 2)) 0 2).r.n = 3 ∧
    (run twocycle (3 / 20) (flat (1 / 2)) 0 2).r.nmax = 2 ∧
    (run twocycle (3 / 20) (flat (1 / 2)) 0 2).r.oob = true ∧
    (∀ fuel, push twocycle (3 / 20) 0 (1 / 2) (allocdict 2) (allocdict 2) (fun _ => 0) fuel
      = none) := by
  obtain ⟨-, -, h3, h4, h5, h6⟩ :=
    twocycle_fault (3 / 20) (1 / 2) (by norm_num) (by norm_num) (by norm_num)
  refine ⟨h3, ?_, h4, h5, h6,
    twocycle_no_result (3 / 20) (1 / 2) (by norm_num) (by norm_num) (by norm_num)⟩
  obtain ⟨h0, h1, h2, h3, h4, h5, h6, h7⟩ := twocycle_facts
  norm_num [run, pushLoop, pushStep, pushInit, flat, relax_n, relax_list, relax_r_val, popnode,
    allocdict, Dict.add, h0, h1, h2, h3, h4, h5, h6, h7, List.range', Function.update_apply]

end PushC
